import Mathlib

/-!
# Text viewport and commit-message editor

A shallow embedding of the two text components of `src/main.cpp`:

* `FileDisplay`, the read-only highlighted and wrapped file viewer
  (`loadFile`, `analyzeSyntax`, `rewrapLines`, `refreshDisplay`,
  `handleInput`, `reloadFile`, `changeFile`);
* `gitInterface`, whose `run` loop contains the commit-message editor.

Conventions of the embedding.

* A `std::string` is a `List Char`, a `std::vector<T>` is a `List T`.
* `int` is `Int` and `size_t` is `Nat`; sizes are assumed to fit in an `int`,
  so the casts `(int)size` are exact.
* A C++ loop is a structurally recursive function over a fuel argument.  The
  caller supplies a fuel that bounds the iteration count; for loops that
  always terminate a lemma shows that the result does not depend on the fuel
  once it reaches that bound.
* Undefined behaviour (an index outside a vector) and non-termination are
  the result `none`.
-/

namespace LabTui

/-! ## Data model -/

/-- The highlight classes, `enum class HighlightType` of `FileDisplay`. -/
inductive HighlightType
  | NORMAL
  | KEYWORD
  | STRING
  | COMMENT
  | NUMBER
  | VARIABLE
  | SYMBOL
  deriving DecidableEq, Repr

/-- One element of `wrappedLines`: a text slice with its highlight slice. -/
abbrev Chunk := List Char × List HighlightType

/-- The data members of `class FileDisplay` (the drawing window apart). -/
structure FileDisplay where
  filename : String
  originalLines : List (List Char)
  highlightInfo : List (List HighlightType)
  wrappedLines : List Chunk
  topLine : Int
  winHeight : Int
  winWidth : Int
  deriving DecidableEq, Repr

/-! ## Character classes

The `<cctype>` predicates in the "C" locale, on the characters of a line. -/

/-- The C library test `isdigit`. -/
def isdigit (c : Char) : Bool := decide ('0' ≤ c ∧ c ≤ '9')

/-- The C library test `isalnum`. -/
def isalnum (c : Char) : Bool :=
  isdigit c || decide ('a' ≤ c ∧ c ≤ 'z') || decide ('A' ≤ c ∧ c ≤ 'Z')

/-- The C library test `isspace`: space, `\t`, `\n`, `\v`, `\f`, `\r`. -/
def isspace (c : Char) : Bool := decide (c = ' ') || decide (9 ≤ c.toNat ∧ c.toNat ≤ 13)

/-- The backslash character. -/
def backslash : Char := Char.ofNat 92

/-- The double quote character. -/
def dquote : Char := Char.ofNat 34

/-- The single quote character. -/
def squote : Char := Char.ofNat 39

/-- The line feed character. -/
def newline : Char := Char.ofNat 10

/-- The subscript `line[i]` of a `std::string` (the terminator at `i = size`). -/
def charAt (line : List Char) (i : Nat) : Char := line.getD i (Char.ofNat 0)

/-- The subscript `info[i]` of a highlight vector.  Inside `analyzeSyntax` the
vector has the length of its line, so every subscript is in range. -/
def infoAt (info : List HighlightType) (i : Nat) : HighlightType :=
  info.getD i HighlightType.NORMAL

/-! ## `analyzeSyntax` -/

/-- The member `SHELL_KEYWORDS`. -/
def SHELL_KEYWORDS : List (List Char) :=
  [['i', 'f'], ['t', 'h', 'e', 'n'], ['e', 'l', 's', 'e'], ['e', 'l', 'i', 'f'],
   ['f', 'i'], ['c', 'a', 's', 'e'], ['e', 's', 'a', 'c'], ['f', 'o', 'r'],
   ['w', 'h', 'i', 'l', 'e'], ['u', 'n', 't', 'i', 'l'], ['d', 'o'],
   ['d', 'o', 'n', 'e'], ['i', 'n'],
   ['f', 'u', 'n', 'c', 't', 'i', 'o', 'n'], ['s', 'e', 'l', 'e', 'c', 't']]

/-- The `while (j < line.length() && (isalnum(line[j]) || line[j] == '_'))`
loop that extends a variable name; returns the final `j` and `lineInfo`. -/
def varRun (line : List Char) :
    Nat → Nat → List HighlightType → Nat × List HighlightType
  | 0, j, lineInfo => (j, lineInfo)
  | fuel + 1, j, lineInfo =>
    if j < line.length ∧ (isalnum (charAt line j) = true ∨ charAt line j = '_') then
      varRun line fuel (j + 1) (lineInfo.set j HighlightType.VARIABLE)
    else (j, lineInfo)

/-- The first `for (size_t i = 0; i < line.length(); ++i)` loop of
`analyzeSyntax` for one line, from index `i` with the three flags. -/
def firstPass (line : List Char) :
    Nat → Nat → Bool → Bool → Bool → List HighlightType → List HighlightType
  | 0, _, _, _, _, lineInfo => lineInfo
  | fuel + 1, i, inString, inComment, escapeChar, lineInfo =>
    if i < line.length then
      if inComment then
        firstPass line fuel (i + 1) inString inComment escapeChar
          (lineInfo.set i HighlightType.COMMENT)
      else if escapeChar then
        firstPass line fuel (i + 1) inString inComment false lineInfo
      else if charAt line i = backslash then
        firstPass line fuel (i + 1) inString inComment true lineInfo
      else if charAt line i = dquote ∨ charAt line i = squote then
        firstPass line fuel (i + 1) (!inString) inComment escapeChar
          (lineInfo.set i HighlightType.STRING)
      else if inString = false ∧ charAt line i = '#' then
        firstPass line fuel (i + 1) inString true escapeChar
          (lineInfo.set i HighlightType.COMMENT)
      else if inString then
        firstPass line fuel (i + 1) inString inComment escapeChar
          (lineInfo.set i HighlightType.STRING)
      else if isdigit (charAt line i) then
        firstPass line fuel (i + 1) inString inComment escapeChar
          (lineInfo.set i HighlightType.NUMBER)
      else if charAt line i = '$' then
        let r := varRun line line.length (i + 1) (lineInfo.set i HighlightType.VARIABLE)
        firstPass line fuel (r.1 - 1 + 1) inString inComment escapeChar r.2
      else
        firstPass line fuel (i + 1) inString inComment escapeChar lineInfo
    else lineInfo

/-- The body of the first `for (const auto &line : originalLines)` loop: the
vector `lineInfo(line.length(), NORMAL)` after the character scan. -/
def firstPassLine (line : List Char) : List HighlightType :=
  firstPass line line.length 0 false false false
    (List.replicate line.length HighlightType.NORMAL)

/-- The loop that skips white space and marked characters:
`while (pos < line.length() && (isspace(line[pos]) || info[pos] != NORMAL)) pos++`. -/
def skipLoop (line : List Char) (info : List HighlightType) : Nat → Nat → Nat
  | 0, pos => pos
  | fuel + 1, pos =>
    if pos < line.length ∧
        (isspace (charAt line pos) = true ∨ infoAt info pos ≠ HighlightType.NORMAL) then
      skipLoop line info fuel (pos + 1)
    else pos

/-- The loop that extracts a word:
`while (pos < line.length() && !isspace(line[pos]) && info[pos] == NORMAL) pos++`. -/
def wordLoop (line : List Char) (info : List HighlightType) : Nat → Nat → Nat
  | 0, pos => pos
  | fuel + 1, pos =>
    if pos < line.length ∧ isspace (charAt line pos) = false ∧
        infoAt info pos = HighlightType.NORMAL then
      wordLoop line info fuel (pos + 1)
    else pos

/-- The loop `for (i = wordStart; i < wordStart + word.length(); ++i)
info[i] = KEYWORD`. -/
def markKeyword (info : List HighlightType) (wordStart len : Nat) : List HighlightType :=
  (List.range len).foldl (fun acc d => acc.set (wordStart + d) HighlightType.KEYWORD) info

/-- The keyword loop `while (pos < line.length())` of `analyzeSyntax` for one
line.  Every iteration that does not `break` moves `pos` forward. -/
def keywordLoop (line : List Char) : Nat → Nat → List HighlightType → List HighlightType
  | 0, _, info => info
  | fuel + 1, pos, info =>
    if pos < line.length then
      let pos1 := skipLoop line info line.length pos
      if line.length ≤ pos1 then info
      else
        let wordStart := pos1
        let pos2 := wordLoop line info line.length pos1
        let word := (line.drop wordStart).take (pos2 - wordStart)
        let info2 :=
          if word ∈ SHELL_KEYWORDS then markKeyword info wordStart word.length else info
        keywordLoop line fuel pos2 info2
    else info

/-- The keyword pass of one line, from `pos = 0`. -/
def keywordPass (line : List Char) (info : List HighlightType) : List HighlightType :=
  keywordLoop line line.length 0 info

/-- The characters that the symbol pass tests for. -/
def isSymbolChar (c : Char) : Bool :=
  decide (c = '=' ∨ c = '+' ∨ c = '-' ∨ c = '*' ∨ c = '/' ∨ c = '|' ∨ c = '&' ∨
    c = '<' ∨ c = '>' ∨ c = '(' ∨ c = ')' ∨ c = '[' ∨ c = ']' ∨
    c = Char.ofNat 123 ∨ c = Char.ofNat 125 ∨ c = ';' ∨ c = ':')

/-- The symbol loop `for (size_t i = 0; i < line.length(); ++i)` of one line. -/
def symbolPass (line : List Char) (info : List HighlightType) : List HighlightType :=
  (List.range line.length).foldl
    (fun acc i =>
      if infoAt acc i = HighlightType.NORMAL ∧ isSymbolChar (charAt line i) = true then
        acc.set i HighlightType.SYMBOL
      else acc)
    info

/-- The body of the second `for (lineNum ...)` loop of `analyzeSyntax`: the
keyword pass and then the symbol pass on `highlightInfo[lineNum]`. -/
def secondLoopBody (originalLines : List (List Char))
    (highlightInfo : List (List HighlightType)) (lineNum : Nat) :
    List (List HighlightType) :=
  let line := originalLines.getD lineNum []
  let info := highlightInfo.getD lineNum []
  highlightInfo.set lineNum (symbolPass line (keywordPass line info))

/-- `FileDisplay::analyzeSyntax`: `highlightInfo` is cleared, receives the
first-pass vector of every line, and is then updated line by line. -/
def analyzeSyntax (s : FileDisplay) : FileDisplay :=
  { s with
    highlightInfo :=
      (List.range s.originalLines.length).foldl (secondLoopBody s.originalLines)
        (s.originalLines.map firstPassLine) }

/-! ## `rewrapLines` -/

/-- The inner `while (pos < line.length())` loop of `rewrapLines`; `acc` is the
vector `wrappedLines` that the loop appends to.  A chunk size that is not
positive never advances `pos` (or builds an inverted iterator range), and an
iterator range that leaves `info` is undefined: both are `none`. -/
def wrapLoop (line : List Char) (info : List HighlightType) (winWidth : Int) :
    Nat → Nat → List Chunk → Option (List Chunk)
  | 0, pos, acc => if pos < line.length then none else some acc
  | fuel + 1, pos, acc =>
    if pos < line.length then
      let chunkSize : Int := min (((line.length - pos : Nat) : Int)) winWidth
      if chunkSize ≤ 0 then none
      else if info.length < pos + chunkSize.toNat then none
      else
        wrapLoop line info winWidth fuel (pos + chunkSize.toNat)
          (acc ++ [((line.drop pos).take chunkSize.toNat,
                    (info.drop pos).take chunkSize.toNat)])
    else some acc

/-- The body of the `for` loop of `rewrapLines` for one line and its highlight
vector: an empty line appends one empty chunk, any other line runs the
chunking loop from `pos = 0`.  Every iteration that returns advances `pos` by
at least one, so `line.length` iterations are enough. -/
def wrapLine (line : List Char) (info : List HighlightType) (winWidth : Int)
    (acc : List Chunk) : Option (List Chunk) :=
  if line.isEmpty then some (acc ++ [([], [])])
  else wrapLoop line info winWidth line.length 0 acc

/-- The `for (lineNum ...)` loop of `rewrapLines` over the lines that remain,
`lineNum` being the index of the first of them.  Reading `highlightInfo`
outside its bounds is undefined. -/
def rewrapFrom (highlightInfo : List (List HighlightType)) (winWidth : Int) :
    List (List Char) → Nat → List Chunk → Option (List Chunk)
  | [], _, acc => some acc
  | line :: rest, lineNum, acc =>
    match highlightInfo[lineNum]? with
    | none => none
    | some info =>
      match wrapLine line info winWidth acc with
      | none => none
      | some acc2 => rewrapFrom highlightInfo winWidth rest (lineNum + 1) acc2

/-- `FileDisplay::rewrapLines`: clear `wrappedLines`, then wrap every line. -/
def rewrapLines (s : FileDisplay) : Option FileDisplay :=
  match rewrapFrom s.highlightInfo s.winWidth s.originalLines 0 [] with
  | none => none
  | some chunks => some { s with wrappedLines := chunks }

/-! ## `refreshDisplay` -/

/-- The colour pair that `refreshDisplay` switches on for a highlight class
(`0`: none, the `default` branch). -/
def colorPair : HighlightType → Nat
  | HighlightType.NORMAL => 0
  | HighlightType.KEYWORD => 1
  | HighlightType.STRING => 2
  | HighlightType.COMMENT => 3
  | HighlightType.NUMBER => 4
  | HighlightType.VARIABLE => 5
  | HighlightType.SYMBOL => 6

/-- The subscript `wrappedLines[k]` with an `int` index: outside the vector
the read is undefined. -/
def chunkAt (wrappedLines : List Chunk) (k : Int) : Option Chunk :=
  if k < 0 then none else wrappedLines[k.toNat]?

/-- What one iteration of the drawing loop puts on the screen: the window row
`i`, the subscript `topLine + i` it read, the chunk found there, the styled
cells of the chunk and the number of blank cells that pad the row. -/
structure DrawnRow where
  row : Int
  index : Int
  chunk : Chunk
  cells : List (Char × Nat)
  padding : Int
  deriving DecidableEq, Repr

/-- The `for (size_t j = 0; j < line.length(); ++j)` loop that draws a chunk:
a character without highlight entry is drawn plain. -/
def drawCells (line : List Char) (info : List HighlightType) : List (Char × Nat) :=
  (List.range line.length).map
    (fun j => if info.length ≤ j then (charAt line j, 0)
      else (charAt line j, colorPair (infoAt info j)))

/-- The body of the loop `for (int i = 0; i < linesToShow; ++i)` for the chunk
found at `topLine + i`. -/
def drawRow (winWidth : Int) (i index : Int) (c : Chunk) : DrawnRow :=
  { row := i
    index := index
    chunk := c
    cells := drawCells c.1 c.2
    padding := if winWidth - (c.1.length : Int) > 0 then winWidth - (c.1.length : Int) else 0 }

/-- The loop `for (int i = ...; i < linesToShow; ++i)` with `n` iterations
left, the next one at row `i`. -/
def drawRows (s : FileDisplay) : Nat → Int → Option (List DrawnRow)
  | 0, _ => some []
  | n + 1, i =>
    match chunkAt s.wrappedLines (s.topLine + i) with
    | none => none
    | some c =>
      match drawRows s n (i + 1) with
      | none => none
      | some rest => some (drawRow s.winWidth i (s.topLine + i) c :: rest)

/-- What `refreshDisplay` draws: the chunk rows, the rows it blanks below
them and the status text (absent for an empty `wrappedLines`). -/
structure Screen where
  rows : List DrawnRow
  blankRows : List Int
  status : Option String
  deriving DecidableEq, Repr

/-- `FileDisplay::refreshDisplay`.  The object is not modified; the result is
the drawing, or `none` when a chunk subscript is out of range. -/
def refreshDisplay (s : FileDisplay) : Option Screen :=
  let linesToShow : Int := min s.winHeight ((s.wrappedLines.length : Int) - s.topLine)
  match drawRows s linesToShow.toNat 0 with
  | none => none
  | some rows =>
    some
      { rows := rows
        blankRows :=
          (List.range (s.winHeight - 1 - linesToShow).toNat).map
            (fun (k : Nat) => linesToShow + (k : Int))
        status :=
          if s.wrappedLines.isEmpty then none
          else some (toString (s.topLine + 1) ++ "/" ++ toString s.wrappedLines.length) }

/-! ## `handleInput` -/

/-- The key code `KEY_DOWN` of `<ncurses.h>`. -/
def KEY_DOWN : Int := 258

/-- The key code `KEY_UP` of `<ncurses.h>`. -/
def KEY_UP : Int := 259

/-- The key code `KEY_LEFT` of `<ncurses.h>`. -/
def KEY_LEFT : Int := 260

/-- The key code `KEY_RIGHT` of `<ncurses.h>`. -/
def KEY_RIGHT : Int := 261

/-- The key code `KEY_HOME` of `<ncurses.h>`. -/
def KEY_HOME : Int := 262

/-- The key code `KEY_BACKSPACE` of `<ncurses.h>`. -/
def KEY_BACKSPACE : Int := 263

/-- The key code `KEY_DC` of `<ncurses.h>`. -/
def KEY_DC : Int := 330

/-- The key code `KEY_NPAGE` of `<ncurses.h>`. -/
def KEY_NPAGE : Int := 338

/-- The key code `KEY_PPAGE` of `<ncurses.h>`. -/
def KEY_PPAGE : Int := 339

/-- The key code `KEY_ENTER` of `<ncurses.h>`. -/
def KEY_ENTER : Int := 343

/-- The key code `KEY_END` of `<ncurses.h>`. -/
def KEY_END : Int := 360

/-- `FileDisplay::handleInput`: the display is refreshed first, then the key
moves `topLine`.  The result is the returned flag and the new object. -/
def handleInput (s : FileDisplay) (ch : Int) : Option (Bool × FileDisplay) :=
  match refreshDisplay s with
  | none => none
  | some _ =>
    if ch = KEY_UP then
      some (true, if s.topLine > 0 then { s with topLine := s.topLine - 1 } else s)
    else if ch = KEY_DOWN then
      some (true,
        if s.topLine < (s.wrappedLines.length : Int) - s.winHeight then
          { s with topLine := s.topLine + 1 }
        else s)
    else if ch = KEY_PPAGE then
      some (true, { s with topLine := max 0 (s.topLine - s.winHeight) })
    else if ch = KEY_NPAGE then
      some (true,
        { s with
          topLine := min ((s.wrappedLines.length : Int) - s.winHeight)
            (s.topLine + s.winHeight) })
    else some (true, s)

/-- A sequence of keys handed to `handleInput` one after the other; the result
lists the object after each key, in order. -/
def handleInputs : FileDisplay → List Int → Option (List FileDisplay)
  | _, [] => some []
  | s, ch :: rest =>
    match handleInput s ch with
    | none => none
    | some r =>
      match handleInputs r.2 rest with
      | none => none
      | some states => some (r.2 :: states)

/-! ## `loadFile`, `reloadFile`, `changeFile` -/

/-- The files the program can read: a path is mapped to the lines that
`std::getline` delivers, or to `none` when `std::ifstream` cannot open it. -/
abbrev FileSystem := String → Option (List (List Char))

/-- `FileDisplay::loadFile`: `false` and no change when the file is not open,
otherwise `originalLines` is replaced by the lines of the file. -/
def loadFile (fs : FileSystem) (s : FileDisplay) (filename : String) : Bool × FileDisplay :=
  match fs filename with
  | none => (false, s)
  | some lines => (true, { s with originalLines := lines })

/-- `FileDisplay::reloadFile`.  `none` when `rewrapLines` does not return or
`refreshDisplay` reads outside `wrappedLines`. -/
def reloadFile (fs : FileSystem) (s : FileDisplay) : Option (Bool × FileDisplay) :=
  let r := loadFile fs s s.filename
  if r.1 = false then some (false, r.2)
  else
    match rewrapLines (analyzeSyntax r.2) with
    | none => none
    | some s3 =>
      match refreshDisplay s3 with
      | none => none
      | some _ => some (true, s3)

/-- `FileDisplay::changeFile`. -/
def changeFile (fs : FileSystem) (s : FileDisplay) (newFile : String) :
    Option (Bool × FileDisplay) :=
  reloadFile fs { s with topLine := 0, filename := newFile }

/-- The constructor of `FileDisplay` for a window whose inner size is
`winHeight` by `winWidth`: the result of `loadFile` is ignored. -/
def construct (fs : FileSystem) (winHeight winWidth : Int) (file : String) :
    Option FileDisplay :=
  let s0 : FileDisplay :=
    { filename := file, originalLines := [], highlightInfo := [], wrappedLines := [],
      topLine := 0, winHeight := winHeight, winWidth := winWidth }
  rewrapLines (analyzeSyntax (loadFile fs s0 file).2)

/-! ## The commit-message editor of `gitInterface::run` -/

/-- The data members of `class gitInterface`; `maxy` and `maxx` are what
`getmaxy(win)` and `getmaxx(win)` return, `items` the directory entries. -/
structure gitInterface where
  maxy : Int
  maxx : Int
  items : List String
  scrollPos : Int
  showCommitInput : Bool
  commitMessage : List Char
  cursorPos : Int
  hasInputFocus : Bool
  inputStartY : Int
  inputStartX : Int
  inputLines : Int
  deriving DecidableEq, Repr

/-- The subscript `commitMessage[i]` with an `int` index, defined up to the
terminator at `i = size`. -/
def msgAt (msg : List Char) (i : Int) : Option Char :=
  if i < 0 ∨ (msg.length : Int) < i then none else some (charAt msg i.toNat)

/-- The call `commitMessage.insert(pos, 1, c)`; it throws `std::out_of_range`
(here `none`) when `pos` exceeds the size. -/
def strInsert (msg : List Char) (pos : Int) (c : Char) : Option (List Char) :=
  if pos < 0 ∨ (msg.length : Int) < pos then none
  else some (msg.take pos.toNat ++ c :: msg.drop pos.toNat)

/-- The call `commitMessage.erase(pos, 1)`; it throws `std::out_of_range`
(here `none`) when `pos` exceeds the size. -/
def strErase (msg : List Char) (pos : Int) : Option (List Char) :=
  if pos < 0 ∨ (msg.length : Int) < pos then none
  else some (msg.take pos.toNat ++ msg.drop (pos.toNat + 1))

/-- The loop `while (lineStart > 0 && commitMessage[lineStart - 1] != '\n')
lineStart--`; it runs at most `lineStart` times. -/
def lineStartScan (msg : List Char) : Nat → Int → Option Int
  | 0, lineStart => some lineStart
  | fuel + 1, lineStart =>
    if lineStart > 0 then
      match msgAt msg (lineStart - 1) with
      | none => none
      | some c =>
        if c ≠ newline then lineStartScan msg fuel (lineStart - 1) else some lineStart
    else some lineStart

/-- The loop `while (lineEnd < commitMessage.length() &&
commitMessage[lineEnd] != '\n') lineEnd++`.  The comparison is unsigned, so a
negative `lineEnd` ends the loop; it runs at most `size` times. -/
def lineEndScan (msg : List Char) : Nat → Int → Int
  | 0, lineEnd => lineEnd
  | fuel + 1, lineEnd =>
    if 0 ≤ lineEnd ∧ lineEnd < (msg.length : Int) ∧ charAt msg lineEnd.toNat ≠ newline then
      lineEndScan msg fuel (lineEnd + 1)
    else lineEnd

/-- The C library test `isprint` on a key code; codes outside the range of
`unsigned char` count as not printable. -/
def isprint (ch : Int) : Bool := decide (32 ≤ ch ∧ ch ≤ 126)

/-- The state change of `drawWindow`: in commit mode it sets the origin and
the height of the input area. -/
def drawWindowState (s : gitInterface) : gitInterface :=
  if s.showCommitInput then
    { s with inputStartY := 4, inputStartX := 2, inputLines := s.maxy - 6 }
  else s

/-- The `case KEY_UP` of the focused commit input. -/
def keyUp (s : gitInterface) : Option gitInterface :=
  let textWidth := s.maxx - 4
  match lineStartScan s.commitMessage s.cursorPos.toNat s.cursorPos with
  | none => none
  | some lineStart =>
    if lineStart > 0 then
      let cursor1 := lineStart - 1
      match lineStartScan s.commitMessage cursor1.toNat cursor1 with
      | none => none
      | some prevLineStart =>
        let offset := cursor1 - prevLineStart
        some { s with cursorPos := min (prevLineStart + offset) (prevLineStart + textWidth - 1) }
    else some s

/-- The `case KEY_DOWN` of the focused commit input; both comparisons with
`commitMessage.length()` are unsigned. -/
def keyDown (s : gitInterface) : Option gitInterface :=
  let textWidth := s.maxx - 4
  match lineStartScan s.commitMessage s.cursorPos.toNat s.cursorPos with
  | none => none
  | some lineStart =>
    let lineEnd := lineEndScan s.commitMessage s.commitMessage.length s.cursorPos
    if 0 ≤ lineEnd ∧ lineEnd < (s.commitMessage.length : Int) then
      let nextLineStart := lineEnd + 1
      let offset := s.cursorPos - lineStart
      let cursor1 := min (nextLineStart + offset) (nextLineStart + textWidth - 1)
      some { s with
        cursorPos :=
          if cursor1 < 0 ∨ (s.commitMessage.length : Int) < cursor1 then
            (s.commitMessage.length : Int)
          else cursor1 }
    else some s

/-- The `switch (ch)` of `run` for the commit input that holds the focus
(`showCommitInput && hasInputFocus`). -/
def editKey (s : gitInterface) (ch : Int) : Option gitInterface :=
  if ch = KEY_ENTER ∨ ch = 10 then
    match strInsert s.commitMessage s.cursorPos newline with
    | none => none
    | some msg => some { s with commitMessage := msg, cursorPos := s.cursorPos + 1 }
  else if ch = KEY_LEFT then
    some (if s.cursorPos > 0 then { s with cursorPos := s.cursorPos - 1 } else s)
  else if ch = KEY_RIGHT then
    some (if s.cursorPos < (s.commitMessage.length : Int) then
      { s with cursorPos := s.cursorPos + 1 } else s)
  else if ch = KEY_UP then keyUp s
  else if ch = KEY_DOWN then keyDown s
  else if ch = KEY_HOME then
    match lineStartScan s.commitMessage s.cursorPos.toNat s.cursorPos with
    | none => none
    | some lineStart => some { s with cursorPos := lineStart }
  else if ch = KEY_END then
    some { s with
      cursorPos := lineEndScan s.commitMessage s.commitMessage.length s.cursorPos }
  else if ch = 9 then some { s with hasInputFocus := false }
  else if ch = KEY_BACKSPACE ∨ ch = 127 then
    if s.cursorPos > 0 then
      match strErase s.commitMessage (s.cursorPos - 1) with
      | none => none
      | some msg => some { s with commitMessage := msg, cursorPos := s.cursorPos - 1 }
    else some s
  else if ch = KEY_DC then
    if s.cursorPos < (s.commitMessage.length : Int) then
      match strErase s.commitMessage s.cursorPos with
      | none => none
      | some msg => some { s with commitMessage := msg }
    else some s
  else if isprint ch then
    match strInsert s.commitMessage s.cursorPos (Char.ofNat ch.toNat) with
    | none => none
    | some msg => some { s with commitMessage := msg, cursorPos := s.cursorPos + 1 }
  else some s

/-- A sequence of keys given to the focused commit input, one `switch` each. -/
def editKeys : gitInterface → List Int → Option gitInterface
  | s, [] => some s
  | s, ch :: rest =>
    match editKey s ch with
    | none => none
    | some s2 => editKeys s2 rest

/-- How one iteration of the `while (true)` loop of `run` ends. -/
inductive RunResult where
  | continues (s : gitInterface)
  | returns (msg : List Char)
  deriving DecidableEq, Repr

/-- The `switch (ch)` of the file selection mode (`!showCommitInput`). -/
def selectKey (s : gitInterface) (ch : Int) : gitInterface :=
  if ch = KEY_UP then
    if s.scrollPos > 0 then { s with scrollPos := s.scrollPos - 1 } else s
  else if ch = KEY_DOWN then
    if s.scrollPos + (s.maxy - 5) < (s.items.length : Int) then
      { s with scrollPos := s.scrollPos + 1 }
    else s
  else if ch = 9 then { s with hasInputFocus := !s.hasInputFocus }
  else if ch = KEY_ENTER ∨ ch = 10 then
    if s.hasInputFocus = false then
      { s with showCommitInput := true, hasInputFocus := true,
               cursorPos := (s.commitMessage.length : Int) }
    else s
  else s

/-- One iteration of the `while (true)` loop of `run` with the key `ch`:
`drawWindow`, the quit keys, then the `switch` of the current mode. -/
def runStep (s0 : gitInterface) (ch : Int) : Option RunResult :=
  let s := drawWindowState s0
  if ch = 113 ∨ ch = 81 then some (RunResult.returns [])
  else if s.showCommitInput then
    if s.hasInputFocus then
      match editKey s ch with
      | none => none
      | some s2 => some (RunResult.continues s2)
    else if ch = 9 then some (RunResult.continues { s with hasInputFocus := true })
    else if ch = KEY_ENTER ∨ ch = 10 then
      if s.commitMessage.isEmpty then some (RunResult.continues s)
      else some (RunResult.returns s.commitMessage)
    else some (RunResult.continues s)
  else some (RunResult.continues (selectKey s ch))

/-- The loop of `run` on a sequence of keys: it stops at the first `return`. -/
def runKeys : gitInterface → List Int → Option RunResult
  | s, [] => some (RunResult.continues s)
  | s, ch :: rest =>
    match runStep s ch with
    | none => none
    | some (RunResult.returns msg) => some (RunResult.returns msg)
    | some (RunResult.continues s2) => runKeys s2 rest

/-- The object that the constructor of `gitInterface` builds. -/
def gitInterface.initial (maxy maxx : Int) (items : List String) : gitInterface :=
  { maxy := maxy, maxx := maxx, items := items, scrollPos := 0, showCommitInput := false,
    commitMessage := [], cursorPos := 0, hasInputFocus := true,
    inputStartY := 0, inputStartX := 0, inputLines := 0 }

/-! ## `calculateCursorPosition` and the commit text of `drawWindow` -/

/-- The loop `for (int i = 0; i < cursorPos; ++i)` of
`calculateCursorPosition` with `n` iterations left, the next one at index `i`;
the pair is `(y, x)`.  Reading `commitMessage[i]` beyond the terminator is
undefined. -/
def cursorLoop (msg : List Char) (inputStartX textWidth : Int) :
    Nat → Int → Int × Int → Option (Int × Int)
  | 0, _, yx => some yx
  | n + 1, i, yx =>
    match msgAt msg i with
    | none => none
    | some c =>
      if c = newline ∨ yx.2 ≥ inputStartX + textWidth - 1 then
        cursorLoop msg inputStartX textWidth n (i + 1)
          (yx.1 + 1, if c ≠ newline then inputStartX + 1 else inputStartX)
      else cursorLoop msg inputStartX textWidth n (i + 1) (yx.1, yx.2 + 1)

/-- `gitInterface::calculateCursorPosition`: the pair `(y, x)` that the two
reference parameters hold on return. -/
def calculateCursorPosition (s : gitInterface) : Option (Int × Int) :=
  cursorLoop s.commitMessage s.inputStartX (s.maxx - 4) s.cursorPos.toNat 0
    (s.inputStartY, s.inputStartX)

/-- The inner loop of the commit text of `drawWindow`:
`while (pos < commitMessage.length() && pos - start < textWidth &&
commitMessage[pos] != '\n') pos++`.  The `int` variables `pos` and `start`
begin at `0` and only grow, so they are natural numbers here. -/
def rowEndScan (msg : List Char) (textWidth : Int) (start : Nat) : Nat → Nat → Nat
  | 0, pos => pos
  | fuel + 1, pos =>
    if pos < msg.length ∧ ((pos : Int) - (start : Int) < textWidth) ∧
        charAt msg pos ≠ newline then
      rowEndScan msg textWidth start fuel (pos + 1)
    else pos

/-- One `mvwprintw` of the commit text: the row `line` below the input origin,
the offset `start` of its first character and the text printed. -/
structure CommitRow where
  row : Int
  start : Nat
  text : List Char
  deriving DecidableEq, Repr

/-- The loop `while (line < inputLines && pos < commitMessage.length())` of
`drawWindow` with `n` rows left, the next one being `line`. -/
def commitRows (msg : List Char) (textWidth : Int) : Nat → Int → Nat → List CommitRow
  | 0, _, _ => []
  | n + 1, line, pos =>
    if pos < msg.length then
      let start := pos
      let pos1 := rowEndScan msg textWidth start msg.length pos
      let lineText := (msg.drop start).take (pos1 - start)
      let pos2 := if pos1 < msg.length ∧ charAt msg pos1 = newline then pos1 + 1 else pos1
      { row := line, start := start, text := lineText } ::
        commitRows msg textWidth n (line + 1) pos2
    else []

/-- The commit text that `drawWindow` prints in commit mode, with
`inputLines = winHeight - 6` and `textWidth = winWidth - 4`. -/
def drawCommitText (s : gitInterface) : List CommitRow :=
  commitRows s.commitMessage (s.maxx - 4) (s.maxy - 6).toNat 0 0

/-- The cell, as row and column relative to the input origin, at which the
printed rows show the character at offset `k`. -/
def renderCell : List CommitRow → Nat → Option (Int × Int)
  | [], _ => none
  | r :: rest, k =>
    if r.start ≤ k ∧ k < r.start + r.text.length then some (r.row, (k : Int) - (r.start : Int))
    else renderCell rest k

/-! ## Vocabulary of the statements -/

/-- The number of cells of width `w` that cover `n` characters, `ceil (n / w)`. -/
def ceilDiv (n w : Nat) : Nat := (n + w - 1) / w

/-- The closed form of the chunks of one line at width `w`: one empty chunk
for an empty line, otherwise the slices `[k * w, k * w + w)` of the line and
of its highlight vector for `k < ceil (n / w)`. -/
def lineChunks (line : List Char) (info : List HighlightType) (w : Nat) : List Chunk :=
  if line.isEmpty then [([], [])]
  else
    (List.range (ceilDiv line.length w)).map
      (fun k => ((line.drop (k * w)).take w, (info.drop (k * w)).take w))

/-- The invariant of the viewer: `0 ≤ topLine ≤ max 0 (len chunks - height)`. -/
def scrollInRange (s : FileDisplay) : Prop :=
  0 ≤ s.topLine ∧ s.topLine ≤ max 0 ((s.wrappedLines.length : Int) - s.winHeight)

instance (s : FileDisplay) : Decidable (scrollInRange s) := by
  unfold scrollInRange
  exact inferInstance

/-- The invariant of the editor: `0 ≤ cursor ≤ len buffer`. -/
def cursorInRange (s : gitInterface) : Prop :=
  0 ≤ s.cursorPos ∧ s.cursorPos ≤ (s.commitMessage.length : Int)

instance (s : gitInterface) : Decidable (cursorInRange s) := by
  unfold cursorInRange
  exact inferInstance

/-- The viewer of the scenario of C7: five lines, the third of 100 characters,
the others of at most 40, at width 40. -/
def scenarioViewer : FileDisplay :=
  { filename := "lab.sh"
    originalLines :=
      [['a', 'b'], [], List.replicate 100 'x', List.replicate 40 'y', ['c']]
    highlightInfo :=
      [List.replicate 2 HighlightType.NORMAL, [], List.replicate 100 HighlightType.NORMAL,
        List.replicate 40 HighlightType.NORMAL, [HighlightType.NORMAL]]
    wrappedLines := []
    topLine := 0
    winHeight := 10
    winWidth := 40 }

/-- The file system of the examples: `lab.sh` holds three one-character
lines, nothing else can be opened. -/
def shortFs : FileSystem := fun name =>
  if name = "lab.sh" then some [['a'], ['b'], ['c']] else none

/-- The viewer that the constructor builds for `lab.sh` in a window of
10 rows and 40 columns: three chunks, `topLine = 0`. -/
def shortViewer : FileDisplay :=
  { filename := "lab.sh"
    originalLines := [['a'], ['b'], ['c']]
    highlightInfo :=
      [[HighlightType.NORMAL], [HighlightType.NORMAL], [HighlightType.NORMAL]]
    wrappedLines :=
      [(['a'], [HighlightType.NORMAL]), (['b'], [HighlightType.NORMAL]),
        (['c'], [HighlightType.NORMAL])]
    topLine := 0
    winHeight := 10
    winWidth := 40 }

/-- A viewer of height one that shows the last of the three chunks of
`lab.sh`: `topLine = 2`. -/
def scrolledViewer : FileDisplay :=
  { shortViewer with topLine := 2, winHeight := 1 }

/-- The file system after `lab.sh` has shrunk to a single line. -/
def shrunkFs : FileSystem := fun name =>
  if name = "lab.sh" then some [['a']] else none

/-- The commit editor of the program, whose window has 20 rows and 60
columns, with the focus on the input, as `drawWindow` leaves it. -/
def commitEditor (msg : List Char) (cursor : Int) : gitInterface :=
  { maxy := 20, maxx := 60, items := [], scrollPos := 0, showCommitInput := true,
    commitMessage := msg, cursorPos := cursor, hasInputFocus := true,
    inputStartY := 4, inputStartX := 2, inputLines := 14 }

/-- The code of a key that types a character. -/
def keyOf (c : Char) : Int := (c.toNat : Int)

/-- The character that a key of the focused commit input inserts: the hard
break for Enter, otherwise the character with the code of the key. -/
def typedChar (ch : Int) : Char :=
  if ch = KEY_ENTER ∨ ch = 10 then newline else Char.ofNat ch.toNat

/-- The number of hard breaks among the first `k` characters of a buffer. -/
def breaksBefore (msg : List Char) (k : Nat) : Nat := (msg.take k).count newline

/-- The offset just after the last hard break among the first `k` characters
of a buffer, `0` when there is none. -/
def lastBreakEnd (msg : List Char) (k : Nat) : Nat :=
  match (List.range k).reverse.find? (fun i => decide (charAt msg i = newline)) with
  | some i => i + 1
  | none => 0

/-- The buffer `ab`, hard break, `cd` of the scenario of the editor. -/
def twoLines : List Char := ['a', 'b', newline, 'c', 'd']

/-- The buffer `abcd`, hard break, `e`, hard break, `fgh`. -/
def threeLines : List Char :=
  ['a', 'b', 'c', 'd', newline, 'e', newline, 'f', 'g', 'h']

/-- The highlight vector that `analyzeSyntax` stores for a line: the first
pass, then the keyword pass, then the symbol pass. -/
def annotateLine (line : List Char) : List HighlightType :=
  symbolPass line (keywordPass line (firstPassLine line))

/-- The ASCII letters. -/
def isLetter (c : Char) : Bool :=
  decide ('a' ≤ c ∧ c ≤ 'z') || decide ('A' ≤ c ∧ c ≤ 'Z')

/-- The line `if x then` of the keyword scenario. -/
def ifThenLine : List Char := ['i', 'f', ' ', 'x', ' ', 't', 'h', 'e', 'n']

/-! ### The first pass, character by character

The first loop of `analyzeSyntax` never reads `lineInfo`, so its effect on a
line is a function of the characters alone.  The definitions below give that
function as a machine that reads one character at a time; the flag
`inVariable` stands for the inner `while` loop of a `$`.  The lemma
`firstPassLine_eq_lexRun` shows that the machine computes what `firstPass`
computes, and the lemma `firstPassLine_resume` that `firstPass` resumed at an
index with the flags of the machine ends with the same vector; the statements
use the machine to name the flags with which the loop reads a character. -/

/-- The flags of the first loop of `analyzeSyntax` between two characters;
`inVariable` holds while the inner loop of a `$` is running. -/
structure LexState where
  inString : Bool
  inComment : Bool
  escapeChar : Bool
  inVariable : Bool
  deriving DecidableEq, Repr

/-- The flags at the start of a line. -/
def lexInit : LexState :=
  { inString := false, inComment := false, escapeChar := false, inVariable := false }

/-- The characters that continue a variable name: `isalnum(c) || c == '_'`. -/
def isVarChar (c : Char) : Bool := isalnum c || decide (c = '_')

/-- The quote characters that toggle `inString`. -/
def isQuote (c : Char) : Bool := decide (c = dquote ∨ c = squote)

/-- What the first loop does with one character: the flags afterwards and the
tag that the entry of the character holds (`NORMAL` when it is not written). -/
def lexStep (σ : LexState) (c : Char) : LexState × HighlightType :=
  if σ.inVariable = true ∧ isVarChar c = true then (σ, HighlightType.VARIABLE)
  else if σ.inComment then ({ σ with inVariable := false }, HighlightType.COMMENT)
  else if σ.escapeChar then
    ({ σ with escapeChar := false, inVariable := false }, HighlightType.NORMAL)
  else if c = backslash then
    ({ σ with escapeChar := true, inVariable := false }, HighlightType.NORMAL)
  else if c = dquote ∨ c = squote then
    ({ σ with inString := !σ.inString, inVariable := false }, HighlightType.STRING)
  else if σ.inString = false ∧ c = '#' then
    ({ σ with inComment := true, inVariable := false }, HighlightType.COMMENT)
  else if σ.inString then ({ σ with inVariable := false }, HighlightType.STRING)
  else if isdigit c then ({ σ with inVariable := false }, HighlightType.NUMBER)
  else if c = '$' then ({ σ with inVariable := true }, HighlightType.VARIABLE)
  else ({ σ with inVariable := false }, HighlightType.NORMAL)

/-- The tags that the first loop gives to a stretch of characters read from
the flags `σ`. -/
def lexRun : LexState → List Char → List HighlightType
  | _, [] => []
  | σ, c :: rest => (lexStep σ c).2 :: lexRun (lexStep σ c).1 rest

/-- The flags of the first loop after a stretch of characters read from the
flags `σ`; `lexState lexInit (l.take i)` are the flags with which the
character at offset `i` of the line `l` is read. -/
def lexState : LexState → List Char → LexState
  | σ, [] => σ
  | σ, c :: rest => lexState (lexStep σ c).1 rest

/-- The seventeen characters of the symbol pass. -/
def symbolChars : List Char :=
  ['=', '+', '-', '*', '/', '|', '&', '<', '>', '(', ')', '[', ']',
    Char.ofNat 123, Char.ofNat 125, ';', ':']

/-- The letters and the underscore: the characters of an identifier other
than the digits. -/
def isIdentChar (c : Char) : Bool := isLetter c || decide (c = '_')

/-! ### Example lines of the annotator -/

/-- A viewer that holds the given lines. -/
def viewerOf (lines : List (List Char)) : FileDisplay :=
  { scenarioViewer with originalLines := lines }

/-- The line `echo hi # done`. -/
def commentLine : List Char :=
  ['e', 'c', 'h', 'o', ' ', 'h', 'i', ' ', '#', ' ', 'd', 'o', 'n', 'e']

/-- The line `echo "a#b"`. -/
def quotedHashLine : List Char :=
  ['e', 'c', 'h', 'o', ' ', dquote, 'a', '#', 'b', dquote]

/-- The line `$FOO_1 bar`. -/
def variableLine : List Char := ['$', 'F', 'O', 'O', '_', '1', ' ', 'b', 'a', 'r']

/-- The line `"a\b"`: a string with a backslash in it. -/
def escapeInStringLine : List Char := [dquote, 'a', backslash, 'b', dquote]

/-- The line `"a'b 'c`: a double quote, closed by a single quote, and a
string that the line does not close. -/
def mixedQuoteLine : List Char := [dquote, 'a', squote, 'b', ' ', squote, 'c']

/-- The line `echo \"hi`: an escaped quote. -/
def escapedQuoteLine : List Char := ['e', 'c', 'h', 'o', ' ', backslash, dquote, 'h', 'i']

/-- The line `done2`: an identifier that starts with the keyword `done`. -/
def digitWordLine : List Char := ['d', 'o', 'n', 'e', '2']

/-- The line `done_x`: an identifier without digit that starts with `done`. -/
def longWordLine : List Char := ['d', 'o', 'n', 'e', '_', 'x']

/-- The line `x=1; "="`. -/
def symbolLine : List Char := ['x', '=', '1', ';', ' ', dquote, '=', dquote]

/-- The number of quote characters among the first `i` characters of a line. -/
def quotesBefore (l : List Char) (i : Nat) : Nat := (l.take i).countP isQuote

/-- The characters that the commit input can hold: the hard break and the
printable characters other than `q` and `Q`. -/
def isMessageChar (c : Char) : Bool :=
  decide (c = newline) || (decide (32 ≤ c.toNat ∧ c.toNat ≤ 126) && decide (c ≠ 'q' ∧ c ≠ 'Q'))

/-- The combinations of flags that the first loop reaches: a comment starts
outside a string and after no backslash, and so does a variable name, which
ends before a comment starts. -/
def flagsReachable (σ : LexState) : Bool :=
  (!σ.inComment || (!σ.inString && !σ.escapeChar)) &&
    (!σ.inVariable || (!σ.inString && !σ.inComment && !σ.escapeChar))

/-! ## Lemmas on `rewrapLines` -/

theorem ceilDiv_zero (w : Nat) (hw : 1 ≤ w) : ceilDiv 0 w = 0 := by
  unfold ceilDiv
  exact Nat.div_eq_of_lt (by omega)

theorem ceilDiv_step (n w : Nat) (hw : 1 ≤ w) (h : w ≤ n) :
    ceilDiv n w = ceilDiv (n - w) w + 1 := by
  unfold ceilDiv
  have : n + w - 1 = (n - w + w - 1) + w := by omega
  rw [this, Nat.add_div_right _ (by omega)]

theorem ceilDiv_small (n w : Nat) (h0 : 1 ≤ n) (h : n ≤ w) : ceilDiv n w = 1 := by
  unfold ceilDiv
  have : n + w - 1 = (n - 1) + w := by omega
  rw [this, Nat.add_div_right _ (by omega), Nat.div_eq_of_lt (by omega)]

/-- The cells cover the characters: `n ≤ ceil (n / w) * w`. -/
theorem le_ceilDiv_mul (n w : Nat) (hw : 1 ≤ w) : n ≤ ceilDiv n w * w := by
  unfold ceilDiv
  have h1 := Nat.div_add_mod (n + w - 1) w
  have h2 := Nat.mod_lt (n + w - 1) (show 0 < w by omega)
  have h3 : w * ((n + w - 1) / w) = (n + w - 1) / w * w := Nat.mul_comm _ _
  omega

/-- The last cell is not empty: `(ceil (n / w) - 1) * w < n` for `n ≥ 1`. -/
theorem ceilDiv_pred_mul_lt (n w : Nat) (hw : 1 ≤ w) (hn : 1 ≤ n) :
    (ceilDiv n w - 1) * w < n := by
  unfold ceilDiv
  have h1 := Nat.div_add_mod (n + w - 1) w
  have h3 : w * ((n + w - 1) / w) = (n + w - 1) / w * w := Nat.mul_comm _ _
  have h4 : ((n + w - 1) / w - 1) * w = (n + w - 1) / w * w - w := by
    rw [Nat.sub_mul, Nat.one_mul]
  omega

theorem ceilDiv_pos (n w : Nat) (hw : 1 ≤ w) (hn : 1 ≤ n) : 1 ≤ ceilDiv n w := by
  have h := le_ceilDiv_mul n w hw
  by_contra hc
  have : ceilDiv n w = 0 := by omega
  rw [this] at h
  omega

/-- Once `pos` has reached the end of the line the chunking loop stops. -/
theorem wrapLoop_done (line : List Char) (info : List HighlightType) (winWidth : Int)
    (fuel pos : Nat) (acc : List Chunk) (h : line.length ≤ pos) :
    wrapLoop line info winWidth fuel pos acc = some acc := by
  have : ¬ pos < line.length := by omega
  cases fuel <;> simp [wrapLoop, this]

/-- The chunking loop with enough fuel appends the width-`w` slices that
start at `pos`. -/
theorem wrapLoop_eq (line : List Char) (info : List HighlightType) (w : Nat)
    (hw : 1 ≤ w) (hlen : info.length = line.length) :
    ∀ (fuel pos : Nat) (acc : List Chunk), pos ≤ line.length →
      line.length - pos ≤ fuel →
      wrapLoop line info (w : Int) fuel pos acc =
        some (acc ++ (List.range (ceilDiv (line.length - pos) w)).map
          (fun k => ((line.drop (pos + k * w)).take w, (info.drop (pos + k * w)).take w))) := by
  intro fuel
  induction fuel with
  | zero =>
    intro pos acc hpos hf
    have h0 : line.length - pos = 0 := by omega
    rw [wrapLoop_done _ _ _ _ _ _ (by omega), h0, ceilDiv_zero w hw]
    simp
  | succ fuel ih =>
    intro pos acc hpos hf
    by_cases hlt : pos < line.length
    · have hcs : min (((line.length - pos : Nat) : Int)) (w : Int)
          = ((min (line.length - pos) w : Nat) : Int) := by
        norm_cast
      have hpos2 : 0 < min (line.length - pos) w := by
        simp only [lt_min_iff]; omega
      have hle : min (line.length - pos) w ≤ line.length - pos := min_le_left _ _
      have h1 : ¬ ((min (line.length - pos) w : Nat) : Int) ≤ 0 := by
        generalize min (line.length - pos) w = m at hpos2
        omega
      have h2 : ¬ info.length < pos + min (line.length - pos) w := by
        rw [hlen]
        generalize min (line.length - pos) w = m at hle
        omega
      simp only [wrapLoop, hlt, if_true, hcs, Int.toNat_ofNat]
      rw [if_neg h1, if_neg h2]
      by_cases hbig : w ≤ line.length - pos
      · rw [min_eq_right hbig]
        rw [ih (pos + w) _ (by omega) (by omega)]
        have hsub : line.length - (pos + w) = line.length - pos - w := by omega
        rw [ceilDiv_step (line.length - pos) w hw hbig, List.range_succ_eq_map, hsub]
        simp only [List.map_cons, List.map_map, List.append_assoc, List.singleton_append,
          Nat.zero_mul, Nat.add_zero]
        congr 3
        apply List.map_congr_left
        intro k _
        simp only [Function.comp, Nat.succ_eq_add_one]
        have : pos + w + k * w = pos + (k + 1) * w := by ring
        rw [this]
      · have hmin : min (line.length - pos) w = line.length - pos := min_eq_left (by omega)
        rw [hmin]
        have hfin : pos + (line.length - pos) = line.length := by omega
        rw [hfin, wrapLoop_done _ _ _ _ _ _ (le_refl _), ceilDiv_small _ w (by omega) (by omega)]
        have t1 : (line.drop pos).take (line.length - pos) = (line.drop pos).take w := by
          rw [List.take_of_length_le (by simp), List.take_of_length_le (by simp; omega)]
        have t2 : (info.drop pos).take (line.length - pos) = (info.drop pos).take w := by
          rw [List.take_of_length_le (by simp [hlen]),
            List.take_of_length_le (by simp [hlen]; omega)]
        rw [t1, t2]
        simp [List.range_succ]
    · have h0 : line.length - pos = 0 := by omega
      rw [wrapLoop_done _ _ _ _ _ _ (by omega), h0, ceilDiv_zero w hw]
      simp

/-- One line of `rewrapLines` appends the closed-form chunks of the line. -/
theorem wrapLine_eq (line : List Char) (info : List HighlightType) (winWidth : Int)
    (hw : 1 ≤ winWidth) (hlen : info.length = line.length) (acc : List Chunk) :
    wrapLine line info winWidth acc = some (acc ++ lineChunks line info winWidth.toNat) := by
  obtain ⟨w, rfl⟩ : ∃ w : Nat, winWidth = (w : Int) := ⟨winWidth.toNat, by omega⟩
  have hw2 : 1 ≤ w := by omega
  unfold wrapLine lineChunks
  by_cases he : line.isEmpty = true
  · simp [he]
  · rw [if_neg he, if_neg he,
      wrapLoop_eq line info w hw2 hlen line.length 0 acc (by omega) (by omega)]
    simp

/-- Joining the first `m` slices of width `w` gives the first `m * w` cells. -/
theorem flatten_slices {α : Type} (l : List α) (w : Nat) :
    ∀ m : Nat, ((List.range m).map (fun k => (l.drop (k * w)).take w)).flatten = l.take (m * w) := by
  intro m
  induction m with
  | zero => simp
  | succ m ih =>
    rw [List.range_succ, List.map_append, List.flatten_append, ih, Nat.succ_mul, List.take_add]
    simp

/-- The text slices of the closed-form chunks rebuild the line. -/
theorem lineChunks_fst_flatten (line : List Char) (info : List HighlightType) (w : Nat)
    (hw : 1 ≤ w) : ((lineChunks line info w).map Prod.fst).flatten = line := by
  unfold lineChunks
  by_cases he : line.isEmpty = true
  · simp only [he, if_true]
    simp [List.isEmpty_iff.mp he]
  · rw [if_neg he, List.map_map]
    have := flatten_slices line w (ceilDiv line.length w)
    simp only [Function.comp_def]
    rw [this, List.take_of_length_le (le_ceilDiv_mul _ _ hw)]

/-- The highlight slices of the closed-form chunks rebuild the highlight
vector of the line. -/
theorem lineChunks_snd_flatten (line : List Char) (info : List HighlightType) (w : Nat)
    (hw : 1 ≤ w) (hlen : info.length = line.length) :
    ((lineChunks line info w).map Prod.snd).flatten = info := by
  unfold lineChunks
  by_cases he : line.isEmpty = true
  · simp only [he, if_true]
    have : line = [] := List.isEmpty_iff.mp he
    rw [this] at hlen
    simp [List.length_eq_zero.mp hlen]
  · rw [if_neg he, List.map_map]
    have := flatten_slices info w (ceilDiv line.length w)
    simp only [Function.comp_def]
    rw [this, List.take_of_length_le (by rw [hlen]; exact le_ceilDiv_mul _ _ hw)]

/-- The text lengths of the closed-form chunks of a non-empty line: full
cells followed by the rest. -/
theorem full_slices_length {α : Type} (l : List α) (w : Nat) :
    ∀ j : Nat, j * w ≤ l.length →
      (List.range j).map (fun k => ((l.drop (k * w)).take w).length) = List.replicate j w := by
  intro j
  induction j with
  | zero => intro _; rfl
  | succ j ih =>
    intro h
    have hmul : (j + 1) * w = j * w + w := Nat.succ_mul j w
    rw [List.range_succ, List.map_append, ih (by omega), List.replicate_succ']
    simp only [List.map_cons, List.map_nil, List.length_take, List.length_drop]
    congr 2
    omega

theorem lineChunks_lengths (line : List Char) (info : List HighlightType) (w : Nat)
    (hw : 1 ≤ w) (hne : line ≠ []) :
    (lineChunks line info w).map (fun c => c.1.length) =
      List.replicate (ceilDiv line.length w - 1) w ++
        [line.length - w * (ceilDiv line.length w - 1)] := by
  have hn : 1 ≤ line.length := by
    cases line with
    | nil => exact absurd rfl hne
    | cons a t => simp
  have he : ¬ line.isEmpty = true := by simpa [List.isEmpty_iff] using hne
  have hm := ceilDiv_pos line.length w hw hn
  have hlt := ceilDiv_pred_mul_lt line.length w hw hn
  have hcov := le_ceilDiv_mul line.length w hw
  unfold lineChunks
  rw [if_neg he, List.map_map]
  simp only [Function.comp_def]
  obtain ⟨m, hmeq⟩ : ∃ m, ceilDiv line.length w = m + 1 := ⟨ceilDiv line.length w - 1, by omega⟩
  rw [hmeq] at hlt hcov ⊢
  simp only [Nat.add_sub_cancel] at hlt ⊢
  have hmul : (m + 1) * w = m * w + w := Nat.succ_mul m w
  rw [List.range_succ, List.map_append, full_slices_length line w m (by omega)]
  simp only [List.map_cons, List.map_nil, List.length_take, List.length_drop]
  congr 2
  rw [Nat.mul_comm w m]
  omega

/-! ## Claims on `rewrapLines` -/

/-- C1 (wrap round trip).  For every line, every highlight vector of the same
length and every width of at least one, the line step of `rewrapLines`
returns, it appends chunks to whatever `wrappedLines` held, and the text
slices of the appended chunks, concatenated in order, are the line; in
particular `rewrapLines` on a viewer that holds just this line leaves chunks
whose texts concatenate to the line. -/
theorem wrap_round_trip (s : FileDisplay) (line : List Char) (info : List HighlightType)
    (acc : List Chunk) (hw : 1 ≤ s.winWidth) (hlen : info.length = line.length) :
    (∃ chunks : List Chunk, wrapLine line info s.winWidth acc = some (acc ++ chunks) ∧
      (chunks.map Prod.fst).flatten = line) ∧
    (∃ s2 : FileDisplay,
      rewrapLines { s with originalLines := [line], highlightInfo := [info] } = some s2 ∧
        (s2.wrappedLines.map Prod.fst).flatten = line) := by
  have hw2 : 1 ≤ s.winWidth.toNat := by omega
  refine ⟨⟨lineChunks line info s.winWidth.toNat, wrapLine_eq line info s.winWidth hw hlen acc,
    lineChunks_fst_flatten line info _ hw2⟩, ?_⟩
  refine ⟨{ s with originalLines := [line], highlightInfo := [info],
                   wrappedLines := lineChunks line info s.winWidth.toNat }, ?_, ?_⟩
  · simp [rewrapLines, rewrapFrom, wrapLine_eq line info s.winWidth hw hlen []]
  · exact lineChunks_fst_flatten line info _ hw2

/-- Witness of C1: the line `hello` in a viewer of width 2. -/
theorem wrap_round_trip_witness :
    (1 : Int) ≤ 2 ∧
    (∃ s2 : FileDisplay,
      rewrapLines
        { filename := "", originalLines := [['h', 'e', 'l', 'l', 'o']],
          highlightInfo := [List.replicate 5 HighlightType.NORMAL], wrappedLines := [],
          topLine := 0, winHeight := 3, winWidth := 2 } = some s2 ∧
        (s2.wrappedLines.map Prod.fst).flatten = ['h', 'e', 'l', 'l', 'o']) :=
  ⟨by decide,
    (wrap_round_trip
      { filename := "", originalLines := [], highlightInfo := [], wrappedLines := [],
        topLine := 0, winHeight := 3, winWidth := 2 }
      ['h', 'e', 'l', 'l', 'o'] (List.replicate 5 HighlightType.NORMAL) []
      (by decide) (by decide)).2⟩

/-- C5 (chunk shape).  For a width `w ≥ 1` the line step of `rewrapLines`
returns; for a non-empty line of `n` characters it appends `ceil (n / w)`
chunks whose text lengths are `w, ..., w, n - w * (ceil (n / w) - 1)`, the
last length lying between `1` and `w`; for an empty line it appends the single
chunk with empty text and empty highlight vector. -/
theorem chunk_shape (line : List Char) (info : List HighlightType) (winWidth : Int)
    (acc : List Chunk) (hw : 1 ≤ winWidth) (hlen : info.length = line.length) :
    ∃ chunks : List Chunk, wrapLine line info winWidth acc = some (acc ++ chunks) ∧
      (line ≠ [] →
        chunks.length = ceilDiv line.length winWidth.toNat ∧
        chunks.map (fun c => c.1.length) =
          List.replicate (ceilDiv line.length winWidth.toNat - 1) winWidth.toNat ++
            [line.length - winWidth.toNat * (ceilDiv line.length winWidth.toNat - 1)] ∧
        1 ≤ line.length - winWidth.toNat * (ceilDiv line.length winWidth.toNat - 1) ∧
        line.length - winWidth.toNat * (ceilDiv line.length winWidth.toNat - 1) ≤
          winWidth.toNat) ∧
      (line = [] → chunks = [([], [])]) := by
  have hw2 : 1 ≤ winWidth.toNat := by omega
  refine ⟨lineChunks line info winWidth.toNat, wrapLine_eq line info winWidth hw hlen acc,
    ?_, ?_⟩
  · intro hne
    have hn : 1 ≤ line.length := by
      cases line with
      | nil => exact absurd rfl hne
      | cons a t => simp
    have hlt := ceilDiv_pred_mul_lt line.length winWidth.toNat hw2 hn
    have hcov := le_ceilDiv_mul line.length winWidth.toNat hw2
    have hm := ceilDiv_pos line.length winWidth.toNat hw2 hn
    have hmul : (ceilDiv line.length winWidth.toNat - 1) * winWidth.toNat + winWidth.toNat =
        ceilDiv line.length winWidth.toNat * winWidth.toNat := by
      rw [← Nat.succ_mul]
      congr 1
      omega
    have hcomm : winWidth.toNat * (ceilDiv line.length winWidth.toNat - 1) =
        (ceilDiv line.length winWidth.toNat - 1) * winWidth.toNat := Nat.mul_comm _ _
    refine ⟨?_, lineChunks_lengths line info _ hw2 hne, by omega, by omega⟩
    have he : ¬ line.isEmpty = true := by simpa [List.isEmpty_iff] using hne
    simp [lineChunks, he]
  · intro he
    simp [lineChunks, he]

/-- Witness of C5: a line of 100 characters at width 40 gives chunks of
lengths 40, 40 and 20. -/
theorem chunk_shape_witness :
    ∃ chunks : List Chunk,
      wrapLine (List.replicate 100 'x') (List.replicate 100 HighlightType.NORMAL) 40 [] =
        some chunks ∧
      chunks.map (fun c => c.1.length) = [40, 40, 20] := by
  obtain ⟨chunks, h1, h2, _⟩ :=
    chunk_shape (List.replicate 100 'x') (List.replicate 100 HighlightType.NORMAL) 40 []
      (by decide) (by simp)
  refine ⟨chunks, by simpa using h1, ?_⟩
  have h3 := (h2 (by simp)).2.1
  rw [h3]
  decide

/-- C6 (annotation slices stay aligned).  For a width `w ≥ 1` and a highlight
vector as long as the line, the line step of `rewrapLines` returns chunks in
which the highlight slice is as long as the text slice, position `j` of chunk
`k` carries the character and the tag of offset `k * w + j` of the line, and
the highlight slices concatenate to the highlight vector of the line. -/
theorem annotation_slices_aligned (line : List Char) (info : List HighlightType)
    (winWidth : Int) (acc : List Chunk) (hw : 1 ≤ winWidth)
    (hlen : info.length = line.length) :
    ∃ chunks : List Chunk, wrapLine line info winWidth acc = some (acc ++ chunks) ∧
      (∀ c ∈ chunks, c.2.length = c.1.length) ∧
      (∀ (k j : Nat) (c : Chunk), chunks[k]? = some c → j < c.2.length →
        c.snd[j]? = info[k * winWidth.toNat + j]? ∧ c.fst[j]? = (line)[k * winWidth.toNat + j]?) ∧
      (chunks.map Prod.snd).flatten = info := by
  have hw2 : 1 ≤ winWidth.toNat := by omega
  refine ⟨lineChunks line info winWidth.toNat, wrapLine_eq line info winWidth hw hlen acc,
    ?_, ?_, lineChunks_snd_flatten line info _ hw2 hlen⟩
  · intro c hc
    unfold lineChunks at hc
    by_cases he : line.isEmpty = true
    · rw [if_pos he] at hc
      simp at hc
      rw [hc]
      rfl
    · rw [if_neg he] at hc
      simp only [List.mem_map, List.mem_range] at hc
      obtain ⟨k, _, rfl⟩ := hc
      simp [hlen]
  · intro k j c hk hj
    unfold lineChunks at hk
    by_cases he : line.isEmpty = true
    · rw [if_pos he] at hk
      cases k with
      | zero =>
        simp at hk
        rw [← hk] at hj
        simp at hj
      | succ k => simp at hk
    · rw [if_neg he] at hk
      rw [List.getElem?_map] at hk
      cases hr : (List.range (ceilDiv line.length winWidth.toNat))[k]? with
      | none => rw [hr] at hk; simp at hk
      | some k2 =>
        rw [hr] at hk
        have hk2 : k2 = k := by
          by_cases hkm : k < ceilDiv line.length winWidth.toNat
          · rw [List.getElem?_range hkm] at hr
            exact (Option.some.inj hr).symm
          · rw [List.getElem?_eq_none (by simp; omega)] at hr
            cases hr
        subst hk2
        simp only [Option.map_some', Option.some.injEq] at hk
        subst hk
        simp only [List.length_take] at hj
        have hjw : j < winWidth.toNat := by omega
        simp only [List.getElem?_take_of_lt hjw, List.getElem?_drop]
        exact ⟨trivial, trivial⟩

/-- Witness of C6: the line `abcde` with five different tags at width 2. -/
theorem annotation_slices_aligned_witness :
    (1 : Int) ≤ 2 ∧
    ∃ chunks : List Chunk,
      wrapLine ['a', 'b', 'c', 'd', 'e']
        [HighlightType.KEYWORD, HighlightType.STRING, HighlightType.COMMENT,
          HighlightType.NUMBER, HighlightType.SYMBOL] 2 [] = some chunks ∧
      (chunks.map Prod.snd).flatten =
        [HighlightType.KEYWORD, HighlightType.STRING, HighlightType.COMMENT,
          HighlightType.NUMBER, HighlightType.SYMBOL] := by
  obtain ⟨chunks, h1, _, _, h4⟩ :=
    annotation_slices_aligned ['a', 'b', 'c', 'd', 'e']
      [HighlightType.KEYWORD, HighlightType.STRING, HighlightType.COMMENT,
        HighlightType.NUMBER, HighlightType.SYMBOL] 2 [] (by decide) (by decide)
  exact ⟨by decide, chunks, by simpa using h1, h4⟩

/-- Lines and highlight vectors of pairwise equal lengths pair up. -/
theorem zip_lengths_eq :
    ∀ (lines : List (List Char)) (hi : List (List HighlightType)),
      hi.map List.length = lines.map List.length →
      ∀ p ∈ lines.zip hi, p.2.length = p.1.length := by
  intro lines
  induction lines with
  | nil => intro hi _ p hp; simp at hp
  | cons line rest ih =>
    intro hi h p hp
    cases hi with
    | nil => simp at hp
    | cons info tl =>
      simp only [List.map_cons, List.cons.injEq] at h
      simp only [List.zip_cons_cons, List.mem_cons] at hp
      rcases hp with rfl | hp
      · exact h.1
      · exact ih tl h.2 p hp

/-- The line loop of `rewrapLines` appends the closed-form chunks of every
remaining line, in order. -/
theorem rewrapFrom_eq (hi : List (List HighlightType)) (winWidth : Int) (hw : 1 ≤ winWidth) :
    ∀ (lines : List (List Char)) (lineNum : Nat) (acc : List Chunk),
      (hi.drop lineNum).map List.length = lines.map List.length →
      rewrapFrom hi winWidth lines lineNum acc =
        some (acc ++ ((lines.zip (hi.drop lineNum)).map
          (fun p => lineChunks p.1 p.2 winWidth.toNat)).flatten) := by
  intro lines
  induction lines with
  | nil => intro lineNum acc _; simp [rewrapFrom]
  | cons line rest ih =>
    intro lineNum acc h
    cases hd : hi.drop lineNum with
    | nil => rw [hd] at h; simp at h
    | cons info tl =>
      rw [hd] at h
      simp only [List.map_cons, List.cons.injEq] at h
      have hget : hi[lineNum]? = some info := by
        have h0 := List.getElem?_drop hi lineNum 0
        rw [hd] at h0
        simpa using h0.symm
      have htl : hi.drop (lineNum + 1) = tl := by
        have h1 := List.drop_drop 1 lineNum hi
        rw [hd] at h1
        simpa using h1.symm
      simp only [rewrapFrom, hget, wrapLine_eq line info winWidth hw h.1 acc]
      rw [ih (lineNum + 1) _ (by rw [htl]; exact h.2), htl]
      simp

/-- The closed-form chunks of a line are `max 1 (ceil (n / w))` many. -/
theorem lineChunks_length (line : List Char) (info : List HighlightType) (w : Nat)
    (hw : 1 ≤ w) : (lineChunks line info w).length = max 1 (ceilDiv line.length w) := by
  unfold lineChunks
  by_cases he : line.isEmpty = true
  · rw [if_pos he]
    have : line = [] := List.isEmpty_iff.mp he
    simp [this, ceilDiv_zero w hw]
  · rw [if_neg he]
    have hn : 1 ≤ line.length := by
      cases line with
      | nil => simp at he
      | cons a t => simp
    have := ceilDiv_pos line.length w hw hn
    simp only [List.length_map, List.length_range]
    omega

/-- C7 (whole-file re-wrap is a full recompute).  For a width `w ≥ 1` and
highlight vectors as long as their lines, `rewrapLines` returns whatever
`wrappedLines` held before; the new `wrappedLines` is the concatenation, in
line order, of the chunks that the line step yields for each line on its own;
their number is the sum over the lines of `max 1 (ceil (len / w))`; and a
second `rewrapLines` returns the same object. -/
theorem rewrap_full_recompute (s : FileDisplay) (hw : 1 ≤ s.winWidth)
    (hann : s.highlightInfo.map List.length = s.originalLines.map List.length) :
    ∃ groups : List (List Chunk),
      List.Forall₂ (fun p g => wrapLine p.1 p.2 s.winWidth [] = some g)
        (s.originalLines.zip s.highlightInfo) groups ∧
      (∀ old : List Chunk, rewrapLines { s with wrappedLines := old } =
        some { s with wrappedLines := groups.flatten }) ∧
      groups.flatten.length =
        (s.originalLines.map (fun l => max 1 (ceilDiv l.length s.winWidth.toNat))).sum ∧
      rewrapLines { s with wrappedLines := groups.flatten } =
        some { s with wrappedLines := groups.flatten } := by
  have hw2 : 1 ≤ s.winWidth.toNat := by omega
  have hall : ∀ old : List Chunk, rewrapLines { s with wrappedLines := old } =
      some { s with wrappedLines := ((s.originalLines.zip s.highlightInfo).map
        (fun p => lineChunks p.1 p.2 s.winWidth.toNat)).flatten } := by
    intro old
    have h := rewrapFrom_eq s.highlightInfo s.winWidth hw s.originalLines 0 []
      (by simpa using hann)
    simp only [List.drop_zero, List.nil_append] at h
    simp [rewrapLines, h]
  refine ⟨(s.originalLines.zip s.highlightInfo).map
    (fun p => lineChunks p.1 p.2 s.winWidth.toNat), ?_, hall, ?_, hall _⟩
  · rw [List.forall₂_map_right_iff, List.forall₂_same]
    intro p hp
    have := wrapLine_eq p.1 p.2 s.winWidth hw (zip_lengths_eq _ _ hann p hp) []
    simpa using this
  · rw [List.length_flatten, List.map_map]
    have hlen : s.originalLines.length ≤ s.highlightInfo.length := by
      have := congrArg List.length hann
      simp at this
      omega
    have hfst : (s.originalLines.zip s.highlightInfo).map Prod.fst = s.originalLines :=
      List.map_fst_zip _ _ hlen
    have : (List.length ∘ fun p : List Char × List HighlightType =>
        lineChunks p.1 p.2 s.winWidth.toNat) =
        (fun l : List Char => max 1 (ceilDiv l.length s.winWidth.toNat)) ∘ Prod.fst := by
      funext p
      simp [lineChunks_length p.1 p.2 _ hw2]
    rw [this, ← List.map_map, hfst]

/-- Witness of C7: the five-line scenario gives seven chunks. -/
theorem rewrap_full_recompute_witness :
    1 ≤ scenarioViewer.winWidth ∧
    ∃ s2 : FileDisplay, rewrapLines scenarioViewer = some s2 ∧ s2.wrappedLines.length = 7 := by
  obtain ⟨groups, _, h2, h3, _⟩ :=
    rewrap_full_recompute scenarioViewer (by decide) (by decide)
  refine ⟨by decide, _, h2 [], ?_⟩
  rw [h3]
  decide

/-! ## Lemmas on `analyzeSyntax` -/

theorem varRun_length (line : List Char) :
    ∀ (fuel j : Nat) (lineInfo : List HighlightType),
      (varRun line fuel j lineInfo).2.length = lineInfo.length := by
  intro fuel
  induction fuel with
  | zero => intro j lineInfo; rfl
  | succ fuel ih =>
    intro j lineInfo
    unfold varRun
    split
    · rw [ih]; simp
    · rfl

theorem firstPass_length (line : List Char) :
    ∀ (fuel i : Nat) (inString inComment escapeChar : Bool) (lineInfo : List HighlightType),
      (firstPass line fuel i inString inComment escapeChar lineInfo).length =
        lineInfo.length := by
  intro fuel
  induction fuel with
  | zero => intro i a b c lineInfo; rfl
  | succ fuel ih =>
    intro i a b c lineInfo
    unfold firstPass
    repeat' split
    all_goals first
      | rfl
      | simp [ih, varRun_length]

theorem firstPassLine_length (line : List Char) :
    (firstPassLine line).length = line.length := by
  unfold firstPassLine
  rw [firstPass_length]
  simp

theorem markKeyword_length (info : List HighlightType) (wordStart len : Nat) :
    (markKeyword info wordStart len).length = info.length := by
  unfold markKeyword
  induction len with
  | zero => rfl
  | succ n ih => rw [List.range_succ, List.foldl_append]; simp [ih]

theorem keywordLoop_length (line : List Char) :
    ∀ (fuel pos : Nat) (info : List HighlightType),
      (keywordLoop line fuel pos info).length = info.length := by
  intro fuel
  induction fuel with
  | zero => intro pos info; rfl
  | succ fuel ih =>
    intro pos info
    unfold keywordLoop
    by_cases h1 : pos < line.length
    · rw [if_pos h1]
      simp only []
      by_cases h2 : line.length ≤ skipLoop line info line.length pos
      · rw [if_pos h2]
      · rw [if_neg h2, ih]
        split <;> simp [markKeyword_length]
    · rw [if_neg h1]

theorem keywordPass_length (line : List Char) (info : List HighlightType) :
    (keywordPass line info).length = info.length :=
  keywordLoop_length line _ _ _

theorem symbolPass_length (line : List Char) (info : List HighlightType) :
    (symbolPass line info).length = info.length := by
  unfold symbolPass
  generalize line.length = n
  induction n with
  | zero => rfl
  | succ n ih =>
    rw [List.range_succ, List.foldl_append]
    simp only [List.foldl_cons, List.foldl_nil]
    split
    · simp [ih]
    · exact ih

/-- The highlight vector of one line after the three passes. -/
theorem analyzeSyntax_fold (lines : List (List Char)) :
    ∀ n : Nat, n ≤ lines.length →
      (List.range n).foldl (secondLoopBody lines) (lines.map firstPassLine) =
        (lines.take n).map
            (fun line => symbolPass line (keywordPass line (firstPassLine line))) ++
          (lines.drop n).map firstPassLine := by
  intro n
  induction n with
  | zero => intro _; simp
  | succ n ih =>
    intro hn
    rw [List.range_succ, List.foldl_append, ih (by omega)]
    simp only [List.foldl_cons, List.foldl_nil, secondLoopBody]
    have hlt : n < lines.length := by omega
    have hdrop : lines.drop n = lines[n] :: lines.drop (n + 1) := List.drop_eq_getElem_cons hlt
    have htake : lines.take (n + 1) = lines.take n ++ [lines[n]] := by
      rw [List.take_succ]
      simp [List.getElem?_eq_getElem hlt]
    have hlenA : ((lines.take n).map
        (fun line => symbolPass line (keywordPass line (firstPassLine line)))).length = n := by
      simp; omega
    rw [hdrop, htake]
    simp only [List.map_cons, List.map_append, List.map_nil]
    have hget : lines.getD n [] = lines[n] := by
      simp [List.getD_eq_getElem?_getD, List.getElem?_eq_getElem hlt]
    rw [hget, List.getD_eq_getElem?_getD, List.getElem?_append_right (by omega), hlenA]
    simp only [Nat.sub_self, List.getElem?_cons_zero, Option.getD_some]
    rw [List.set_append_right _ _ (by omega), hlenA]
    simp

/-- C2 (annotation length invariant).  For every viewer, whatever
`highlightInfo` held before, `analyzeSyntax` leaves the lines unchanged and
stores one highlight vector per line, in line order: the vector at index `k`
is the result of the three passes on line `k`, and it has as many tags as the
line has characters. -/
theorem annotation_length_invariant (s : FileDisplay) :
    (analyzeSyntax s).originalLines = s.originalLines ∧
    (analyzeSyntax s).highlightInfo =
      s.originalLines.map
        (fun line => symbolPass line (keywordPass line (firstPassLine line))) ∧
    (analyzeSyntax s).highlightInfo.length = s.originalLines.length ∧
    (analyzeSyntax s).highlightInfo.map List.length = s.originalLines.map List.length := by
  have h : (analyzeSyntax s).highlightInfo =
      s.originalLines.map
        (fun line => symbolPass line (keywordPass line (firstPassLine line))) := by
    have := analyzeSyntax_fold s.originalLines s.originalLines.length (le_refl _)
    simpa [analyzeSyntax] using this
  refine ⟨rfl, h, ?_, ?_⟩
  · rw [h]; simp
  · rw [h, List.map_map]
    apply List.map_congr_left
    intro line _
    simp [symbolPass_length, keywordPass_length, firstPassLine_length]

/-! ## Lemmas and claims on `refreshDisplay` and `handleInput` -/

/-- The drawing loop reads the `n` chunks that follow `topLine + i` when they
all exist. -/
theorem drawRows_eq (s : FileDisplay) :
    ∀ (n : Nat) (i : Int), 0 ≤ s.topLine + i →
      s.topLine + i + (n : Int) ≤ (s.wrappedLines.length : Int) →
      drawRows s n i =
        some ((List.range n).map (fun (k : Nat) =>
          drawRow s.winWidth (i + (k : Int)) (s.topLine + i + (k : Int))
            (s.wrappedLines.getD (s.topLine + i + (k : Int)).toNat ([], [])))) := by
  intro n
  induction n with
  | zero => intro i _ _; rfl
  | succ n ih =>
    intro i h0 h1
    have hlt : (s.topLine + i).toNat < s.wrappedLines.length := by
      push_cast at h1
      omega
    have hc : chunkAt s.wrappedLines (s.topLine + i) =
        some (s.wrappedLines.getD (s.topLine + i).toNat ([], [])) := by
      unfold chunkAt
      rw [if_neg (by omega), List.getD_eq_getElem?_getD, List.getElem?_eq_getElem hlt]
      rfl
    have hih := ih (i + 1) (by omega) (by push_cast at h1; omega)
    simp only [drawRows, hc, hih, List.range_succ_eq_map, List.map_cons, List.map_map]
    congr 2
    · simp
    · apply List.map_congr_left
      intro k _
      simp only [Function.comp, Nat.succ_eq_add_one]
      push_cast
      have e1 : i + 1 + (k : Int) = i + ((k : Int) + 1) := by ring
      have e2 : s.topLine + (i + 1) + (k : Int) = s.topLine + i + ((k : Int) + 1) := by ring
      rw [e1, e2]

/-- The drawing loop of a chunk puts one cell per character, in order. -/
theorem drawCells_fst (line : List Char) (info : List HighlightType) :
    (drawCells line info).map Prod.fst = line := by
  apply List.ext_getElem?
  intro j
  unfold drawCells
  rw [List.map_map, List.getElem?_map]
  by_cases hj : j < line.length
  · have hc : (line)[j]? = some (charAt line j) := by
      unfold charAt
      rw [List.getD_eq_getElem?_getD, List.getElem?_eq_getElem hj]
      rfl
    rw [List.getElem?_range hj, hc]
    simp only [Option.map_some', Function.comp]
    split <;> rfl
  · rw [List.getElem?_eq_none (by simp; omega), List.getElem?_eq_none (by omega)]
    rfl

/-- The cell of a character: the character, in the colour of its highlight
entry, or plain when the entry is missing. -/
theorem drawCells_getElem? (line : List Char) (info : List HighlightType) (j : Nat)
    (hj : j < line.length) :
    (drawCells line info)[j]? =
      some (charAt line j, if info.length ≤ j then 0 else colorPair (infoAt info j)) := by
  unfold drawCells
  rw [List.getElem?_map, List.getElem?_range hj]
  simp only [Option.map_some']
  split <;> rfl

/-- C8 (render reads only valid chunks).  For a viewer of height at least one
whose `topLine` is in range, `refreshDisplay` returns a drawing; the drawing
has `min height (len chunks - topLine)` chunk rows; row `i` holds the chunk
read at subscript `topLine + i`; the subscripts are `topLine, topLine + 1,
...` in order and each lies in `[0, len chunks)`; the chunks drawn are those
that follow `topLine` in `wrappedLines`; nothing is drawn for an empty file.
The row at position `i` is drawn on window row `i`: its cells are the
characters of the chunk, in order, each in the colour of its highlight entry,
followed by the blanks that fill the width.  The rows below, up to the status
row, are blanked, and the status text is written unless there is no chunk. -/
theorem render_reads_valid_chunks (s : FileDisplay) (hh : 1 ≤ s.winHeight)
    (hin : scrollInRange s) :
    ∃ scr : Screen, refreshDisplay s = some scr ∧
      (scr.rows.length : Int) = min s.winHeight ((s.wrappedLines.length : Int) - s.topLine) ∧
      scr.rows.map (fun r => r.index) =
        (List.range scr.rows.length).map (fun (i : Nat) => s.topLine + (i : Int)) ∧
      (∀ r ∈ scr.rows, 0 ≤ r.index ∧ r.index < (s.wrappedLines.length : Int) ∧
        s.wrappedLines[r.index.toNat]? = some r.chunk) ∧
      scr.rows.map (fun r => r.chunk) =
        (s.wrappedLines.drop s.topLine.toNat).take s.winHeight.toNat ∧
      (s.wrappedLines = [] → scr.rows = []) ∧
      (∀ (i : Nat) (r : DrawnRow), scr.rows[i]? = some r →
        r.row = (i : Int) ∧ r.index = s.topLine + (i : Int) ∧
        s.wrappedLines[s.topLine.toNat + i]? = some r.chunk ∧
        r.cells.map Prod.fst = r.chunk.1 ∧
        (∀ j : Nat, j < r.chunk.1.length →
          r.cells[j]? = some (charAt r.chunk.1 j,
            if r.chunk.2.length ≤ j then 0 else colorPair (infoAt r.chunk.2 j))) ∧
        r.padding = max 0 (s.winWidth - (r.chunk.1.length : Int))) ∧
      (∀ y : Int, y ∈ scr.blankRows ↔
        (min s.winHeight ((s.wrappedLines.length : Int) - s.topLine) ≤ y ∧
          y < s.winHeight - 1)) ∧
      (s.wrappedLines = [] → scr.status = none) ∧
      (s.wrappedLines ≠ [] → scr.status =
        some (toString (s.topLine + 1) ++ "/" ++ toString s.wrappedLines.length)) := by
  obtain ⟨h0, h1⟩ := hin
  have hn : 0 ≤ min s.winHeight ((s.wrappedLines.length : Int) - s.topLine) := by
    rcases le_total 0 ((s.wrappedLines.length : Int) - s.winHeight) with h | h
    · rw [max_eq_right h] at h1
      exact le_min (by omega) (by omega)
    · rw [max_eq_left h] at h1
      exact le_min (by omega) (by omega)
  have hle : min s.winHeight ((s.wrappedLines.length : Int) - s.topLine) ≤
      (s.wrappedLines.length : Int) - s.topLine := min_le_right _ _
  generalize hm : min s.winHeight ((s.wrappedLines.length : Int) - s.topLine) = m at hn hle
  have hrows := drawRows_eq s m.toNat 0 (by omega) (by omega)
  simp only [add_zero, zero_add] at hrows
  have hscr : refreshDisplay s = some
      { rows := (List.range m.toNat).map (fun (k : Nat) =>
          drawRow s.winWidth (k : Int) (s.topLine + (k : Int))
            (s.wrappedLines.getD (s.topLine + (k : Int)).toNat ([], [])))
        blankRows := (List.range (s.winHeight - 1 - m).toNat).map
          (fun (k : Nat) => m + (k : Int))
        status :=
          if s.wrappedLines.isEmpty then none
          else some (toString (s.topLine + 1) ++ "/" ++ toString s.wrappedLines.length) } := by
    simp only [refreshDisplay, hm, hrows]
  refine ⟨_, hscr, ?_, ?_, ?_, ?_, ?_, ?_, ?_, ?_, ?_⟩
  · simp only [List.length_map, List.length_range]
    omega
  · simp [drawRow, Function.comp_def]
  · intro r hr
    simp only [List.mem_map, List.mem_range] at hr
    obtain ⟨k, hk, rfl⟩ := hr
    have hk2 : (s.topLine + (k : Int)).toNat < s.wrappedLines.length := by omega
    refine ⟨by simp only [drawRow]; omega, by simp only [drawRow]; omega, ?_⟩
    simp only [drawRow]
    rw [List.getD_eq_getElem?_getD, List.getElem?_eq_getElem hk2]
    rfl
  · apply List.ext_getElem?
    intro k
    simp only [List.map_map, List.getElem?_map, List.getElem?_take, List.getElem?_drop]
    by_cases hk : k < m.toNat
    · have hk2 : (s.topLine + (k : Int)).toNat < s.wrappedLines.length := by omega
      have hk3 : k < s.winHeight.toNat := by
        have := min_le_left s.winHeight ((s.wrappedLines.length : Int) - s.topLine)
        omega
      have hk4 : s.topLine.toNat + k = (s.topLine + (k : Int)).toNat := by omega
      rw [List.getElem?_range hk, if_pos hk3, hk4]
      simp only [Option.map_some', Function.comp, drawRow]
      rw [List.getD_eq_getElem?_getD, List.getElem?_eq_getElem hk2]
      rfl
    · rw [List.getElem?_eq_none (by simp; omega)]
      simp only [Option.map_none']
      by_cases hk3 : k < s.winHeight.toNat
      · rw [if_pos hk3, List.getElem?_eq_none]
        have : m = (s.wrappedLines.length : Int) - s.topLine := by
          rw [← hm]
          apply min_eq_right
          omega
        omega
      · rw [if_neg hk3]
  · intro he
    have : m = 0 := by
      rw [he] at hm hle
      simp at hle
      omega
    simp [this]
  · intro i r hr
    dsimp only at hr
    rw [List.getElem?_map] at hr
    have hi : i < m.toNat := by
      by_contra hc
      rw [List.getElem?_eq_none (by simp; omega)] at hr
      cases hr
    rw [List.getElem?_range hi] at hr
    simp only [Option.map_some', Option.some.injEq] at hr
    subst hr
    have hk2 : (s.topLine + (i : Int)).toNat < s.wrappedLines.length := by omega
    have hk4 : s.topLine.toNat + i = (s.topLine + (i : Int)).toNat := by omega
    refine ⟨rfl, rfl, ?_, ?_, ?_, ?_⟩
    · simp only [drawRow]
      rw [hk4, List.getD_eq_getElem?_getD, List.getElem?_eq_getElem hk2]
      rfl
    · exact drawCells_fst _ _
    · intro j hj
      exact drawCells_getElem? _ _ j hj
    · simp only [drawRow]
      split
      · rw [max_eq_right (by omega)]
      · rw [max_eq_left (by omega)]
  · intro y
    dsimp only
    simp only [List.mem_map, List.mem_range]
    constructor
    · rintro ⟨k, hk, rfl⟩
      omega
    · intro hy
      exact ⟨(y - m).toNat, by omega, by omega⟩
  · intro he
    simp [he]
  · intro hne
    dsimp only
    rw [if_neg (by simpa using hne)]

/-- Witness of C8: three chunks, height two, `topLine = 1`: the rows 0 and 1
show `b`, in the keyword colour, and `c`, each padded with three blanks. -/
theorem render_reads_valid_chunks_witness :
    ∃ scr : Screen,
      refreshDisplay
        { filename := "f", originalLines := [], highlightInfo := [],
          wrappedLines := [(['a'], [HighlightType.NORMAL]), (['b'], [HighlightType.KEYWORD]),
            (['c'], [HighlightType.NORMAL])],
          topLine := 1, winHeight := 2, winWidth := 4 } = some scr ∧
      scr.rows.map (fun r => r.index) = [1, 2] ∧
      scr.rows.map (fun r => r.row) = [0, 1] ∧
      scr.rows.map (fun r => r.cells) = [[('b', 1)], [('c', 0)]] ∧
      scr.rows.map (fun r => r.padding) = [3, 3] := by
  obtain ⟨scr, h1, h2, h3, _⟩ :=
    render_reads_valid_chunks
      { filename := "f", originalLines := [], highlightInfo := [],
        wrappedLines := [(['a'], [HighlightType.NORMAL]), (['b'], [HighlightType.KEYWORD]),
          (['c'], [HighlightType.NORMAL])],
        topLine := 1, winHeight := 2, winWidth := 4 } (by decide) (by decide)
  refine ⟨scr, h1, ?_, ?_⟩
  · have h4 : scr.rows.length = 2 := by
      have : (scr.rows.length : Int) = 2 := by rw [h2]; decide
      omega
    rw [h3, h4]
    decide
  · have hrows : (refreshDisplay
        { filename := "f", originalLines := [], highlightInfo := [],
          wrappedLines := [(['a'], [HighlightType.NORMAL]), (['b'], [HighlightType.KEYWORD]),
            (['c'], [HighlightType.NORMAL])],
          topLine := 1, winHeight := 2, winWidth := 4 }).map (fun x => x.rows) =
        some [⟨0, 1, (['b'], [HighlightType.KEYWORD]), [('b', 1)], 3⟩,
          ⟨1, 2, (['c'], [HighlightType.NORMAL]), [('c', 0)], 3⟩] := by
      decide
    rw [h1] at hrows
    have hr : scr.rows = _ := Option.some.inj hrows
    rw [hr]
    decide

/-! ## Lemmas and claims on the commit-message editor -/

theorem lineStartScan_bounds (msg : List Char) :
    ∀ (fuel : Nat) (c : Int), 0 ≤ c → c ≤ (msg.length : Int) →
      ∃ r : Int, lineStartScan msg fuel c = some r ∧ 0 ≤ r ∧ r ≤ c := by
  intro fuel
  induction fuel with
  | zero => intro c h0 _; exact ⟨c, rfl, h0, le_refl _⟩
  | succ fuel ih =>
    intro c h0 h1
    unfold lineStartScan
    by_cases hc : c > 0
    · rw [if_pos hc]
      have hm : msgAt msg (c - 1) = some (charAt msg (c - 1).toNat) := by
        unfold msgAt
        rw [if_neg (by omega)]
      rw [hm]
      simp only []
      by_cases hn : charAt msg (c - 1).toNat ≠ newline
      · rw [if_pos hn]
        obtain ⟨r, hr, hr0, hr1⟩ := ih (c - 1) (by omega) (by omega)
        exact ⟨r, hr, hr0, by omega⟩
      · rw [if_neg hn]
        exact ⟨c, rfl, h0, le_refl _⟩
    · rw [if_neg hc]
      exact ⟨c, rfl, h0, le_refl _⟩

theorem lineEndScan_bounds (msg : List Char) :
    ∀ (fuel : Nat) (e : Int), 0 ≤ e → e ≤ (msg.length : Int) →
      e ≤ lineEndScan msg fuel e ∧ lineEndScan msg fuel e ≤ (msg.length : Int) := by
  intro fuel
  induction fuel with
  | zero => intro e _ h1; exact ⟨le_refl _, h1⟩
  | succ fuel ih =>
    intro e h0 h1
    unfold lineEndScan
    split
    · rename_i h
      have := ih (e + 1) (by omega) (by omega)
      exact ⟨by omega, this.2⟩
    · exact ⟨le_refl _, h1⟩

theorem strInsert_some (msg : List Char) (pos : Int) (c : Char) (h0 : 0 ≤ pos)
    (h1 : pos ≤ (msg.length : Int)) :
    ∃ m : List Char, strInsert msg pos c = some m ∧ m.length = msg.length + 1 := by
  refine ⟨msg.take pos.toNat ++ c :: msg.drop pos.toNat, ?_, ?_⟩
  · unfold strInsert
    rw [if_neg (by omega)]
  · simp only [List.length_append, List.length_take, List.length_cons, List.length_drop]
    omega

theorem strErase_some (msg : List Char) (pos : Int) (h0 : 0 ≤ pos)
    (h1 : pos < (msg.length : Int)) :
    ∃ m : List Char, strErase msg pos = some m ∧ m.length + 1 = msg.length := by
  refine ⟨msg.take pos.toNat ++ msg.drop (pos.toNat + 1), ?_, ?_⟩
  · unfold strErase
    rw [if_neg (by omega)]
  · simp only [List.length_append, List.length_take, List.length_drop]
    omega

theorem keyUp_bounds (s : gitInterface) (hw : 1 ≤ s.maxx - 4) (hc : cursorInRange s) :
    ∃ s2 : gitInterface, keyUp s = some s2 ∧ cursorInRange s2 ∧ s2.maxx = s.maxx ∧
      s2.commitMessage = s.commitMessage := by
  obtain ⟨h0, h1⟩ := hc
  obtain ⟨ls, hls, hls0, hls1⟩ :=
    lineStartScan_bounds s.commitMessage s.cursorPos.toNat s.cursorPos h0 h1
  unfold keyUp
  simp only [hls]
  by_cases hpos : ls > 0
  · rw [if_pos hpos]
    obtain ⟨pl, hpl, hpl0, hpl1⟩ :=
      lineStartScan_bounds s.commitMessage (ls - 1).toNat (ls - 1) (by omega) (by omega)
    simp only [hpl]
    refine ⟨_, rfl, ?_, rfl, rfl⟩
    unfold cursorInRange
    dsimp only
    rcases min_choice (pl + (ls - 1 - pl)) (pl + (s.maxx - 4) - 1) with h | h
    · rw [h]; omega
    · have := min_le_left (pl + (ls - 1 - pl)) (pl + (s.maxx - 4) - 1)
      rw [h] at this ⊢
      omega
  · rw [if_neg hpos]
    exact ⟨s, rfl, ⟨h0, h1⟩, rfl, rfl⟩

theorem keyDown_bounds (s : gitInterface) (hc : cursorInRange s) :
    ∃ s2 : gitInterface, keyDown s = some s2 ∧ cursorInRange s2 ∧ s2.maxx = s.maxx ∧
      s2.commitMessage = s.commitMessage := by
  obtain ⟨h0, h1⟩ := hc
  obtain ⟨ls, hls, hls0, hls1⟩ :=
    lineStartScan_bounds s.commitMessage s.cursorPos.toNat s.cursorPos h0 h1
  unfold keyDown
  simp only [hls]
  split
  · refine ⟨_, rfl, ?_, rfl, rfl⟩
    unfold cursorInRange
    dsimp only
    split <;> omega
  · exact ⟨s, rfl, ⟨h0, h1⟩, rfl, rfl⟩

/-- One key of the focused commit input keeps the cursor inside the buffer. -/
theorem editKey_bounds (s : gitInterface) (ch : Int) (hw : 1 ≤ s.maxx - 4)
    (hc : cursorInRange s) :
    ∃ s2 : gitInterface, editKey s ch = some s2 ∧ cursorInRange s2 ∧ s2.maxx = s.maxx := by
  have hc2 := hc
  obtain ⟨h0, h1⟩ := hc2
  unfold editKey
  by_cases c1 : ch = KEY_ENTER ∨ ch = 10
  · rw [if_pos c1]
    obtain ⟨m, hm, hlen⟩ := strInsert_some s.commitMessage s.cursorPos newline h0 h1
    rw [hm]
    refine ⟨_, rfl, ?_, rfl⟩
    unfold cursorInRange
    dsimp only
    omega
  rw [if_neg c1]
  by_cases c2 : ch = KEY_LEFT
  · rw [if_pos c2]
    refine ⟨_, rfl, ?_, ?_⟩
    · unfold cursorInRange
      split <;> (try dsimp only) <;> omega
    · split <;> rfl
  rw [if_neg c2]
  by_cases c3 : ch = KEY_RIGHT
  · rw [if_pos c3]
    refine ⟨_, rfl, ?_, ?_⟩
    · unfold cursorInRange
      split <;> (try dsimp only) <;> omega
    · split <;> rfl
  rw [if_neg c3]
  by_cases c4 : ch = KEY_UP
  · rw [if_pos c4]
    obtain ⟨s2, h, hb, hx, _⟩ := keyUp_bounds s hw hc
    exact ⟨s2, h, hb, hx⟩
  rw [if_neg c4]
  by_cases c5 : ch = KEY_DOWN
  · rw [if_pos c5]
    obtain ⟨s2, h, hb, hx, _⟩ := keyDown_bounds s hc
    exact ⟨s2, h, hb, hx⟩
  rw [if_neg c5]
  by_cases c6 : ch = KEY_HOME
  · rw [if_pos c6]
    obtain ⟨ls, hls, hls0, hls1⟩ :=
      lineStartScan_bounds s.commitMessage s.cursorPos.toNat s.cursorPos h0 h1
    rw [hls]
    refine ⟨_, rfl, ?_, rfl⟩
    unfold cursorInRange
    dsimp only
    omega
  rw [if_neg c6]
  by_cases c7 : ch = KEY_END
  · rw [if_pos c7]
    have hb := lineEndScan_bounds s.commitMessage s.commitMessage.length s.cursorPos h0 h1
    refine ⟨_, rfl, ?_, rfl⟩
    unfold cursorInRange
    dsimp only
    omega
  rw [if_neg c7]
  by_cases c8 : ch = 9
  · rw [if_pos c8]
    exact ⟨_, rfl, ⟨h0, h1⟩, rfl⟩
  rw [if_neg c8]
  by_cases c9 : ch = KEY_BACKSPACE ∨ ch = 127
  · rw [if_pos c9]
    by_cases hpos : s.cursorPos > 0
    · rw [if_pos hpos]
      obtain ⟨m, hm, hlen⟩ :=
        strErase_some s.commitMessage (s.cursorPos - 1) (by omega) (by omega)
      rw [hm]
      refine ⟨_, rfl, ?_, rfl⟩
      unfold cursorInRange
      dsimp only
      omega
    · rw [if_neg hpos]
      exact ⟨s, rfl, hc, rfl⟩
  rw [if_neg c9]
  by_cases c10 : ch = KEY_DC
  · rw [if_pos c10]
    by_cases hlt : s.cursorPos < (s.commitMessage.length : Int)
    · rw [if_pos hlt]
      obtain ⟨m, hm, hlen⟩ := strErase_some s.commitMessage s.cursorPos h0 hlt
      rw [hm]
      refine ⟨_, rfl, ?_, rfl⟩
      unfold cursorInRange
      dsimp only
      omega
    · rw [if_neg hlt]
      exact ⟨s, rfl, hc, rfl⟩
  rw [if_neg c10]
  by_cases c11 : isprint ch = true
  · rw [if_pos c11]
    obtain ⟨m, hm, hlen⟩ :=
      strInsert_some s.commitMessage s.cursorPos (Char.ofNat ch.toNat) h0 h1
    rw [hm]
    refine ⟨_, rfl, ?_, rfl⟩
    unfold cursorInRange
    dsimp only
    omega
  · rw [if_neg c11]
    exact ⟨s, rfl, hc, rfl⟩

theorem editKeys_bounds :
    ∀ (keys : List Int) (s : gitInterface), 1 ≤ s.maxx - 4 → cursorInRange s →
      ∃ s2 : gitInterface, editKeys s keys = some s2 ∧ cursorInRange s2 := by
  intro keys
  induction keys with
  | nil => intro s _ hc; exact ⟨s, rfl, hc⟩
  | cons ch rest ih =>
    intro s hw hc
    obtain ⟨s1, h1, hb, hx⟩ := editKey_bounds s ch hw hc
    obtain ⟨s2, h2, hb2⟩ := ih s1 (by rw [hx]; exact hw) hb
    exact ⟨s2, by simp only [editKeys, h1, h2], hb2⟩

theorem drawWindowState_bounds (s : gitInterface) (hc : cursorInRange s) :
    cursorInRange (drawWindowState s) ∧ (drawWindowState s).maxx = s.maxx := by
  unfold drawWindowState
  split
  · exact ⟨hc, rfl⟩
  · exact ⟨hc, rfl⟩

theorem selectKey_bounds (s : gitInterface) (ch : Int) (hc : cursorInRange s) :
    cursorInRange (selectKey s ch) ∧ (selectKey s ch).maxx = s.maxx := by
  unfold selectKey
  repeat' split
  all_goals first
    | exact ⟨hc, rfl⟩
    | exact ⟨⟨Int.natCast_nonneg _, le_refl _⟩, rfl⟩

/-- One iteration of the loop of `run` keeps the cursor inside the buffer. -/
theorem runStep_bounds (s : gitInterface) (ch : Int) (hw : 1 ≤ s.maxx - 4)
    (hc : cursorInRange s) :
    ∃ r : RunResult, runStep s ch = some r ∧
      ∀ s2 : gitInterface, r = RunResult.continues s2 →
        cursorInRange s2 ∧ s2.maxx = s.maxx := by
  obtain ⟨hd, hdx⟩ := drawWindowState_bounds s hc
  unfold runStep
  dsimp only
  split
  · exact ⟨_, rfl, fun s2 h => by cases h⟩
  split
  · split
    · obtain ⟨s1, h1, hb, hx⟩ := editKey_bounds (drawWindowState s) ch (by rw [hdx]; exact hw) hd
      simp only [h1]
      refine ⟨_, rfl, ?_⟩
      intro s2 h
      cases h
      exact ⟨hb, by rw [hx, hdx]⟩
    split
    · refine ⟨_, rfl, ?_⟩
      intro s2 h
      cases h
      exact ⟨hd, hdx⟩
    split
    · split
      · refine ⟨_, rfl, ?_⟩
        intro s2 h
        cases h
        exact ⟨hd, hdx⟩
      · exact ⟨_, rfl, fun s2 h => by cases h⟩
    · refine ⟨_, rfl, ?_⟩
      intro s2 h
      cases h
      exact ⟨hd, hdx⟩
  · refine ⟨_, rfl, ?_⟩
    intro s2 h
    cases h
    obtain ⟨hb, hx⟩ := selectKey_bounds (drawWindowState s) ch hd
    exact ⟨hb, by rw [hx, hdx]⟩

theorem runKeys_bounds :
    ∀ (keys : List Int) (s : gitInterface), 1 ≤ s.maxx - 4 → cursorInRange s →
      ∃ r : RunResult, runKeys s keys = some r ∧
        ∀ s2 : gitInterface, r = RunResult.continues s2 → cursorInRange s2 := by
  intro keys
  induction keys with
  | nil =>
    intro s _ hc
    refine ⟨_, rfl, ?_⟩
    intro s2 h
    cases h
    exact hc
  | cons ch rest ih =>
    intro s hw hc
    obtain ⟨r, hr, hcont⟩ := runStep_bounds s ch hw hc
    cases r with
    | returns msg =>
      exact ⟨RunResult.returns msg, by simp only [runKeys, hr], fun s2 h => by cases h⟩
    | continues s1 =>
      obtain ⟨hb, hx⟩ := hcont s1 rfl
      obtain ⟨r2, hr2, h2⟩ := ih s1 (by rw [hx]; exact hw) hb
      exact ⟨r2, by simp only [runKeys, hr, hr2], h2⟩

/-- C4 (cursor bounds).  With a text width `getmaxx(win) - 4` of at least one
and a cursor inside the buffer, every finite sequence of keys leaves the
cursor inside the buffer, `0 ≤ cursorPos ≤ len commitMessage`: the `switch`
of the focused commit input (insert, Enter, Backspace, Delete, Left, Right,
Up, Down, Home, End and every other key) returns on each key of the sequence
without throwing, and so does the whole loop of `run` in every mode, until it
returns. -/
theorem cursor_bounds (s : gitInterface) (keys : List Int) (hw : 1 ≤ s.maxx - 4)
    (hc : cursorInRange s) :
    (∃ s2 : gitInterface, editKeys s keys = some s2 ∧ cursorInRange s2) ∧
    (∃ r : RunResult, runKeys s keys = some r ∧
      ∀ s2 : gitInterface, r = RunResult.continues s2 → cursorInRange s2) :=
  ⟨editKeys_bounds keys s hw hc, runKeys_bounds keys s hw hc⟩

/-- Witness of C4: from the empty buffer in the 60 column window, the keys
`a`, Enter, `b`, Up, Delete, Down, Home, Backspace, End. -/
theorem cursor_bounds_witness :
    (1 : Int) ≤ (gitInterface.initial 20 60 []).maxx - 4 ∧
    cursorInRange (gitInterface.initial 20 60 []) ∧
    ∃ s2 : gitInterface,
      editKeys (gitInterface.initial 20 60 [])
        [97, 10, 98, KEY_UP, KEY_DC, KEY_DOWN, KEY_HOME, KEY_BACKSPACE, KEY_END] = some s2 ∧
      cursorInRange s2 :=
  ⟨by decide, by decide,
    (cursor_bounds (gitInterface.initial 20 60 [])
      [97, 10, 98, KEY_UP, KEY_DC, KEY_DOWN, KEY_HOME, KEY_BACKSPACE, KEY_END]
      (by decide) (by decide)).1⟩

/-- With a `topLine` that is not negative `refreshDisplay` reads no chunk
outside `wrappedLines`, whatever the height. -/
theorem refreshDisplay_some (s : FileDisplay) (h0 : 0 ≤ s.topLine) :
    ∃ scr : Screen, refreshDisplay s = some scr := by
  have hle : min s.winHeight ((s.wrappedLines.length : Int) - s.topLine) ≤
      (s.wrappedLines.length : Int) - s.topLine := min_le_right _ _
  generalize hm : min s.winHeight ((s.wrappedLines.length : Int) - s.topLine) = m at hle
  by_cases hpos : 0 ≤ m
  · have hrows := drawRows_eq s m.toNat 0 (by omega) (by omega)
    unfold refreshDisplay
    simp only [hm, hrows]
    exact ⟨_, rfl⟩
  · have hz : m.toNat = 0 := by omega
    unfold refreshDisplay
    simp only [hm, hz, drawRows]
    exact ⟨_, rfl⟩

/-- Where the scroll range is kept: every key other than Page Down keeps
`topLine` in range, and Page Down does when the chunks fill the window. -/
theorem handleInput_keeps_range (s : FileDisplay) (ch : Int) (hin : scrollInRange s)
    (hkey : ch ≠ KEY_NPAGE ∨ s.winHeight ≤ (s.wrappedLines.length : Int))
    (hh : 1 ≤ s.winHeight) :
    ∃ s2 : FileDisplay, handleInput s ch = some (true, s2) ∧ scrollInRange s2 ∧
      s2.wrappedLines = s.wrappedLines ∧ s2.winHeight = s.winHeight := by
  obtain ⟨scr, hscr⟩ := refreshDisplay_some s hin.1
  obtain ⟨h0, h1⟩ := hin
  have hcases : (0 ≤ (s.wrappedLines.length : Int) - s.winHeight ∧
      s.topLine ≤ (s.wrappedLines.length : Int) - s.winHeight) ∨
      ((s.wrappedLines.length : Int) - s.winHeight ≤ 0 ∧ s.topLine = 0) := by
    rcases le_total 0 ((s.wrappedLines.length : Int) - s.winHeight) with h | h
    · rw [max_eq_right h] at h1
      exact Or.inl ⟨h, h1⟩
    · rw [max_eq_left h] at h1
      exact Or.inr ⟨h, by omega⟩
  have hmax : ∀ t : Int, 0 ≤ t →
      (0 ≤ (s.wrappedLines.length : Int) - s.winHeight →
        t ≤ (s.wrappedLines.length : Int) - s.winHeight) →
      ((s.wrappedLines.length : Int) - s.winHeight ≤ 0 → t = 0) →
      t ≤ max 0 ((s.wrappedLines.length : Int) - s.winHeight) := by
    intro t ht ha hb
    rcases le_total 0 ((s.wrappedLines.length : Int) - s.winHeight) with h | h
    · rw [max_eq_right h]; exact ha h
    · rw [max_eq_left h]; have := hb h; omega
  unfold handleInput
  rw [hscr]
  dsimp only
  by_cases c1 : ch = KEY_UP
  · rw [if_pos c1]
    by_cases hp : s.topLine > 0
    · rw [if_pos hp]
      refine ⟨_, rfl, ⟨?_, ?_⟩, rfl, rfl⟩
      · dsimp only; omega
      · dsimp only
        exact hmax _ (by omega) (by omega) (by omega)
    · rw [if_neg hp]
      exact ⟨s, rfl, ⟨h0, h1⟩, rfl, rfl⟩
  rw [if_neg c1]
  by_cases c2 : ch = KEY_DOWN
  · rw [if_pos c2]
    by_cases hp : s.topLine < (s.wrappedLines.length : Int) - s.winHeight
    · rw [if_pos hp]
      refine ⟨_, rfl, ⟨?_, ?_⟩, rfl, rfl⟩
      · dsimp only; omega
      · dsimp only
        exact hmax _ (by omega) (by omega) (by omega)
    · rw [if_neg hp]
      exact ⟨s, rfl, ⟨h0, h1⟩, rfl, rfl⟩
  rw [if_neg c2]
  by_cases c3 : ch = KEY_PPAGE
  · rw [if_pos c3]
    refine ⟨_, rfl, ⟨?_, ?_⟩, rfl, rfl⟩
    · dsimp only; exact le_max_left _ _
    · dsimp only
      rcases max_choice 0 (s.topLine - s.winHeight) with h | h
      · rw [h]; exact le_max_left _ _
      · rw [h]
        have := le_max_right 0 (s.topLine - s.winHeight)
        rw [h] at this
        exact hmax _ (by omega) (by omega) (by omega)
  rw [if_neg c3]
  by_cases c4 : ch = KEY_NPAGE
  · rw [if_pos c4]
    have hfill : s.winHeight ≤ (s.wrappedLines.length : Int) := by
      rcases hkey with h | h
      · exact absurd c4 h
      · exact h
    refine ⟨_, rfl, ⟨?_, ?_⟩, rfl, rfl⟩
    · dsimp only; exact le_min (by omega) (by omega)
    · dsimp only
      exact le_trans (min_le_left _ _) (le_max_right _ _)
  · rw [if_neg c4]
    exact ⟨s, rfl, ⟨h0, h1⟩, rfl, rfl⟩

/-- C3 (scroll clamping), the code at its failing input.  The viewer that
the constructor builds for a file of three short lines in a window of ten
rows has `topLine = 0`, inside `[0, max 0 (3 - 10)]`; Page Down sets
`topLine` to `min (3 - 10) (0 + 10) = -7`, outside that range, and the next
`handleInput` then reads `wrappedLines[-7]`. -/
theorem page_down_leaves_scroll_range :
    construct shortFs 10 40 "lab.sh" = some shortViewer ∧
    1 ≤ shortViewer.winHeight ∧
    scrollInRange shortViewer ∧
    handleInput shortViewer KEY_NPAGE = some (true, { shortViewer with topLine := -7 }) ∧
    ¬ scrollInRange { shortViewer with topLine := -7 } ∧
    handleInputs shortViewer [KEY_NPAGE, KEY_UP] = none := by
  decide

/-! ## Claims on `loadFile` and `reloadFile` -/

/-- C9 (failed reload is atomic).  When the file of the viewer cannot be
opened, `reloadFile` returns `false` and the same object, so lines, highlight
vectors, chunks and `topLine` are what they were; `loadFile` does the same for
every path that cannot be opened. -/
theorem failed_reload_atomic (fs : FileSystem) (s : FileDisplay)
    (hfail : fs s.filename = none) :
    reloadFile fs s = some (false, s) ∧ loadFile fs s s.filename = (false, s) ∧
    ∀ path : String, fs path = none → loadFile fs s path = (false, s) := by
  have hl : ∀ path : String, fs path = none → loadFile fs s path = (false, s) := by
    intro path hp
    simp only [loadFile, hp]
  refine ⟨?_, hl _ hfail, hl⟩
  simp only [reloadFile, hl _ hfail, if_true]

/-- Witness of C9: the three-chunk viewer when no file can be opened. -/
theorem failed_reload_atomic_witness :
    (fun _ : String => (none : Option (List (List Char)))) shortViewer.filename = none ∧
    reloadFile (fun _ => none) shortViewer = some (false, shortViewer) :=
  ⟨rfl, (failed_reload_atomic (fun _ => none) shortViewer rfl).1⟩

/-- The highlight vectors that `analyzeSyntax` stores are as long as their
lines. -/
theorem analyzeSyntax_lengths (s : FileDisplay) :
    (analyzeSyntax s).highlightInfo.map List.length =
      (analyzeSyntax s).originalLines.map List.length := by
  have h := analyzeSyntax_fold s.originalLines s.originalLines.length (le_refl _)
  simp only [List.take_length, List.drop_length, List.map_nil, List.append_nil] at h
  simp only [analyzeSyntax, h, List.map_map]
  apply List.map_congr_left
  intro line _
  simp [symbolPass_length, keywordPass_length, firstPassLine_length]

/-- With a width of at least one and highlight vectors as long as their lines
`rewrapLines` returns, and it changes `wrappedLines` only. -/
theorem rewrapLines_some (s : FileDisplay) (hw : 1 ≤ s.winWidth)
    (hann : s.highlightInfo.map List.length = s.originalLines.map List.length) :
    ∃ chunks : List Chunk, rewrapLines s = some { s with wrappedLines := chunks } := by
  have h := rewrapFrom_eq s.highlightInfo s.winWidth hw s.originalLines 0 []
    (by simpa using hann)
  unfold rewrapLines
  simp only [h]
  exact ⟨_, rfl⟩

/-- Whenever `rewrapLines` returns it has changed `wrappedLines` only. -/
theorem rewrapLines_fields (s s2 : FileDisplay) (h : rewrapLines s = some s2) :
    ∃ chunks : List Chunk, s2 = { s with wrappedLines := chunks } := by
  unfold rewrapLines at h
  cases hr : rewrapFrom s.highlightInfo s.winWidth s.originalLines 0 [] with
  | none => rw [hr] at h; cases h
  | some chunks =>
    rw [hr] at h
    exact ⟨chunks, (Option.some.inj h).symm⟩

/-- C10 (reload and the scroll offset), the claim as amended.  `reloadFile`
never writes `topLine`: after every successful reload `topLine` and the
height are what they were, so the viewer invariant holds afterwards exactly
when the previous `topLine` lies in `[0, max 0 (new chunk count - height)]`;
and the reload is successful whenever the file opens, the width is at least
one and `topLine` is not negative. -/
theorem reload_keeps_topLine (fs : FileSystem) (s : FileDisplay) :
    (∀ s2 : FileDisplay, reloadFile fs s = some (true, s2) →
      s2.topLine = s.topLine ∧ s2.winHeight = s.winHeight ∧
      (scrollInRange s2 ↔
        (0 ≤ s.topLine ∧
          s.topLine ≤ max 0 ((s2.wrappedLines.length : Int) - s.winHeight)))) ∧
    (∀ lines : List (List Char), fs s.filename = some lines → 1 ≤ s.winWidth →
      0 ≤ s.topLine →
      ∃ s2 : FileDisplay, reloadFile fs s = some (true, s2) ∧ s2.originalLines = lines) := by
  constructor
  · intro s2 h
    unfold reloadFile loadFile at h
    cases hf : fs s.filename with
    | none => simp [hf] at h
    | some lines =>
      simp only [hf] at h
      cases hr : rewrapLines (analyzeSyntax { s with originalLines := lines }) with
      | none => simp [hr] at h
      | some s3 =>
        obtain ⟨chunks, hs3⟩ := rewrapLines_fields _ _ hr
        cases hd : refreshDisplay s3 with
        | none => simp [hr, hd] at h
        | some scr =>
          simp [hr, hd] at h
          subst h
          subst hs3
          refine ⟨rfl, rfl, ?_⟩
          unfold scrollInRange
          exact Iff.rfl
  · intro lines hf hw h0
    have hann := analyzeSyntax_lengths { s with originalLines := lines }
    obtain ⟨chunks, hr⟩ :=
      rewrapLines_some (analyzeSyntax { s with originalLines := lines }) hw hann
    obtain ⟨scr, hd⟩ := refreshDisplay_some
      { analyzeSyntax { s with originalLines := lines } with wrappedLines := chunks } h0
    refine ⟨{ analyzeSyntax { s with originalLines := lines } with wrappedLines := chunks },
      ?_, rfl⟩
    simp only [reloadFile, loadFile, hf, hr, hd]
    rfl

/-- Witness of C10 as amended: the viewer that shows the last of three
chunks reloads a file that has shrunk to one line and keeps `topLine = 2`. -/
theorem reload_keeps_topLine_witness :
    reloadFile shrunkFs scrolledViewer =
      some (true, { scrolledViewer with
        originalLines := [['a']], highlightInfo := [[HighlightType.NORMAL]],
        wrappedLines := [(['a'], [HighlightType.NORMAL])] }) ∧
    ({ scrolledViewer with
        originalLines := [['a']], highlightInfo := [[HighlightType.NORMAL]],
        wrappedLines := [(['a'], [HighlightType.NORMAL])] } : FileDisplay).topLine =
      scrolledViewer.topLine :=
  ⟨by decide, ((reload_keeps_topLine shrunkFs scrolledViewer).1 _ (by decide)).1⟩

/-- C10, counterexample to the claim as stated.  The viewer of height one
built for the three-line file and scrolled down twice has `topLine = 2`,
inside `[0, max 0 (3 - 1)]`; the file then shrinks to one line; the reload
succeeds and leaves `topLine = 2`, which is neither the previous value inside
the new range `[0, max 0 (1 - 1)]` nor a value clamped into it. -/
theorem reload_does_not_clamp :
    (∃ v0 : FileDisplay, construct shortFs 1 40 "lab.sh" = some v0 ∧
      handleInputs v0 [KEY_DOWN, KEY_DOWN] =
        some [{ scrolledViewer with topLine := 1 }, scrolledViewer]) ∧
    scrollInRange scrolledViewer ∧
    ∃ s2 : FileDisplay, reloadFile shrunkFs scrolledViewer = some (true, s2) ∧
      s2.wrappedLines.length = 1 ∧ s2.winHeight = 1 ∧ s2.topLine = 2 ∧
      ¬ (0 ≤ s2.topLine ∧
        s2.topLine ≤ max 0 ((s2.wrappedLines.length : Int) - s2.winHeight)) := by
  refine ⟨⟨{ scrolledViewer with topLine := 0 }, by decide, by decide⟩, by decide,
    { scrolledViewer with
        originalLines := [['a']], highlightInfo := [[HighlightType.NORMAL]],
        wrappedLines := [(['a'], [HighlightType.NORMAL])] }, by decide, by decide, by decide,
    by decide, by decide⟩

/-! ## The fuel of the loops is sufficient

Each loop that always terminates is run with a fuel equal to a bound on its
iteration count.  The lemmas below show that one more unit of fuel does not
change the result, so the branch for an exhausted fuel is never the one that
decides a result. -/

theorem varRun_fuel (line : List Char) :
    ∀ (fuel j : Nat) (lineInfo : List HighlightType), line.length - j ≤ fuel →
      varRun line (fuel + 1) j lineInfo = varRun line fuel j lineInfo := by
  intro fuel
  induction fuel with
  | zero =>
    intro j lineInfo h
    have hj : ¬ j < line.length := by omega
    simp [varRun, hj]
  | succ fuel ih =>
    intro j lineInfo h
    conv_lhs => rw [varRun]
    conv_rhs => rw [varRun]
    split
    · exact ih (j + 1) _ (by omega)
    · rfl

theorem varRun_fst_ge (line : List Char) :
    ∀ (fuel j : Nat) (lineInfo : List HighlightType),
      j ≤ (varRun line fuel j lineInfo).1 := by
  intro fuel
  induction fuel with
  | zero => intro j lineInfo; exact le_refl _
  | succ fuel ih =>
    intro j lineInfo
    rw [varRun]
    split
    · exact le_trans (Nat.le_succ j) (ih (j + 1) _)
    · exact le_refl _

theorem firstPass_fuel (line : List Char) :
    ∀ (fuel i : Nat) (inString inComment escapeChar : Bool) (lineInfo : List HighlightType),
      line.length - i ≤ fuel →
      firstPass line (fuel + 1) i inString inComment escapeChar lineInfo =
        firstPass line fuel i inString inComment escapeChar lineInfo := by
  intro fuel
  induction fuel with
  | zero =>
    intro i a b c lineInfo h
    have hi : ¬ i < line.length := by omega
    simp [firstPass, hi]
  | succ fuel ih =>
    intro i a b c lineInfo h
    conv_lhs => rw [firstPass]
    conv_rhs => rw [firstPass]
    by_cases hi : i < line.length
    · simp only [if_pos hi]
      have hv := varRun_fst_ge line line.length (i + 1)
        (lineInfo.set i HighlightType.VARIABLE)
      repeat' split
      all_goals first
        | rfl
        | exact ih _ _ _ _ _ (by omega)
    · simp only [if_neg hi]

theorem skipLoop_fuel (line : List Char) (info : List HighlightType) :
    ∀ (fuel pos : Nat), line.length - pos ≤ fuel →
      skipLoop line info (fuel + 1) pos = skipLoop line info fuel pos := by
  intro fuel
  induction fuel with
  | zero =>
    intro pos h
    have hp : ¬ pos < line.length := by omega
    simp [skipLoop, hp]
  | succ fuel ih =>
    intro pos h
    conv_lhs => rw [skipLoop]
    conv_rhs => rw [skipLoop]
    split
    · exact ih (pos + 1) (by omega)
    · rfl

theorem wordLoop_fuel (line : List Char) (info : List HighlightType) :
    ∀ (fuel pos : Nat), line.length - pos ≤ fuel →
      wordLoop line info (fuel + 1) pos = wordLoop line info fuel pos := by
  intro fuel
  induction fuel with
  | zero =>
    intro pos h
    have hp : ¬ pos < line.length := by omega
    simp [wordLoop, hp]
  | succ fuel ih =>
    intro pos h
    conv_lhs => rw [wordLoop]
    conv_rhs => rw [wordLoop]
    split
    · exact ih (pos + 1) (by omega)
    · rfl

/-- The skip loop stops at or after `pos`, at the end of the line or on a
character that is neither white space nor marked. -/
theorem skipLoop_stop (line : List Char) (info : List HighlightType) :
    ∀ (fuel pos : Nat), line.length - pos ≤ fuel →
      pos ≤ skipLoop line info fuel pos ∧
      (skipLoop line info fuel pos < line.length →
        isspace (charAt line (skipLoop line info fuel pos)) = false ∧
        infoAt info (skipLoop line info fuel pos) = HighlightType.NORMAL) := by
  intro fuel
  induction fuel with
  | zero =>
    intro pos h
    refine ⟨le_refl _, ?_⟩
    intro hlt
    simp only [skipLoop] at hlt
    omega
  | succ fuel ih =>
    intro pos h
    rw [skipLoop]
    split
    · have := ih (pos + 1) (by omega)
      exact ⟨by omega, this.2⟩
    · rename_i hc
      refine ⟨le_refl _, ?_⟩
      intro hlt
      simp only [not_and, not_or, Bool.not_eq_true, ne_eq, not_not] at hc
      exact hc hlt

theorem wordLoop_ge (line : List Char) (info : List HighlightType) :
    ∀ (fuel pos : Nat), pos ≤ wordLoop line info fuel pos := by
  intro fuel
  induction fuel with
  | zero => intro pos; exact le_refl _
  | succ fuel ih =>
    intro pos
    rw [wordLoop]
    split
    · exact le_trans (Nat.le_succ pos) (ih (pos + 1))
    · exact le_refl _

/-- Every iteration of the keyword loop that does not `break` moves `pos`. -/
theorem keywordLoop_progress (line : List Char) (info : List HighlightType) (pos : Nat)
    (h : skipLoop line info line.length pos < line.length) :
    pos < wordLoop line info line.length (skipLoop line info line.length pos) := by
  have hs := skipLoop_stop line info line.length pos (by omega)
  obtain ⟨hsp, hnorm⟩ := hs.2 h
  obtain ⟨n, hn⟩ : ∃ n, line.length = n + 1 := ⟨line.length - 1, by omega⟩
  have hw : wordLoop line info (n + 1) (skipLoop line info line.length pos) =
      wordLoop line info n (skipLoop line info line.length pos + 1) := by
    rw [wordLoop, if_pos ⟨h, hsp, hnorm⟩]
  have hge := wordLoop_ge line info n (skipLoop line info line.length pos + 1)
  rw [hn] at hs ⊢
  rw [hn] at hw hge
  rw [hw]
  omega

theorem keywordLoop_fuel (line : List Char) :
    ∀ (fuel pos : Nat) (info : List HighlightType), line.length - pos ≤ fuel →
      keywordLoop line (fuel + 1) pos info = keywordLoop line fuel pos info := by
  intro fuel
  induction fuel with
  | zero =>
    intro pos info h
    have hp : ¬ pos < line.length := by omega
    simp [keywordLoop, hp]
  | succ fuel ih =>
    intro pos info h
    conv_lhs => rw [keywordLoop]
    conv_rhs => rw [keywordLoop]
    by_cases hp : pos < line.length
    · simp only [if_pos hp]
      by_cases hb : line.length ≤ skipLoop line info line.length pos
      · simp only [if_pos hb]
      · simp only [if_neg hb]
        have := keywordLoop_progress line info pos (by omega)
        exact ih _ _ (by omega)
    · simp only [if_neg hp]

theorem lineStartScan_fuel (msg : List Char) :
    ∀ (fuel : Nat) (c : Int), c.toNat ≤ fuel →
      lineStartScan msg (fuel + 1) c = lineStartScan msg fuel c := by
  intro fuel
  induction fuel with
  | zero =>
    intro c h
    have hc : ¬ c > 0 := by omega
    simp [lineStartScan, hc]
  | succ fuel ih =>
    intro c h
    conv_lhs => rw [lineStartScan]
    conv_rhs => rw [lineStartScan]
    by_cases hc : c > 0
    · simp only [if_pos hc]
      cases msgAt msg (c - 1) with
      | none => rfl
      | some ch =>
        simp only []
        split
        · exact ih (c - 1) (by omega)
        · rfl
    · simp only [if_neg hc]

theorem lineEndScan_fuel (msg : List Char) :
    ∀ (fuel : Nat) (e : Int), (msg.length : Int) - e ≤ (fuel : Int) →
      lineEndScan msg (fuel + 1) e = lineEndScan msg fuel e := by
  intro fuel
  induction fuel with
  | zero =>
    intro e h
    have he : ¬ (0 ≤ e ∧ e < (msg.length : Int) ∧ charAt msg e.toNat ≠ newline) := by
      intro hc
      have := hc.2.1
      omega
    simp [lineEndScan, he]
  | succ fuel ih =>
    intro e h
    conv_lhs => rw [lineEndScan]
    conv_rhs => rw [lineEndScan]
    split
    · exact ih (e + 1) (by push_cast at h; omega)
    · rfl

/-! ## Claims on `changeFile` and on single scroll steps -/

/-- C11 (failed file switch), the claim as amended.  For every viewer and
every path that cannot be opened, `changeFile` returns `false`; lines,
highlight vectors and chunks are what they were, `topLine` is `0` and
`filename` is the new path. -/
theorem failed_switch_keeps_content (fs : FileSystem) (s : FileDisplay) (newFile : String)
    (hfail : fs newFile = none) :
    changeFile fs s newFile = some (false, { s with topLine := 0, filename := newFile }) ∧
    ∀ s2 : FileDisplay, changeFile fs s newFile = some (false, s2) →
      s2.originalLines = s.originalLines ∧ s2.highlightInfo = s.highlightInfo ∧
      s2.wrappedLines = s.wrappedLines ∧ s2.topLine = 0 ∧ s2.filename = newFile := by
  have h : changeFile fs s newFile =
      some (false, { s with topLine := 0, filename := newFile }) := by
    simp only [changeFile, reloadFile, loadFile, hfail, if_true]
  refine ⟨h, ?_⟩
  intro s2 h2
  rw [h] at h2
  have h3 := (Prod.mk.inj (Option.some.inj h2)).2
  subst h3
  exact ⟨rfl, rfl, rfl, rfl, rfl⟩

/-- Witness of C11 as amended: the scrolled viewer switches to a path that
does not exist. -/
theorem failed_switch_keeps_content_witness :
    shortFs "missing.sh" = none ∧
    changeFile shortFs scrolledViewer "missing.sh" =
      some (false, { scrolledViewer with topLine := 0, filename := "missing.sh" }) :=
  ⟨by decide, (failed_switch_keeps_content shortFs scrolledViewer "missing.sh" (by decide)).1⟩

/-- C11, counterexample to the claim as stated.  The viewer of height one that
shows the last of three chunks, `topLine = 2`, is asked to switch to a path
that cannot be opened: `changeFile` returns `false` and `topLine` is `0`, not
what it was before the call. -/
theorem failed_switch_resets_topLine :
    shortFs "missing.sh" = none ∧ scrolledViewer.topLine = 2 ∧
    ∃ s2 : FileDisplay, changeFile shortFs scrolledViewer "missing.sh" = some (false, s2) ∧
      s2.topLine = 0 ∧ s2.topLine ≠ scrolledViewer.topLine := by
  refine ⟨by decide, by decide,
    { scrolledViewer with topLine := 0, filename := "missing.sh" }, by decide, by decide,
    by decide⟩

/-- C12 (single-step scroll).  For a viewer whose `topLine` is in range, the
up key returns the object with `topLine - 1` when `topLine > 0` and the same
object when `topLine = 0`; the down key returns the object with `topLine + 1`
when `topLine` is below `max 0 (len chunks - height)` and the same object when
it is at that maximum; in each case all other members, the lines, highlight
vectors and chunks among them, are unchanged. -/
theorem single_step_scroll (s : FileDisplay) (hin : scrollInRange s) :
    (0 < s.topLine →
      handleInput s KEY_UP = some (true, { s with topLine := s.topLine - 1 })) ∧
    (s.topLine = 0 → handleInput s KEY_UP = some (true, s)) ∧
    (s.topLine < max 0 ((s.wrappedLines.length : Int) - s.winHeight) →
      handleInput s KEY_DOWN = some (true, { s with topLine := s.topLine + 1 })) ∧
    (s.topLine = max 0 ((s.wrappedLines.length : Int) - s.winHeight) →
      handleInput s KEY_DOWN = some (true, s)) ∧
    (∀ (ch : Int) (s2 : FileDisplay), (ch = KEY_UP ∨ ch = KEY_DOWN) →
      handleInput s ch = some (true, s2) →
      s2.originalLines = s.originalLines ∧ s2.highlightInfo = s.highlightInfo ∧
      s2.wrappedLines = s.wrappedLines) := by
  obtain ⟨scr, hscr⟩ := refreshDisplay_some s hin.1
  obtain ⟨h0, h1⟩ := hin
  have hdn : KEY_DOWN ≠ KEY_UP := by decide
  have hiff : s.topLine < max 0 ((s.wrappedLines.length : Int) - s.winHeight) ↔
      s.topLine < (s.wrappedLines.length : Int) - s.winHeight := by
    rcases le_total 0 ((s.wrappedLines.length : Int) - s.winHeight) with h | h
    · rw [max_eq_right h]
    · rw [max_eq_left h]
      constructor <;> intro h2 <;> omega
  refine ⟨?_, ?_, ?_, ?_, ?_⟩
  · intro hp
    simp only [handleInput, hscr, if_true, if_pos hp]
  · intro hz
    have hp : ¬ s.topLine > 0 := by omega
    simp only [handleInput, hscr, if_true, if_neg hp]
  · intro hlt
    simp only [handleInput, hscr, if_neg hdn, if_true, if_pos (hiff.mp hlt)]
  · intro heq
    have hn : ¬ s.topLine < (s.wrappedLines.length : Int) - s.winHeight := by
      intro hc
      have := hiff.mpr hc
      omega
    simp only [handleInput, hscr, if_neg hdn, if_true, if_neg hn]
  · intro ch s2 hch h
    rcases hch with rfl | rfl
    · simp only [handleInput, hscr, if_true] at h
      have h3 := (Prod.mk.inj (Option.some.inj h)).2
      subst h3
      split <;> exact ⟨rfl, rfl, rfl⟩
    · simp only [handleInput, hscr, if_neg hdn, if_true] at h
      have h3 := (Prod.mk.inj (Option.some.inj h)).2
      subst h3
      split <;> exact ⟨rfl, rfl, rfl⟩

/-- Witness of C12: the viewer of height one on three chunks, `topLine = 2`,
goes up to `topLine = 1` and stays on the down key. -/
theorem single_step_scroll_witness :
    scrollInRange scrolledViewer ∧
    handleInput scrolledViewer KEY_UP =
      some (true, { scrolledViewer with topLine := scrolledViewer.topLine - 1 }) ∧
    handleInput scrolledViewer KEY_DOWN = some (true, scrolledViewer) :=
  ⟨by decide, (single_step_scroll scrolledViewer (by decide)).1 (by decide),
    (single_step_scroll scrolledViewer (by decide)).2.2.2.1 (by decide)⟩

/-! ## Claims on insertion and deletion in the commit input -/

/-- A printable key is none of the keys that the `switch` names. -/
theorem isprint_not_special (ch : Int) (h : isprint ch = true) :
    ¬ (ch = KEY_ENTER ∨ ch = 10) ∧ ch ≠ KEY_LEFT ∧ ch ≠ KEY_RIGHT ∧ ch ≠ KEY_UP ∧
    ch ≠ KEY_DOWN ∧ ch ≠ KEY_HOME ∧ ch ≠ KEY_END ∧ ch ≠ 9 ∧
    ¬ (ch = KEY_BACKSPACE ∨ ch = 127) ∧ ch ≠ KEY_DC := by
  have hr : 32 ≤ ch ∧ ch ≤ 126 := by simpa [isprint] using h
  unfold KEY_ENTER KEY_LEFT KEY_RIGHT KEY_UP KEY_DOWN KEY_HOME KEY_END KEY_BACKSPACE KEY_DC
  omega

/-- The `switch` on a printable key or on Enter inserts at the cursor. -/
theorem editKey_insert (s : gitInterface) (ch : Int) (hc : cursorInRange s)
    (hkey : isprint ch = true ∨ ch = 10 ∨ ch = KEY_ENTER) :
    editKey s ch =
      some { s with
        commitMessage :=
          s.commitMessage.take s.cursorPos.toNat ++
            typedChar ch :: s.commitMessage.drop s.cursorPos.toNat,
        cursorPos := s.cursorPos + 1 } := by
  obtain ⟨h0, h1⟩ := hc
  have hins : ∀ c : Char, strInsert s.commitMessage s.cursorPos c =
      some (s.commitMessage.take s.cursorPos.toNat ++
        c :: s.commitMessage.drop s.cursorPos.toNat) := by
    intro c
    unfold strInsert
    rw [if_neg (by omega)]
  by_cases he : ch = KEY_ENTER ∨ ch = 10
  · unfold editKey typedChar
    rw [if_pos he, if_pos he, hins]
  · have hp : isprint ch = true := by
      rcases hkey with h | h | h
      · exact h
      · exact absurd (Or.inr h) he
      · exact absurd (Or.inl h) he
    obtain ⟨_, c2, c3, c4, c5, c6, c7, c8, c9, c10⟩ := isprint_not_special ch hp
    unfold editKey typedChar
    rw [if_neg he, if_neg c2, if_neg c3, if_neg c4, if_neg c5, if_neg c6, if_neg c7, if_neg c8,
      if_neg c9, if_neg c10, if_pos hp, if_neg he, hins]

/-- In commit mode with the focus on the input, an iteration of the loop of
`run` on a key other than `q` and `Q` is the `switch` of the commit input on
the object that `drawWindow` leaves. -/
theorem runStep_focused (s : gitInterface) (ch : Int) (hs : s.showCommitInput = true)
    (hf : s.hasInputFocus = true) (hq : ¬ (ch = 113 ∨ ch = 81)) :
    runStep s ch = (editKey (drawWindowState s) ch).map RunResult.continues := by
  have hs2 : (drawWindowState s).showCommitInput = true := by
    simp [drawWindowState, hs]
  have hf2 : (drawWindowState s).hasInputFocus = true := by
    simp [drawWindowState, hs, hf]
  unfold runStep
  simp only [if_neg hq, hs2, hf2, if_true]
  cases editKey (drawWindowState s) ch <;> rfl

/-- C13 (insert at cursor).  For a buffer `b` and a cursor `k` inside it, the
`switch` of the focused commit input on a printable key, or on Enter, returns
the buffer `b[0..k) ++ [c] ++ b[k..)`, of length `len b + 1`, and the cursor
`k + 1`, where `c` is the character of the key or the hard break; an
iteration of `run` in that mode on such a key other than `q` and `Q` is that
`switch` after `drawWindow`, which changes neither buffer nor cursor. -/
theorem insert_at_cursor (s : gitInterface) (ch : Int) (hc : cursorInRange s)
    (hkey : isprint ch = true ∨ ch = 10 ∨ ch = KEY_ENTER) :
    (∃ s2 : gitInterface, editKey s ch = some s2 ∧
      s2.commitMessage =
        s.commitMessage.take s.cursorPos.toNat ++ [typedChar ch] ++
          s.commitMessage.drop s.cursorPos.toNat ∧
      s2.commitMessage.length = s.commitMessage.length + 1 ∧
      s2.cursorPos = s.cursorPos + 1) ∧
    (s.showCommitInput = true → s.hasInputFocus = true → ¬ (ch = 113 ∨ ch = 81) →
      ∃ s3 : gitInterface, runStep s ch = some (RunResult.continues s3) ∧
        s3.commitMessage =
          s.commitMessage.take s.cursorPos.toNat ++ [typedChar ch] ++
            s.commitMessage.drop s.cursorPos.toNat ∧
        s3.cursorPos = s.cursorPos + 1) := by
  have hlen : (s.commitMessage.take s.cursorPos.toNat ++
      typedChar ch :: s.commitMessage.drop s.cursorPos.toNat).length =
      s.commitMessage.length + 1 := by
    have := hc.1
    have := hc.2
    simp only [List.length_append, List.length_take, List.length_cons, List.length_drop]
    omega
  refine ⟨⟨_, editKey_insert s ch hc hkey, by simp, hlen, rfl⟩, ?_⟩
  intro hs hf hq
  have hd : drawWindowState s =
      { s with inputStartY := 4, inputStartX := 2, inputLines := s.maxy - 6 } := by
    simp [drawWindowState, hs]
  have hc2 : cursorInRange (drawWindowState s) := by rw [hd]; exact hc
  rw [runStep_focused s ch hs hf hq, editKey_insert _ ch hc2 hkey, hd]
  exact ⟨_, rfl, by simp, rfl⟩

/-- Witness of C13: the key `x` in the buffer `ab` with the cursor at 1. -/
theorem insert_at_cursor_witness :
    cursorInRange (commitEditor ['a', 'b'] 1) ∧ isprint 120 = true ∧
    ∃ s3 : gitInterface,
      runStep (commitEditor ['a', 'b'] 1) 120 = some (RunResult.continues s3) ∧
      s3.commitMessage = ['a', 'x', 'b'] ∧ s3.cursorPos = 2 := by
  obtain ⟨s3, h1, h2, h3⟩ :=
    (insert_at_cursor (commitEditor ['a', 'b'] 1) 120 (by decide) (Or.inl (by decide))).2
      rfl rfl (by decide)
  exact ⟨by decide, by decide, s3, h1, by rw [h2]; decide, by rw [h3]; decide⟩

/-- C14 (delete at cursor).  For a buffer `b` and a cursor `k` inside it, the
`switch` of the focused commit input on Backspace returns `b` without the
character at offset `k - 1` and the cursor `k - 1` when `k > 0`, and the same
object when `k = 0`; on Delete it returns `b` without the character at offset
`k` and the same cursor when `k < len b`, and the same object when
`k = len b`. -/
theorem delete_at_cursor (s : gitInterface) (hc : cursorInRange s) :
    (∀ ch : Int, ch = KEY_BACKSPACE ∨ ch = 127 →
      (0 < s.cursorPos →
        editKey s ch =
          some { s with
            commitMessage := s.commitMessage.eraseIdx (s.cursorPos - 1).toNat,
            cursorPos := s.cursorPos - 1 }) ∧
      (s.cursorPos = 0 → editKey s ch = some s)) ∧
    (s.cursorPos < (s.commitMessage.length : Int) →
      editKey s KEY_DC =
        some { s with commitMessage := s.commitMessage.eraseIdx s.cursorPos.toNat }) ∧
    (s.cursorPos = (s.commitMessage.length : Int) → editKey s KEY_DC = some s) := by
  obtain ⟨h0, h1⟩ := hc
  have her : ∀ p : Int, 0 ≤ p → p ≤ (s.commitMessage.length : Int) →
      strErase s.commitMessage p = some (s.commitMessage.eraseIdx p.toNat) := by
    intro p hp0 hp1
    unfold strErase
    rw [if_neg (by omega), List.eraseIdx_eq_take_drop_succ]
  refine ⟨?_, ?_, ?_⟩
  · intro ch hch
    have hb : KEY_BACKSPACE = 263 := rfl
    have c1 : ¬ (ch = KEY_ENTER ∨ ch = 10) := by
      unfold KEY_ENTER; omega
    have c2 : ch ≠ KEY_LEFT := by unfold KEY_LEFT; omega
    have c3 : ch ≠ KEY_RIGHT := by unfold KEY_RIGHT; omega
    have c4 : ch ≠ KEY_UP := by unfold KEY_UP; omega
    have c5 : ch ≠ KEY_DOWN := by unfold KEY_DOWN; omega
    have c6 : ch ≠ KEY_HOME := by unfold KEY_HOME; omega
    have c7 : ch ≠ KEY_END := by unfold KEY_END; omega
    have c8 : ch ≠ 9 := by omega
    constructor
    · intro hpos
      unfold editKey
      rw [if_neg c1, if_neg c2, if_neg c3, if_neg c4, if_neg c5, if_neg c6, if_neg c7,
        if_neg c8, if_pos hch, if_pos hpos, her _ (by omega) (by omega)]
    · intro hz
      have hpos : ¬ s.cursorPos > 0 := by omega
      unfold editKey
      rw [if_neg c1, if_neg c2, if_neg c3, if_neg c4, if_neg c5, if_neg c6, if_neg c7,
        if_neg c8, if_pos hch, if_neg hpos]
  · intro hlt
    unfold editKey
    rw [if_neg (by decide), if_neg (by decide), if_neg (by decide), if_neg (by decide),
      if_neg (by decide), if_neg (by decide), if_neg (by decide), if_neg (by decide),
      if_neg (by decide), if_pos rfl, if_pos hlt, her _ h0 h1]
  · intro heq
    have hlt : ¬ s.cursorPos < (s.commitMessage.length : Int) := by omega
    unfold editKey
    rw [if_neg (by decide), if_neg (by decide), if_neg (by decide), if_neg (by decide),
      if_neg (by decide), if_neg (by decide), if_neg (by decide), if_neg (by decide),
      if_neg (by decide), if_pos rfl, if_neg hlt]

/-- Witness of C14: Backspace and Delete in the buffer `abc` with the cursor
at 1. -/
theorem delete_at_cursor_witness :
    cursorInRange (commitEditor ['a', 'b', 'c'] 1) ∧
    editKey (commitEditor ['a', 'b', 'c'] 1) KEY_BACKSPACE =
      some (commitEditor ['b', 'c'] 0) ∧
    editKey (commitEditor ['a', 'b', 'c'] 1) KEY_DC = some (commitEditor ['a', 'c'] 1) :=
  ⟨by decide,
    ((delete_at_cursor (commitEditor ['a', 'b', 'c'] 1) (by decide)).1 KEY_BACKSPACE
      (Or.inl rfl)).1 (by decide),
    (delete_at_cursor (commitEditor ['a', 'b', 'c'] 1) (by decide)).2.1 (by decide)⟩

/-! ## Claims on Home and End -/

theorem getElem?_eq_charAt (msg : List Char) (i : Nat) (h : i < msg.length) :
    msg[i]? = some (charAt msg i) := by
  unfold charAt
  rw [List.getD_eq_getElem?_getD, List.getElem?_eq_getElem h]
  rfl

/-- The backward scan with its fuel stops at the nearest offset at or before
`c` that is `0` or follows a hard break. -/
theorem lineStartScan_spec (msg : List Char) :
    ∀ (fuel : Nat) (c : Int), 0 ≤ c → c ≤ (msg.length : Int) → c.toNat ≤ fuel →
      ∃ r : Int, lineStartScan msg fuel c = some r ∧ 0 ≤ r ∧ r ≤ c ∧
        (r = 0 ∨ msg[(r - 1).toNat]? = some newline) ∧
        ∀ t : Int, r < t → t ≤ c → msg[(t - 1).toNat]? ≠ some newline := by
  intro fuel
  induction fuel with
  | zero =>
    intro c h0 _ hf
    have hc : c = 0 := by omega
    subst hc
    exact ⟨0, rfl, le_refl _, le_refl _, Or.inl rfl, fun t h1 h2 => by omega⟩
  | succ fuel ih =>
    intro c h0 h1 hf
    unfold lineStartScan
    by_cases hc : c > 0
    · rw [if_pos hc]
      have hlt : (c - 1).toNat < msg.length := by omega
      have hm : msgAt msg (c - 1) = some (charAt msg (c - 1).toNat) := by
        unfold msgAt
        rw [if_neg (by omega)]
      have hget := getElem?_eq_charAt msg (c - 1).toNat hlt
      rw [hm]
      dsimp only
      by_cases hn : charAt msg (c - 1).toNat ≠ newline
      · rw [if_pos hn]
        obtain ⟨r, hr, hr0, hr1, hr2, hr3⟩ := ih (c - 1) (by omega) (by omega) (by omega)
        refine ⟨r, hr, hr0, by omega, hr2, ?_⟩
        intro t ht1 ht2
        by_cases htc : t = c
        · subst htc
          rw [hget]
          intro heq
          exact hn (Option.some.inj heq)
        · exact hr3 t ht1 (by omega)
      · rw [if_neg hn]
        have hn2 : charAt msg (c - 1).toNat = newline := by
          by_contra h
          exact hn h
        refine ⟨c, rfl, h0, le_refl _, Or.inr (by rw [hget, hn2]), fun t h1 h2 => by omega⟩
    · rw [if_neg hc]
      have hc0 : c = 0 := by omega
      subst hc0
      exact ⟨0, rfl, le_refl _, le_refl _, Or.inl rfl, fun t h1 h2 => by omega⟩

/-- The backward scan does not move from an offset that is `0` or follows a
hard break. -/
theorem lineStartScan_fixed (msg : List Char) (r : Int) (h0 : 0 ≤ r)
    (h1 : r ≤ (msg.length : Int)) (hb : r = 0 ∨ msg[(r - 1).toNat]? = some newline) :
    lineStartScan msg r.toNat r = some r := by
  by_cases hr : r > 0
  · obtain ⟨n, hn⟩ : ∃ n, r.toNat = n + 1 := ⟨r.toNat - 1, by omega⟩
    have hlt : (r - 1).toNat < msg.length := by omega
    have hget := getElem?_eq_charAt msg (r - 1).toNat hlt
    have hch : charAt msg (r - 1).toNat = newline := by
      rcases hb with h | h
      · omega
      · rw [hget] at h
        exact Option.some.inj h
    have hm : msgAt msg (r - 1) = some (charAt msg (r - 1).toNat) := by
      unfold msgAt
      rw [if_neg (by omega)]
    rw [hn, lineStartScan, if_pos hr, hm]
    dsimp only
    rw [if_neg (not_not.mpr hch)]
  · have : r.toNat = 0 := by omega
    rw [this]
    rfl

/-- The forward scan with its fuel stops at the nearest offset at or after
`e` that is the end of the buffer or holds a hard break. -/
theorem lineEndScan_spec (msg : List Char) :
    ∀ (fuel : Nat) (e : Int), 0 ≤ e → e ≤ (msg.length : Int) →
      (msg.length : Int) - e ≤ (fuel : Int) →
      e ≤ lineEndScan msg fuel e ∧ lineEndScan msg fuel e ≤ (msg.length : Int) ∧
      (lineEndScan msg fuel e = (msg.length : Int) ∨
        msg[(lineEndScan msg fuel e).toNat]? = some newline) ∧
      ∀ t : Int, e ≤ t → t < lineEndScan msg fuel e → msg[t.toNat]? ≠ some newline := by
  intro fuel
  induction fuel with
  | zero =>
    intro e h0 h1 hf
    have he : e = (msg.length : Int) := by
      push_cast at hf
      omega
    simp only [lineEndScan]
    exact ⟨le_refl _, h1, Or.inl he, fun t h2 h3 => by omega⟩
  | succ fuel ih =>
    intro e h0 h1 hf
    unfold lineEndScan
    by_cases hc : 0 ≤ e ∧ e < (msg.length : Int) ∧ charAt msg e.toNat ≠ newline
    · rw [if_pos hc]
      obtain ⟨a1, a2, a3, a4⟩ := ih (e + 1) (by omega) (by omega) (by push_cast at hf; omega)
      refine ⟨by omega, a2, a3, ?_⟩
      intro t ht1 ht2
      by_cases hte : t = e
      · subst hte
        rw [getElem?_eq_charAt msg t.toNat (by omega)]
        intro heq
        exact hc.2.2 (Option.some.inj heq)
      · exact a4 t (by omega) ht2
    · rw [if_neg hc]
      refine ⟨le_refl _, h1, ?_, fun t h2 h3 => by omega⟩
      by_cases hlt : e < (msg.length : Int)
      · right
        have hch : charAt msg e.toNat = newline := by
          by_contra h
          exact hc ⟨h0, hlt, h⟩
        rw [getElem?_eq_charAt msg e.toNat (by omega), hch]
      · left
        omega

/-- The forward scan does not move from the end of the buffer or from a hard
break. -/
theorem lineEndScan_fixed (msg : List Char) (fuel : Nat) (e : Int) (h0 : 0 ≤ e)
    (hb : e = (msg.length : Int) ∨ msg[e.toNat]? = some newline) :
    lineEndScan msg fuel e = e := by
  cases fuel with
  | zero => rfl
  | succ fuel =>
    unfold lineEndScan
    rw [if_neg]
    intro hc
    rcases hb with h | h
    · omega
    · rw [getElem?_eq_charAt msg e.toNat (by omega)] at h
      exact hc.2.2 (Option.some.inj h)

theorem editKey_home (s : gitInterface) :
    editKey s KEY_HOME =
      (lineStartScan s.commitMessage s.cursorPos.toNat s.cursorPos).map
        (fun r => { s with cursorPos := r }) := by
  unfold editKey
  rw [if_neg (by decide), if_neg (by decide), if_neg (by decide), if_neg (by decide),
    if_neg (by decide), if_pos rfl]
  cases lineStartScan s.commitMessage s.cursorPos.toNat s.cursorPos <;> rfl

theorem editKey_end (s : gitInterface) :
    editKey s KEY_END =
      some { s with
        cursorPos := lineEndScan s.commitMessage s.commitMessage.length s.cursorPos } := by
  unfold editKey
  rw [if_neg (by decide), if_neg (by decide), if_neg (by decide), if_neg (by decide),
    if_neg (by decide), if_neg (by decide), if_pos rfl]

/-- C19 (Home and End).  For a buffer `b` and a cursor `k` inside it, Home
returns the same buffer with the cursor at the greatest offset `r ≤ k` such
that `r = 0` or `b[r - 1]` is a hard break, End returns the same buffer with
the cursor at the least offset `e ≥ k` such that `e = len b` or `b[e]` is a
hard break, and a second Home, or a second End, returns the same object as the
first. -/
theorem home_end_boundaries (s : gitInterface) (hc : cursorInRange s) :
    (∃ r : Int, editKey s KEY_HOME = some { s with cursorPos := r } ∧
      0 ≤ r ∧ r ≤ s.cursorPos ∧
      (r = 0 ∨ s.commitMessage[(r - 1).toNat]? = some newline) ∧
      (∀ t : Int, r < t → t ≤ s.cursorPos →
        ¬ (t = 0 ∨ s.commitMessage[(t - 1).toNat]? = some newline)) ∧
      editKey { s with cursorPos := r } KEY_HOME = some { s with cursorPos := r }) ∧
    (∃ e : Int, editKey s KEY_END = some { s with cursorPos := e } ∧
      s.cursorPos ≤ e ∧ e ≤ (s.commitMessage.length : Int) ∧
      (e = (s.commitMessage.length : Int) ∨ s.commitMessage[e.toNat]? = some newline) ∧
      (∀ t : Int, s.cursorPos ≤ t → t < e →
        ¬ (t = (s.commitMessage.length : Int) ∨
          s.commitMessage[t.toNat]? = some newline)) ∧
      editKey { s with cursorPos := e } KEY_END = some { s with cursorPos := e }) := by
  obtain ⟨h0, h1⟩ := hc
  constructor
  · obtain ⟨r, hr, hr0, hr1, hr2, hr3⟩ :=
      lineStartScan_spec s.commitMessage s.cursorPos.toNat s.cursorPos h0 h1 (le_refl _)
    refine ⟨r, ?_, hr0, hr1, hr2, ?_, ?_⟩
    · rw [editKey_home, hr]
      rfl
    · intro t ht1 ht2 hcon
      rcases hcon with h | h
      · omega
      · exact hr3 t ht1 ht2 h
    · rw [editKey_home]
      dsimp only
      rw [lineStartScan_fixed s.commitMessage r hr0 (by omega) hr2]
      rfl
  · obtain ⟨a1, a2, a3, a4⟩ :=
      lineEndScan_spec s.commitMessage s.commitMessage.length s.cursorPos h0 h1 (by omega)
    refine ⟨lineEndScan s.commitMessage s.commitMessage.length s.cursorPos,
      editKey_end s, a1, a2, a3, ?_, ?_⟩
    · intro t ht1 ht2 hcon
      rcases hcon with h | h
      · omega
      · exact a4 t ht1 ht2 h
    · rw [editKey_end]
      dsimp only
      rw [lineEndScan_fixed s.commitMessage _ _ (by omega) a3]

/-- Witness of C19: Home and End in `ab`, break, `cd` with the cursor at 4. -/
theorem home_end_boundaries_witness :
    cursorInRange (commitEditor ['a', 'b', newline, 'c', 'd'] 4) ∧
    (∃ r : Int,
      editKey (commitEditor ['a', 'b', newline, 'c', 'd'] 4) KEY_HOME =
        some { commitEditor ['a', 'b', newline, 'c', 'd'] 4 with cursorPos := r } ∧
      0 ≤ r ∧ r ≤ 4) ∧
    (∃ e : Int,
      editKey (commitEditor ['a', 'b', newline, 'c', 'd'] 4) KEY_END =
        some { commitEditor ['a', 'b', newline, 'c', 'd'] 4 with cursorPos := e } ∧
      4 ≤ e ∧ e ≤ 5) := by
  obtain ⟨⟨r, hr, hr0, hr1, _⟩, ⟨e, he, he0, he1, _⟩⟩ :=
    home_end_boundaries (commitEditor ['a', 'b', newline, 'c', 'd'] 4) (by decide)
  exact ⟨by decide, ⟨r, hr, hr0, hr1⟩, ⟨e, he, he0, he1⟩⟩

/-! ## Claims on `calculateCursorPosition` and on Up and Down -/

theorem lastBreakEnd_succ (msg : List Char) (k : Nat) :
    lastBreakEnd msg (k + 1) =
      if charAt msg k = newline then k + 1 else lastBreakEnd msg k := by
  unfold lastBreakEnd
  rw [List.range_succ, List.reverse_append]
  simp only [List.reverse_cons, List.reverse_nil, List.nil_append, List.singleton_append,
    List.find?_cons]
  by_cases h : charAt msg k = newline
  · simp [h]
  · simp [h]

theorem lastBreakEnd_le (msg : List Char) : ∀ k : Nat, lastBreakEnd msg k ≤ k := by
  intro k
  induction k with
  | zero => simp [lastBreakEnd]
  | succ k ih =>
    rw [lastBreakEnd_succ]
    split <;> omega

/-- No hard break lies between `lastBreakEnd msg k` and `k`. -/
theorem lastBreakEnd_run (msg : List Char) :
    ∀ k t : Nat, lastBreakEnd msg k ≤ t → t < k → charAt msg t ≠ newline := by
  intro k
  induction k with
  | zero => intro t _ h; omega
  | succ k ih =>
    intro t h1 h2
    rw [lastBreakEnd_succ] at h1
    by_cases h : charAt msg k = newline
    · rw [if_pos h] at h1
      omega
    · rw [if_neg h] at h1
      by_cases htk : t = k
      · subst htk
        exact h
      · exact ih t h1 (by omega)

theorem breaksBefore_succ (msg : List Char) (k : Nat) (hk : k < msg.length) :
    breaksBefore msg (k + 1) =
      breaksBefore msg k + if charAt msg k = newline then 1 else 0 := by
  unfold breaksBefore
  rw [List.take_succ, getElem?_eq_charAt msg k hk, List.count_append]
  simp only [Option.toList, List.count_singleton, beq_iff_eq]

/-- The loop of `calculateCursorPosition` counts hard breaks and columns as
long as no row is full. -/
theorem cursorLoop_eq (msg : List Char) (X Y textWidth : Int) (k : Nat)
    (hk : k ≤ msg.length)
    (hshort : ∀ i j : Nat, i ≤ j → j ≤ k →
      (∀ t : Nat, i ≤ t → t < j → msg[t]? ≠ some newline) →
      (j : Int) - (i : Int) ≤ textWidth - 1) :
    ∀ (n i : Nat), i + n = k →
      cursorLoop msg X textWidth n (i : Int)
          (Y + (breaksBefore msg i : Int), X + ((i : Int) - (lastBreakEnd msg i : Int))) =
        some (Y + (breaksBefore msg k : Int), X + ((k : Int) - (lastBreakEnd msg k : Int))) := by
  intro n
  induction n with
  | zero =>
    intro i hi
    have : i = k := by omega
    subst this
    rfl
  | succ n ih =>
    intro i hi
    have hil : i < msg.length := by omega
    have hm : msgAt msg (i : Int) = some (charAt msg i) := by
      unfold msgAt
      rw [if_neg (by omega)]
      simp
    have hle := lastBreakEnd_le msg i
    have hnext := ih (i + 1) (by omega)
    rw [breaksBefore_succ msg i hil, lastBreakEnd_succ] at hnext
    unfold cursorLoop
    rw [hm]
    dsimp only
    by_cases hc : charAt msg i = newline
    · rw [if_pos (Or.inl hc), if_neg (not_not.mpr hc)]
      rw [if_pos hc, if_pos hc] at hnext
      rw [← hnext]
      congr 2
      all_goals (push_cast; ring)
    · have hrun : (((i + 1 : Nat) : Int)) - (lastBreakEnd msg i : Int) ≤ textWidth - 1 := by
        apply hshort (lastBreakEnd msg i) (i + 1) (by omega) (by omega)
        intro t ht1 ht2
        by_cases hti : t = i
        · subst hti
          rw [getElem?_eq_charAt msg t hil]
          intro heq
          exact hc (Option.some.inj heq)
        · rw [getElem?_eq_charAt msg t (by omega)]
          intro heq
          exact lastBreakEnd_run msg i t ht1 (by omega) (Option.some.inj heq)
      have hno : ¬ (charAt msg i = newline ∨
          X + ((i : Int) - (lastBreakEnd msg i : Int)) ≥ X + textWidth - 1) := by
        intro h
        rcases h with h | h
        · exact hc h
        · push_cast at hrun
          omega
      rw [if_neg hno]
      rw [if_neg hc, if_neg hc] at hnext
      rw [← hnext]
      congr 2
      all_goals (push_cast; ring)

/-- C16 (cursor position across hard breaks).  For a cursor `k` inside the
buffer such that every stretch without hard break among the first `k`
characters has at most `textWidth - 1` characters, `calculateCursorPosition`
returns, relative to the input origin, the row equal to the number of hard
breaks among the first `k` characters and the column `k` minus the offset
just after the last of them (`k` itself when there is none). -/
theorem cursor_position_hard_breaks (s : gitInterface) (hc : cursorInRange s)
    (hshort : ∀ i j : Nat, i ≤ j → (j : Int) ≤ s.cursorPos →
      (∀ t : Nat, i ≤ t → t < j → s.commitMessage[t]? ≠ some newline) →
      (j : Int) - (i : Int) ≤ (s.maxx - 4) - 1) :
    calculateCursorPosition s =
      some (s.inputStartY + (breaksBefore s.commitMessage s.cursorPos.toNat : Int),
        s.inputStartX +
          (s.cursorPos - (lastBreakEnd s.commitMessage s.cursorPos.toNat : Int))) := by
  obtain ⟨h0, h1⟩ := hc
  have hk : s.cursorPos.toNat ≤ s.commitMessage.length := by omega
  have h := cursorLoop_eq s.commitMessage s.inputStartX s.inputStartY (s.maxx - 4)
    s.cursorPos.toNat hk (fun i j hij hj => hshort i j hij (by omega)) s.cursorPos.toNat 0
    (by omega)
  have hcast : ((s.cursorPos.toNat : Nat) : Int) = s.cursorPos := by omega
  simp only [breaksBefore, lastBreakEnd, List.take_zero, List.count_nil, List.range_zero,
    List.reverse_nil, List.find?_nil, Nat.cast_zero, add_zero, sub_zero] at h
  rw [hcast] at h
  unfold calculateCursorPosition
  simpa [breaksBefore, lastBreakEnd] using h

/-- Witness of C16: the buffer `ab`, hard break, `cd` at width 10 with the
cursor at offset 4 gives row 1 and column 1 from the origin `(4, 2)`. -/
theorem cursor_position_hard_breaks_witness :
    cursorInRange { commitEditor twoLines 4 with maxx := 14 } ∧
    calculateCursorPosition { commitEditor twoLines 4 with maxx := 14 } =
      some (4 + 1, 2 + 1) := by
  have h := cursor_position_hard_breaks { commitEditor twoLines 4 with maxx := 14 }
    (by decide) (by
      intro i j hij hj _
      have hj2 : (j : Int) ≤ 4 := hj
      show (j : Int) - (i : Int) ≤ (14 - 4) - 1
      omega)
  refine ⟨by decide, ?_⟩
  rw [h]
  decide

set_option maxRecDepth 8000 in
/-- C15 (cursor position and wrap arithmetic), the code at its failing input.
After the keys Tab, Enter, 57 times `a` and Left, the commit input of the 60
column window (text width 56) holds 57 characters without hard break and the
cursor is at offset 56.  The commit text of `drawWindow` shows the character
at offset 56 in row `56 / 56 = 1`, column `56 % 56 = 0`, but
`calculateCursorPosition` returns row 1, column 1 from the origin `(4, 2)`. -/
theorem cursor_position_misses_wrap :
    runKeys (gitInterface.initial 20 60 []) ([9, 10] ++ List.replicate 57 97 ++ [KEY_LEFT]) =
      some (RunResult.continues (commitEditor (List.replicate 57 'a') 56)) ∧
    (commitEditor (List.replicate 57 'a') 56).maxx - 4 = 56 ∧
    newline ∉ List.replicate 57 'a' ∧
    renderCell (drawCommitText (commitEditor (List.replicate 57 'a') 56)) 56 =
      some (((56 / 56 : Nat) : Int), ((56 % 56 : Nat) : Int)) ∧
    calculateCursorPosition (commitEditor (List.replicate 57 'a') 56) = some (4 + 1, 2 + 1) := by
  decide

/-- C17 (move up and the column), the code at its failing input.  After the
keys Tab, Enter, `a`, `b`, Enter, `c`, `d`, Left, Left the buffer is `ab`,
hard break, `cd` and the cursor is at offset 3, column 0 of the second line;
the first line starts at offset 0 and has two characters.  Up moves the
cursor to offset 2, the end of the first line, not to offset `0 + 0`. -/
theorem move_up_loses_column :
    runKeys (gitInterface.initial 20 60 [])
        [9, 10, keyOf 'a', keyOf 'b', 10, keyOf 'c', keyOf 'd', KEY_LEFT, KEY_LEFT] =
      some (RunResult.continues (commitEditor twoLines 3)) ∧
    lastBreakEnd twoLines 3 = 3 ∧ lastBreakEnd twoLines 2 = 0 ∧
    editKey (commitEditor twoLines 3) KEY_UP = some (commitEditor twoLines 2) ∧
    runStep (commitEditor twoLines 3) KEY_UP =
      some (RunResult.continues (commitEditor twoLines 2)) := by
  decide

/-- C18 (move down and the next line), the code at its failing input.  The
buffer is `abcd`, hard break, `e`, hard break, `fgh` and the cursor is at
offset 4, the end of the first line.  The next line is the single `e`: it
starts at offset 5 and ends at offset 6.  Down moves the cursor to offset 9,
which lies in the third line. -/
theorem move_down_overshoots :
    runKeys (gitInterface.initial 20 60 [])
        [9, 10, keyOf 'a', keyOf 'b', keyOf 'c', keyOf 'd', 10, keyOf 'e', 10, keyOf 'f',
          keyOf 'g', keyOf 'h', KEY_LEFT, KEY_LEFT, KEY_LEFT, KEY_LEFT, KEY_LEFT, KEY_LEFT] =
      some (RunResult.continues (commitEditor threeLines 4)) ∧
    lineEndScan threeLines threeLines.length 4 = 4 ∧
    lineEndScan threeLines threeLines.length 5 = 6 ∧
    lastBreakEnd threeLines 9 = 7 ∧
    editKey (commitEditor threeLines 4) KEY_DOWN = some (commitEditor threeLines 9) ∧
    runStep (commitEditor threeLines 4) KEY_DOWN =
      some (RunResult.continues (commitEditor threeLines 9)) := by
  decide

/-! ## Lemmas on the passes of `analyzeSyntax` for plain lines -/

theorem char_le_iff (a c : Char) : a ≤ c ↔ a.toNat ≤ c.toNat := by
  rw [Char.le_def, UInt32.le_def]
  rfl

theorem char_ne_of_toNat (c d : Char) (h : c.toNat ≠ d.toNat) : c ≠ d := by
  intro e
  exact h (by rw [e])

/-- The codes of the letters and of the white space. -/
theorem letter_or_space_toNat (c : Char) (h : isLetter c = true ∨ isspace c = true) :
    c.toNat = 32 ∨ (9 ≤ c.toNat ∧ c.toNat ≤ 13) ∨ (65 ≤ c.toNat ∧ c.toNat ≤ 90) ∨
      (97 ≤ c.toNat ∧ c.toNat ≤ 122) := by
  rcases h with h | h
  · simp only [isLetter, Bool.or_eq_true, decide_eq_true_eq, char_le_iff] at h
    have e1 : 'a'.toNat = 97 := by decide
    have e2 : 'z'.toNat = 122 := by decide
    have e3 : 'A'.toNat = 65 := by decide
    have e4 : 'Z'.toNat = 90 := by decide
    omega
  · simp only [isspace, Bool.or_eq_true, decide_eq_true_eq] at h
    rcases h with h | h
    · left
      rw [h]
      decide
    · right; left; exact h

/-- A letter or a white space character starts no string, comment, number or
variable, is no escape and is no symbol. -/
theorem letter_or_space_plain (c : Char) (h : isLetter c = true ∨ isspace c = true) :
    c ≠ backslash ∧ ¬ (c = dquote ∨ c = squote) ∧ c ≠ '#' ∧ isdigit c = false ∧ c ≠ '$' ∧
      isSymbolChar c = false := by
  have hn := letter_or_space_toNat c h
  refine ⟨?_, ?_, ?_, ?_, ?_, ?_⟩
  · apply char_ne_of_toNat
    have : backslash.toNat = 92 := by decide
    omega
  · intro hq
    rcases hq with hq | hq
    · have : dquote.toNat = 34 := by decide
      rw [hq] at hn
      omega
    · have : squote.toNat = 39 := by decide
      rw [hq] at hn
      omega
  · apply char_ne_of_toNat
    have : '#'.toNat = 35 := by decide
    omega
  · simp only [isdigit, decide_eq_false_iff_not, char_le_iff]
    have e1 : '0'.toNat = 48 := by decide
    have e2 : '9'.toNat = 57 := by decide
    omega
  · apply char_ne_of_toNat
    have : '$'.toNat = 36 := by decide
    omega
  · simp only [isSymbolChar, decide_eq_false_iff_not]
    intro hs
    have e1 : '='.toNat = 61 := by decide
    have e2 : '+'.toNat = 43 := by decide
    have e3 : '-'.toNat = 45 := by decide
    have e4 : '*'.toNat = 42 := by decide
    have e5 : '/'.toNat = 47 := by decide
    have e6 : '|'.toNat = 124 := by decide
    have e7 : '&'.toNat = 38 := by decide
    have e8 : '<'.toNat = 60 := by decide
    have e9 : '>'.toNat = 62 := by decide
    have e10 : '('.toNat = 40 := by decide
    have e11 : ')'.toNat = 41 := by decide
    have e12 : '['.toNat = 91 := by decide
    have e13 : ']'.toNat = 93 := by decide
    have e14 : (Char.ofNat 123).toNat = 123 := by decide
    have e15 : (Char.ofNat 125).toNat = 125 := by decide
    have e16 : ';'.toNat = 59 := by decide
    have e17 : ':'.toNat = 58 := by decide
    rcases hs with hs | hs | hs | hs | hs | hs | hs | hs | hs | hs | hs | hs | hs | hs | hs |
      hs | hs <;> (rw [hs] at hn; omega)

theorem charAt_mem (l : List Char) (i : Nat) (h : i < l.length) : charAt l i ∈ l := by
  have h2 : charAt l i = l[i] := by
    have := getElem?_eq_charAt l i h
    rw [List.getElem?_eq_getElem h] at this
    exact (Option.some.inj this).symm
  rw [h2]
  exact List.getElem_mem h

/-- On a line without escape, quote, `#`, digit and `$` the first pass leaves
the highlight vector as it is. -/
theorem firstPass_plain (line : List Char)
    (hplain : ∀ c ∈ line, c ≠ backslash ∧ ¬ (c = dquote ∨ c = squote) ∧ c ≠ '#' ∧
      isdigit c = false ∧ c ≠ '$') :
    ∀ (fuel i : Nat) (lineInfo : List HighlightType),
      firstPass line fuel i false false false lineInfo = lineInfo := by
  intro fuel
  induction fuel with
  | zero => intro i lineInfo; rfl
  | succ fuel ih =>
    intro i lineInfo
    rw [firstPass]
    by_cases hi : i < line.length
    · obtain ⟨p1, p2, p3, p4, p5⟩ := hplain _ (charAt_mem line i hi)
      have p3b : ¬ (false = false ∧ charAt line i = '#') := fun h => p3 h.2
      rw [if_pos hi, if_neg (by decide), if_neg (by decide), if_neg p1, if_neg p2, if_neg p3b,
        if_neg (by decide), if_neg (by simp [p4]), if_neg p5]
      exact ih _ _
    · rw [if_neg hi]

/-- On a line without symbol character the symbol pass leaves the highlight
vector as it is. -/
theorem symbolPass_plain (line : List Char) (info : List HighlightType)
    (hsym : ∀ c ∈ line, isSymbolChar c = false) : symbolPass line info = info := by
  unfold symbolPass
  have hgen : ∀ n : Nat, n ≤ line.length →
      (List.range n).foldl
        (fun acc i =>
          if infoAt acc i = HighlightType.NORMAL ∧ isSymbolChar (charAt line i) = true then
            acc.set i HighlightType.SYMBOL
          else acc) info = info := by
    intro n
    induction n with
    | zero => intro _; rfl
    | succ n ih =>
      intro hn
      rw [List.range_succ, List.foldl_append, ih (by omega)]
      simp only [List.foldl_cons, List.foldl_nil]
      have := hsym _ (charAt_mem line n (by omega))
      rw [if_neg (by simp [this])]
  exact hgen _ (le_refl _)

/-! ## Lemmas on the keyword loop -/

theorem infoAt_set (info : List HighlightType) (j i : Nat) (a : HighlightType)
    (hi : i < info.length) :
    infoAt (info.set j a) i = if j = i then a else infoAt info i := by
  unfold infoAt
  rw [List.getD_eq_getElem?_getD, List.getD_eq_getElem?_getD, List.getElem?_set]
  by_cases h : j = i
  · subst h
    rw [if_pos rfl, if_pos rfl, if_pos hi]
    rfl
  · rw [if_neg h, if_neg h]

/-- The marking loop sets the entries of the word and no other. -/
theorem markKeyword_infoAt (info : List HighlightType) (wordStart : Nat) :
    ∀ (len i : Nat), i < info.length →
      infoAt (markKeyword info wordStart len) i =
        if wordStart ≤ i ∧ i < wordStart + len then HighlightType.KEYWORD
        else infoAt info i := by
  intro len
  induction len with
  | zero =>
    intro i _
    rw [if_neg (by omega)]
    rfl
  | succ len ih =>
    intro i hi
    have hstep : markKeyword info wordStart (len + 1) =
        (markKeyword info wordStart len).set (wordStart + len) HighlightType.KEYWORD := by
      unfold markKeyword
      rw [List.range_succ, List.foldl_append]
      rfl
    rw [hstep, infoAt_set _ _ _ _ (by rw [markKeyword_length]; exact hi), ih i hi]
    by_cases h1 : wordStart + len = i
    · rw [if_pos h1, if_pos (by omega)]
    · rw [if_neg h1]
      by_cases h2 : wordStart ≤ i ∧ i < wordStart + len
      · rw [if_pos h2, if_pos (by omega)]
      · rw [if_neg h2, if_neg (by omega)]

theorem skipLoop_skipped (line : List Char) (info : List HighlightType) :
    ∀ (fuel pos t : Nat), pos ≤ t → t < skipLoop line info fuel pos →
      isspace (charAt line t) = true ∨ infoAt info t ≠ HighlightType.NORMAL := by
  intro fuel
  induction fuel with
  | zero =>
    intro pos t h1 h2
    simp only [skipLoop] at h2
    omega
  | succ fuel ih =>
    intro pos t h1 h2
    rw [skipLoop] at h2
    by_cases hc : pos < line.length ∧
        (isspace (charAt line pos) = true ∨ infoAt info pos ≠ HighlightType.NORMAL)
    · rw [if_pos hc] at h2
      by_cases ht : t = pos
      · subst ht
        exact hc.2
      · exact ih (pos + 1) t (by omega) h2
    · rw [if_neg hc] at h2
      omega

theorem skipLoop_le (line : List Char) (info : List HighlightType) :
    ∀ (fuel pos : Nat), pos ≤ line.length → skipLoop line info fuel pos ≤ line.length := by
  intro fuel
  induction fuel with
  | zero => intro pos h; exact h
  | succ fuel ih =>
    intro pos h
    rw [skipLoop]
    split
    · rename_i hc
      exact ih (pos + 1) (by omega)
    · exact h

theorem wordLoop_run (line : List Char) (info : List HighlightType) :
    ∀ (fuel pos t : Nat), pos ≤ t → t < wordLoop line info fuel pos →
      isspace (charAt line t) = false ∧ infoAt info t = HighlightType.NORMAL := by
  intro fuel
  induction fuel with
  | zero =>
    intro pos t h1 h2
    simp only [wordLoop] at h2
    omega
  | succ fuel ih =>
    intro pos t h1 h2
    rw [wordLoop] at h2
    by_cases hc : pos < line.length ∧ isspace (charAt line pos) = false ∧
        infoAt info pos = HighlightType.NORMAL
    · rw [if_pos hc] at h2
      by_cases ht : t = pos
      · subst ht
        exact hc.2
      · exact ih (pos + 1) t (by omega) h2
    · rw [if_neg hc] at h2
      omega

theorem wordLoop_le (line : List Char) (info : List HighlightType) :
    ∀ (fuel pos : Nat), pos ≤ line.length → wordLoop line info fuel pos ≤ line.length := by
  intro fuel
  induction fuel with
  | zero => intro pos h; exact h
  | succ fuel ih =>
    intro pos h
    rw [wordLoop]
    split
    · rename_i hc
      exact ih (pos + 1) (by omega)
    · exact h

/-- The word loop with its fuel stops at the end of the line, on white space
or on a marked character. -/
theorem wordLoop_stop (line : List Char) (info : List HighlightType) :
    ∀ (fuel pos : Nat), line.length - pos ≤ fuel →
      wordLoop line info fuel pos < line.length →
      isspace (charAt line (wordLoop line info fuel pos)) = true ∨
        infoAt info (wordLoop line info fuel pos) ≠ HighlightType.NORMAL := by
  intro fuel
  induction fuel with
  | zero =>
    intro pos h hlt
    simp only [wordLoop] at hlt
    omega
  | succ fuel ih =>
    intro pos h
    rw [wordLoop]
    by_cases hc : pos < line.length ∧ isspace (charAt line pos) = false ∧
        infoAt info pos = HighlightType.NORMAL
    · rw [if_pos hc]
      exact ih (pos + 1) (by omega)
    · rw [if_neg hc]
      intro hlt
      by_cases hs : isspace (charAt line pos) = true
      · exact Or.inl hs
      · right
        intro hn
        exact hc ⟨hlt, by simpa using hs, hn⟩

/-- The keyword loop from `pos` changes no entry before `pos`. -/
theorem keywordLoop_frame (line : List Char) :
    ∀ (fuel pos : Nat) (info : List HighlightType) (i : Nat), i < pos → i < info.length →
      infoAt (keywordLoop line fuel pos info) i = infoAt info i := by
  intro fuel
  induction fuel with
  | zero => intro pos info i _ _; rfl
  | succ fuel ih =>
    intro pos info i hi hlen
    rw [keywordLoop]
    by_cases hp : pos < line.length
    · rw [if_pos hp]
      dsimp only
      by_cases hb : line.length ≤ skipLoop line info line.length pos
      · rw [if_pos hb]
      · rw [if_neg hb]
        have h1 := (skipLoop_stop line info line.length pos (by omega)).1
        have h2 := wordLoop_ge line info line.length (skipLoop line info line.length pos)
        rw [ih _ _ i (by omega) (by split <;> simp [markKeyword_length, hlen])]
        split
        · rw [markKeyword_infoAt _ _ _ _ hlen, if_neg (by omega)]
        · rfl
    · rw [if_neg hp]

/-- The keyword loop changes no entry of a white space character. -/
theorem keywordLoop_space (line : List Char) :
    ∀ (fuel pos : Nat) (info : List HighlightType) (i : Nat), i < info.length →
      isspace (charAt line i) = true →
      infoAt (keywordLoop line fuel pos info) i = infoAt info i := by
  intro fuel
  induction fuel with
  | zero => intro pos info i _ _; rfl
  | succ fuel ih =>
    intro pos info i hlen hsp
    rw [keywordLoop]
    by_cases hp : pos < line.length
    · rw [if_pos hp]
      dsimp only
      by_cases hb : line.length ≤ skipLoop line info line.length pos
      · rw [if_pos hb]
      · rw [if_neg hb]
        rw [ih _ _ i (by split <;> simp [markKeyword_length, hlen]) hsp]
        split
        · rw [markKeyword_infoAt _ _ _ _ hlen]
          by_cases hin : skipLoop line info line.length pos ≤ i ∧
              i < skipLoop line info line.length pos +
                (List.take
                  (wordLoop line info line.length (skipLoop line info line.length pos) -
                    skipLoop line info line.length pos)
                  (List.drop (skipLoop line info line.length pos) line)).length
          · exfalso
            have hlt : i < wordLoop line info line.length
                (skipLoop line info line.length pos) := by
              have := hin.2
              simp only [List.length_take, List.length_drop] at this
              omega
            have := (wordLoop_run line info line.length _ i hin.1 hlt).1
            rw [hsp] at this
            cases this
          · rw [if_neg hin]
        · rfl
    · rw [if_neg hp]

/-- The keyword loop on a maximal word: when the characters in `[P, Q)` are
no white space, the characters around them are white space or a line
boundary, and no entry from `pos ≤ P` on is marked, the loop tags every entry
of `[P, Q)` keyword if the word is a shell keyword and leaves it plain if not. -/
theorem keywordLoop_word (line : List Char) (P Q : Nat) (hPQ : P < Q)
    (hQ : Q ≤ line.length)
    (hword : ∀ t : Nat, P ≤ t → t < Q → isspace (charAt line t) = false)
    (hpre : 0 < P → isspace (charAt line (P - 1)) = true)
    (hpost : Q < line.length → isspace (charAt line Q) = true) :
    ∀ (fuel pos : Nat) (info : List HighlightType), line.length - pos ≤ fuel → pos ≤ P →
      info.length = line.length →
      (∀ t : Nat, pos ≤ t → t < line.length → infoAt info t = HighlightType.NORMAL) →
      ∀ i : Nat, P ≤ i → i < Q →
        infoAt (keywordLoop line fuel pos info) i =
          if (line.drop P).take (Q - P) ∈ SHELL_KEYWORDS then HighlightType.KEYWORD
          else HighlightType.NORMAL := by
  intro fuel
  induction fuel with
  | zero =>
    intro pos info hf hpos _ _ i _ _
    omega
  | succ fuel ih =>
    intro pos info hf hpos hlen hnorm i hi1 hi2
    have hp : pos < line.length := by omega
    have hs := skipLoop_stop line info line.length pos (by omega)
    have hskip := skipLoop_skipped line info line.length pos
    have hprog := keywordLoop_progress line info pos
    have hrun := wordLoop_run line info line.length (skipLoop line info line.length pos)
    have hstop := wordLoop_stop line info line.length (skipLoop line info line.length pos)
      (by omega)
    have hwle := wordLoop_le line info line.length (skipLoop line info line.length pos)
      (skipLoop_le line info line.length pos (by omega))
    have hge := wordLoop_ge line info line.length (skipLoop line info line.length pos)
    rw [keywordLoop, if_pos hp]
    dsimp only
    generalize skipLoop line info line.length pos = p1 at hs hskip hprog hrun hstop hwle hge ⊢
    have hp1 : p1 ≤ P := by
      by_contra hc
      rcases hskip P hpos (by omega) with h | h
      · rw [hword P (le_refl _) hPQ] at h
        cases h
      · exact h (hnorm P hpos (by omega))
    rw [if_neg (by omega)]
    have hprog2 := hprog (by omega)
    generalize wordLoop line info line.length p1 = p2 at hprog2 hrun hstop hwle hge ⊢
    have hlen2 : (if List.take (p2 - p1) (List.drop p1 line) ∈ SHELL_KEYWORDS then
        markKeyword info p1 (List.take (p2 - p1) (List.drop p1 line)).length
        else info).length = line.length := by
      split <;> simp [markKeyword_length, hlen]
    by_cases hcase : p1 = P
    · subst hcase
      have hq1 : Q ≤ p2 := by
        by_contra hc
        rcases hstop (by omega) with h | h
        · rw [hword p2 (by omega) (by omega)] at h
          cases h
        · exact h (hnorm p2 (by omega) (by omega))
      have hq2 : p2 ≤ Q := by
        by_contra hc
        have h1 := hpost (by omega)
        have h2 := (hrun Q (by omega) (by omega)).1
        rw [h1] at h2
        cases h2
      have hq : p2 = Q := by omega
      subst hq
      rw [keywordLoop_frame line fuel p2 _ i hi2 (by rw [hlen2]; omega)]
      by_cases hk : List.take (p2 - p1) (List.drop p1 line) ∈ SHELL_KEYWORDS
      · rw [if_pos hk, if_pos hk, markKeyword_infoAt _ _ _ _ (by omega), if_pos]
        simp only [List.length_take, List.length_drop]
        omega
      · rw [if_neg hk, if_neg hk]
        exact hnorm i (by omega) (by omega)
    · have hP : 0 < P := by omega
      have hsp := hpre hP
      have hp2 : p2 ≤ P - 1 := by
        by_contra hc
        have h2 := (hrun (P - 1) (by omega) (by omega)).1
        rw [hsp] at h2
        cases h2
      apply ih p2 _ (by omega) (by omega) hlen2 _ i hi1 hi2
      intro t ht1 ht2
      by_cases hk : List.take (p2 - p1) (List.drop p1 line) ∈ SHELL_KEYWORDS
      · rw [if_pos hk, markKeyword_infoAt _ _ _ _ (by omega), if_neg]
        · exact hnorm t (by omega) ht2
        · simp only [List.length_take, List.length_drop]
          omega
      · rw [if_neg hk]
        exact hnorm t (by omega) ht2

theorem charAt_append_left (a b : List Char) (i : Nat) (h : i < a.length) :
    charAt (a ++ b) i = charAt a i := by
  unfold charAt
  rw [List.getD_eq_getElem?_getD, List.getD_eq_getElem?_getD, List.getElem?_append_left h]

theorem charAt_append_right (a b : List Char) (i : Nat) (h : a.length ≤ i) :
    charAt (a ++ b) i = charAt b (i - a.length) := by
  unfold charAt
  rw [List.getD_eq_getElem?_getD, List.getD_eq_getElem?_getD, List.getElem?_append_right h]

theorem getElem?_eq_infoAt (info : List HighlightType) (i : Nat) (h : i < info.length) :
    info[i]? = some (infoAt info i) := by
  unfold infoAt
  rw [List.getD_eq_getElem?_getD, List.getElem?_eq_getElem h]
  rfl

theorem infoAt_replicate (n i : Nat) :
    infoAt (List.replicate n HighlightType.NORMAL) i = HighlightType.NORMAL := by
  unfold infoAt
  rw [List.getD_eq_getElem?_getD]
  by_cases h : i < n
  · rw [List.getElem?_eq_getElem (by simpa using h)]
    simp
  · rw [List.getElem?_eq_none (by simpa using h)]
    rfl

/-- What `analyzeSyntax` stores: the three passes on every line, in order. -/
theorem analyzeSyntax_highlightInfo (s : FileDisplay) :
    (analyzeSyntax s).highlightInfo = s.originalLines.map annotateLine := by
  have h := analyzeSyntax_fold s.originalLines s.originalLines.length (le_refl _)
  simp only [List.take_length, List.drop_length, List.map_nil, List.append_nil] at h
  simp only [analyzeSyntax, h]
  rfl

theorem annotateLine_length (l : List Char) : (annotateLine l).length = l.length := by
  unfold annotateLine
  rw [symbolPass_length, keywordPass_length, firstPassLine_length]

/-- On a line of letters and white space only the keyword pass marks. -/
theorem annotateLine_plain (l : List Char)
    (hchars : ∀ c ∈ l, isLetter c = true ∨ isspace c = true) :
    annotateLine l =
      keywordLoop l l.length 0 (List.replicate l.length HighlightType.NORMAL) := by
  unfold annotateLine
  rw [symbolPass_plain l _ (fun c hc => (letter_or_space_plain c (hchars c hc)).2.2.2.2.2)]
  unfold keywordPass firstPassLine
  rw [firstPass_plain l (fun c hc => by
    obtain ⟨p1, p2, p3, p4, p5, _⟩ := letter_or_space_plain c (hchars c hc)
    exact ⟨p1, p2, p3, p4, p5⟩)]

/-- C20 (keyword boundary).  For a line made of ASCII letters and white space
only, the highlight vector that `analyzeSyntax` stores for it has the length
of the line; every maximal white-space-delimited word of the line (a
non-empty stretch without white space between white space or line
boundaries) has all its characters tagged keyword when the word is one of the
fifteen shell keywords and all plain when it is not; every white space
character is plain. -/
theorem keyword_boundary (s : FileDisplay) (n : Nat) (l : List Char)
    (hline : s.originalLines[n]? = some l)
    (hchars : ∀ c ∈ l, isLetter c = true ∨ isspace c = true) :
    ∃ info : List HighlightType, (analyzeSyntax s).highlightInfo[n]? = some info ∧
      info.length = l.length ∧
      (∀ (pre word post : List Char), l = pre ++ word ++ post → word ≠ [] →
        (∀ c ∈ word, isspace c = false) →
        (∀ c : Char, pre.getLast? = some c → isspace c = true) →
        (∀ c : Char, post.head? = some c → isspace c = true) →
        ∀ j : Nat, j < word.length →
          info[pre.length + j]? =
            some (if word ∈ SHELL_KEYWORDS then HighlightType.KEYWORD
              else HighlightType.NORMAL)) ∧
      (∀ i : Nat, i < l.length → isspace (charAt l i) = true →
        info[i]? = some HighlightType.NORMAL) := by
  refine ⟨annotateLine l, ?_, annotateLine_length l, ?_, ?_⟩
  · rw [analyzeSyntax_highlightInfo, List.getElem?_map, hline]
    rfl
  · intro pre word post hl hne hword hpre hpost j hj
    have hwl : 0 < word.length := List.length_pos.mpr hne
    have hN : l.length = pre.length + word.length + post.length := by
      rw [hl]
      simp only [List.length_append]
    have hW : ∀ t : Nat, pre.length ≤ t → t < pre.length + word.length →
        isspace (charAt l t) = false := by
      intro t h1 h2
      rw [hl, charAt_append_left _ _ _ (by simp only [List.length_append]; omega),
        charAt_append_right _ _ _ h1]
      exact hword _ (charAt_mem word _ (by omega))
    have hP : 0 < pre.length → isspace (charAt l (pre.length - 1)) = true := by
      intro h
      rw [hl, List.append_assoc, charAt_append_left _ _ _ (by omega)]
      apply hpre
      rw [List.getLast?_eq_getElem?]
      exact getElem?_eq_charAt pre _ (by omega)
    have hQ : pre.length + word.length < l.length →
        isspace (charAt l (pre.length + word.length)) = true := by
      intro h
      rw [hl, charAt_append_right _ _ _ (by simp only [List.length_append]; omega)]
      simp only [List.length_append, Nat.sub_self]
      apply hpost
      rw [List.head?_eq_getElem?]
      exact getElem?_eq_charAt post 0 (by omega)
    have hext : (l.drop pre.length).take (pre.length + word.length - pre.length) = word := by
      rw [hl, List.append_assoc, List.drop_left, Nat.add_sub_cancel_left, List.take_left]
    have hmain := keywordLoop_word l pre.length (pre.length + word.length) (by omega)
      (by omega) hW hP hQ l.length 0 (List.replicate l.length HighlightType.NORMAL)
      (by omega) (by omega) (by simp) (fun t _ _ => infoAt_replicate _ _)
      (pre.length + j) (by omega) (by omega)
    rw [hext] at hmain
    rw [getElem?_eq_infoAt _ _ (by rw [annotateLine_length]; omega),
      annotateLine_plain l hchars, hmain]
  · intro i hi hsp
    rw [getElem?_eq_infoAt _ _ (by rw [annotateLine_length]; omega),
      annotateLine_plain l hchars,
      keywordLoop_space l _ _ _ i (by simpa using hi) hsp, infoAt_replicate]

/-- Witness of C20: in `if x then` the words `if` and `then` are keyword and
`x` is plain. -/
theorem keyword_boundary_witness :
    (∀ c ∈ ifThenLine, isLetter c = true ∨ isspace c = true) ∧
    ∃ info : List HighlightType,
      (analyzeSyntax { scenarioViewer with originalLines := [ifThenLine] }).highlightInfo[0]? =
        some info ∧
      info[0]? = some HighlightType.KEYWORD ∧ info[1]? = some HighlightType.KEYWORD ∧
      info[3]? = some HighlightType.NORMAL ∧ info[5]? = some HighlightType.KEYWORD ∧
      info[8]? = some HighlightType.KEYWORD := by
  obtain ⟨info, h1, _, h3, _⟩ :=
    keyword_boundary { scenarioViewer with originalLines := [ifThenLine] } 0 ifThenLine rfl
      (by decide)
  have hif := h3 [] ['i', 'f'] [' ', 'x', ' ', 't', 'h', 'e', 'n'] rfl (by decide) (by decide)
    (by decide) (by decide)
  have hx := h3 ['i', 'f', ' '] ['x'] [' ', 't', 'h', 'e', 'n'] rfl (by decide) (by decide)
    (by decide) (by decide)
  have hthen := h3 ['i', 'f', ' ', 'x', ' '] ['t', 'h', 'e', 'n'] [] rfl (by decide)
    (by decide) (by decide) (by decide)
  exact ⟨by decide, info, h1, hif 0 (by decide), hif 1 (by decide), hx 0 (by decide),
    hthen 0 (by decide), hthen 3 (by decide)⟩

/-! ## The first pass as a machine -/

theorem charAt_append_cons (pre : List Char) (c : Char) (rest : List Char) :
    charAt (pre ++ c :: rest) pre.length = c := by
  rw [charAt_append_right _ _ _ (le_refl _), Nat.sub_self]
  rfl

theorem set_append_cons (A : List HighlightType) (x y : HighlightType)
    (B : List HighlightType) : (A ++ x :: B).set A.length y = A ++ y :: B := by
  rw [List.set_append_right _ _ (le_refl _), Nat.sub_self]
  rfl

/-- Outside a variable name, or on a character that does not continue one,
the flag `inVariable` has no effect on the step. -/
theorem lexStep_inVariable (inS inC esc : Bool) (c : Char) (h : isVarChar c = false) :
    lexStep ⟨inS, inC, esc, true⟩ c = lexStep ⟨inS, inC, esc, false⟩ c := by
  simp [lexStep, h]

/-- In a variable name the machine tags the characters that continue the name
and then goes on as from outside. -/
theorem lexRun_var (inS inC esc : Bool) :
    ∀ rest : List Char,
      lexRun ⟨inS, inC, esc, true⟩ rest =
        List.replicate (rest.takeWhile isVarChar).length HighlightType.VARIABLE ++
          lexRun ⟨inS, inC, esc, false⟩ (rest.drop (rest.takeWhile isVarChar).length) := by
  intro rest
  induction rest with
  | nil => rfl
  | cons d rest ih =>
    by_cases hd : isVarChar d = true
    · rw [List.takeWhile_cons_of_pos hd]
      have hs : lexStep ⟨inS, inC, esc, true⟩ d =
          (⟨inS, inC, esc, true⟩, HighlightType.VARIABLE) := by
        simp [lexStep, hd]
      rw [lexRun, hs]
      dsimp only
      rw [ih]
      rfl
    · have hd2 : isVarChar d = false := by simpa using hd
      rw [List.takeWhile_cons_of_neg hd]
      simp only [List.length_nil, List.replicate_zero, List.nil_append, List.drop_zero]
      rw [lexRun, lexRun, lexStep_inVariable inS inC esc d hd2]

/-- The inner loop of a `$` tags the characters that continue the name. -/
theorem varRun_eq :
    ∀ (suf pre : List Char) (A B : List HighlightType) (fuel : Nat),
      A.length = pre.length → B.length = suf.length → suf.length ≤ fuel →
      varRun (pre ++ suf) fuel pre.length (A ++ B) =
        (pre.length + (suf.takeWhile isVarChar).length,
          A ++ (List.replicate (suf.takeWhile isVarChar).length HighlightType.VARIABLE ++
            B.drop (suf.takeWhile isVarChar).length)) := by
  intro suf
  induction suf with
  | nil =>
    intro pre A B fuel hA hB hf
    cases fuel with
    | zero => simp [varRun]
    | succ f =>
      rw [varRun, if_neg (by simp)]
      simp
  | cons c rest ih =>
    intro pre A B fuel hA hB hf
    obtain ⟨f, rfl⟩ : ∃ f, fuel = f + 1 := ⟨fuel - 1, by simp at hf; omega⟩
    obtain ⟨b, B2, rfl⟩ : ∃ b B2, B = b :: B2 := by
      cases B with
      | nil => simp at hB
      | cons b B2 => exact ⟨b, B2, rfl⟩
    rw [varRun, charAt_append_cons]
    by_cases hv : isVarChar c = true
    · have hcond : pre.length < (pre ++ c :: rest).length ∧
          (isalnum c = true ∨ c = '_') := by
        refine ⟨by simp, ?_⟩
        simpa [isVarChar] using hv
      rw [if_pos hcond, ← hA, set_append_cons, hA]
      have e1 : pre ++ c :: rest = (pre ++ [c]) ++ rest := by simp
      have e2 : pre.length + 1 = (pre ++ [c]).length := by simp
      have e3 : A ++ HighlightType.VARIABLE :: B2 = (A ++ [HighlightType.VARIABLE]) ++ B2 := by
        simp
      rw [e1, e2, e3, ih (pre ++ [c]) (A ++ [HighlightType.VARIABLE]) B2 f (by simp [hA])
        (by simpa using hB) (by simp at hf; omega), List.takeWhile_cons_of_pos hv]
      simp only [List.length_append, List.length_cons, List.length_nil, List.replicate_succ,
        List.drop_succ_cons, List.append_assoc, List.singleton_append, List.cons_append,
        Nat.zero_add]
      congr 1
      omega
    · have hcond : ¬ (pre.length < (pre ++ c :: rest).length ∧
          (isalnum c = true ∨ c = '_')) := by
        intro h
        apply hv
        simpa [isVarChar] using h.2
      rw [if_neg hcond, List.takeWhile_cons_of_neg hv]
      simp

/-! The branches of `lexStep`, one lemma each. -/

theorem lexStep_var (inS inC esc : Bool) (c : Char) (hv : isVarChar c = true) :
    lexStep ⟨inS, inC, esc, true⟩ c = (⟨inS, inC, esc, true⟩, HighlightType.VARIABLE) := by
  unfold lexStep
  dsimp only
  rw [if_pos ⟨rfl, hv⟩]

theorem lexStep_comment (inS esc v : Bool) (c : Char)
    (hv : ¬ (v = true ∧ isVarChar c = true)) :
    lexStep ⟨inS, true, esc, v⟩ c = (⟨inS, true, esc, false⟩, HighlightType.COMMENT) := by
  unfold lexStep
  dsimp only
  rw [if_neg hv, if_pos rfl]

theorem lexStep_escaped (inS v : Bool) (c : Char) (hv : ¬ (v = true ∧ isVarChar c = true)) :
    lexStep ⟨inS, false, true, v⟩ c = (⟨inS, false, false, false⟩, HighlightType.NORMAL) := by
  unfold lexStep
  dsimp only
  rw [if_neg hv, if_neg (by decide), if_pos rfl]

theorem lexStep_backslash (inS v : Bool) (c : Char) (hv : ¬ (v = true ∧ isVarChar c = true))
    (hc : c = backslash) :
    lexStep ⟨inS, false, false, v⟩ c = (⟨inS, false, true, false⟩, HighlightType.NORMAL) := by
  unfold lexStep
  dsimp only
  rw [if_neg hv, if_neg (by decide), if_neg (by decide), if_pos hc]

theorem lexStep_quote (inS v : Bool) (c : Char) (hv : ¬ (v = true ∧ isVarChar c = true))
    (h3 : c ≠ backslash) (hc : c = dquote ∨ c = squote) :
    lexStep ⟨inS, false, false, v⟩ c = (⟨!inS, false, false, false⟩, HighlightType.STRING) := by
  unfold lexStep
  dsimp only
  rw [if_neg hv, if_neg (by decide), if_neg (by decide), if_neg h3, if_pos hc]

theorem lexStep_hash (v : Bool) (c : Char) (hv : ¬ (v = true ∧ isVarChar c = true))
    (h3 : c ≠ backslash) (h4 : ¬ (c = dquote ∨ c = squote)) (hc : c = '#') :
    lexStep ⟨false, false, false, v⟩ c =
      (⟨false, true, false, false⟩, HighlightType.COMMENT) := by
  unfold lexStep
  dsimp only
  rw [if_neg hv, if_neg (by decide), if_neg (by decide), if_neg h3, if_neg h4,
    if_pos ⟨rfl, hc⟩]

theorem lexStep_inString (v : Bool) (c : Char) (hv : ¬ (v = true ∧ isVarChar c = true))
    (h3 : c ≠ backslash) (h4 : ¬ (c = dquote ∨ c = squote)) :
    lexStep ⟨true, false, false, v⟩ c =
      (⟨true, false, false, false⟩, HighlightType.STRING) := by
  unfold lexStep
  dsimp only
  rw [if_neg hv, if_neg (by decide), if_neg (by decide), if_neg h3, if_neg h4,
    if_neg (by simp), if_pos rfl]

theorem lexStep_digit (v : Bool) (c : Char) (hv : ¬ (v = true ∧ isVarChar c = true))
    (h3 : c ≠ backslash) (h4 : ¬ (c = dquote ∨ c = squote)) (h5 : c ≠ '#')
    (hc : isdigit c = true) :
    lexStep ⟨false, false, false, v⟩ c =
      (⟨false, false, false, false⟩, HighlightType.NUMBER) := by
  unfold lexStep
  dsimp only
  rw [if_neg hv, if_neg (by decide), if_neg (by decide), if_neg h3, if_neg h4,
    if_neg (fun h => h5 h.2), if_neg (by decide), if_pos hc]

theorem lexStep_dollar (v : Bool) (c : Char) (hv : ¬ (v = true ∧ isVarChar c = true))
    (h3 : c ≠ backslash) (h4 : ¬ (c = dquote ∨ c = squote)) (h5 : c ≠ '#')
    (h7 : ¬ isdigit c = true) (hc : c = '$') :
    lexStep ⟨false, false, false, v⟩ c =
      (⟨false, false, false, true⟩, HighlightType.VARIABLE) := by
  unfold lexStep
  dsimp only
  rw [if_neg hv, if_neg (by decide), if_neg (by decide), if_neg h3, if_neg h4,
    if_neg (fun h => h5 h.2), if_neg (by decide), if_neg h7, if_pos hc]

theorem lexStep_plain (v : Bool) (c : Char) (hv : ¬ (v = true ∧ isVarChar c = true))
    (h3 : c ≠ backslash) (h4 : ¬ (c = dquote ∨ c = squote)) (h5 : c ≠ '#')
    (h7 : ¬ isdigit c = true) (h8 : c ≠ '$') :
    lexStep ⟨false, false, false, v⟩ c =
      (⟨false, false, false, false⟩, HighlightType.NORMAL) := by
  unfold lexStep
  dsimp only
  rw [if_neg hv, if_neg (by decide), if_neg (by decide), if_neg h3, if_neg h4,
    if_neg (fun h => h5 h.2), if_neg (by decide), if_neg h7, if_neg h8]

theorem not_var_false (c : Char) : ¬ (false = true ∧ isVarChar c = true) :=
  fun h => Bool.noConfusion h.1

/-- The first loop from index `pre.length` computes the tags of the machine
for the rest of the line. -/
theorem firstPass_eq :
    ∀ (fuel : Nat) (suf pre : List Char) (A : List HighlightType) (inS inC esc : Bool),
      A.length = pre.length → suf.length ≤ fuel →
      firstPass (pre ++ suf) fuel pre.length inS inC esc
          (A ++ List.replicate suf.length HighlightType.NORMAL) =
        A ++ lexRun ⟨inS, inC, esc, false⟩ suf := by
  intro fuel
  induction fuel with
  | zero =>
    intro suf pre A inS inC esc _ hf
    have : suf = [] := List.length_eq_zero.mp (by omega)
    subst this
    simp [firstPass, lexRun]
  | succ fuel ih =>
    intro suf pre A inS inC esc hA hf
    cases suf with
    | nil =>
      rw [firstPass, if_neg (by simp)]
      simp [lexRun]
    | cons c rest =>
      have hlt : pre.length < (pre ++ c :: rest).length := by simp
      have hrep : List.replicate (c :: rest).length HighlightType.NORMAL =
          HighlightType.NORMAL :: List.replicate rest.length HighlightType.NORMAL := rfl
      have hset : ∀ tag : HighlightType,
          (A ++ HighlightType.NORMAL :: List.replicate rest.length HighlightType.NORMAL).set
            pre.length tag =
          A ++ tag :: List.replicate rest.length HighlightType.NORMAL := by
        intro tag
        rw [← hA, set_append_cons]
      have hstep : ∀ (tag : HighlightType) (a b d : Bool),
          firstPass (pre ++ c :: rest) fuel (pre.length + 1) a b d
              (A ++ tag :: List.replicate rest.length HighlightType.NORMAL) =
            A ++ tag :: lexRun ⟨a, b, d, false⟩ rest := by
        intro tag a b d
        have e1 : pre ++ c :: rest = (pre ++ [c]) ++ rest := by simp
        have e2 : pre.length + 1 = (pre ++ [c]).length := by simp
        have e3 : A ++ tag :: List.replicate rest.length HighlightType.NORMAL =
            (A ++ [tag]) ++ List.replicate rest.length HighlightType.NORMAL := by simp
        rw [e1, e2, e3, ih rest (pre ++ [c]) (A ++ [tag]) a b d (by simp [hA])
          (by simp at hf; omega)]
        simp
      rw [firstPass, if_pos hlt, charAt_append_cons, hrep, lexRun]
      by_cases h1 : inC = true
      · subst h1
        rw [if_pos rfl, hset, hstep, lexStep_comment _ _ _ _ (not_var_false c)]
      have h1f : inC = false := by simpa using h1
      subst h1f
      rw [if_neg (by decide)]
      by_cases h2 : esc = true
      · subst h2
        rw [if_pos rfl, hstep, lexStep_escaped _ _ _ (not_var_false c)]
      have h2f : esc = false := by simpa using h2
      subst h2f
      rw [if_neg (by decide)]
      by_cases h3 : c = backslash
      · rw [if_pos h3, hstep, lexStep_backslash _ _ _ (not_var_false c) h3]
      rw [if_neg h3]
      by_cases h4 : c = dquote ∨ c = squote
      · rw [if_pos h4, hset, hstep, lexStep_quote _ _ _ (not_var_false c) h3 h4]
      rw [if_neg h4]
      by_cases h5 : inS = false ∧ c = '#'
      · obtain ⟨h5a, h5c⟩ := h5
        subst h5a
        rw [if_pos ⟨rfl, h5c⟩, hset, hstep, lexStep_hash _ _ (not_var_false c) h3 h4 h5c]
      rw [if_neg h5]
      by_cases h6 : inS = true
      · subst h6
        rw [if_pos rfl, hset, hstep, lexStep_inString _ _ (not_var_false c) h3 h4]
      rw [if_neg h6]
      have h6f : inS = false := by simpa using h6
      subst h6f
      have h5b : c ≠ '#' := fun h => h5 ⟨rfl, h⟩
      by_cases h7 : isdigit c = true
      · rw [if_pos h7, hset, hstep, lexStep_digit _ _ (not_var_false c) h3 h4 h5b h7]
      rw [if_neg h7]
      by_cases h8 : c = '$'
      · rw [if_pos h8, hset]
        dsimp only
        have e1 : pre ++ c :: rest = (pre ++ [c]) ++ rest := by simp
        have e2 : pre.length + 1 = (pre ++ [c]).length := by simp
        have e3 : A ++ HighlightType.VARIABLE ::
            List.replicate rest.length HighlightType.NORMAL =
            (A ++ [HighlightType.VARIABLE]) ++
              List.replicate rest.length HighlightType.NORMAL := by simp
        have hv := varRun_eq rest (pre ++ [c]) (A ++ [HighlightType.VARIABLE])
          (List.replicate rest.length HighlightType.NORMAL) (pre ++ c :: rest).length
          (by simp [hA]) (by simp) (by simp; omega)
        rw [← e1, ← e2, ← e3] at hv
        rw [hv]
        dsimp only
        generalize hk : (rest.takeWhile isVarChar).length = k
        have hkle : k ≤ rest.length := by
          rw [← hk]
          exact (List.takeWhile_sublist _).length_le
        have e4 : pre ++ c :: rest = (pre ++ c :: rest.take k) ++ rest.drop k := by
          simp
        have e5 : pre.length + 1 + k - 1 + 1 = (pre ++ c :: rest.take k).length := by
          simp only [List.length_append, List.length_cons, List.length_take]
          omega
        have e6 : A ++ [HighlightType.VARIABLE] ++
            (List.replicate k HighlightType.VARIABLE ++
              List.drop k (List.replicate rest.length HighlightType.NORMAL)) =
            (A ++ HighlightType.VARIABLE :: List.replicate k HighlightType.VARIABLE) ++
              List.replicate (rest.drop k).length HighlightType.NORMAL := by
          simp
        have hlex : lexStep ⟨false, false, false, false⟩ c =
            (⟨false, false, false, true⟩, HighlightType.VARIABLE) :=
          lexStep_dollar _ _ (not_var_false c) h3 h4 h5b h7 h8
        rw [e5, e6]
        conv_lhs => rw [e4]
        rw [ih (rest.drop k) (pre ++ c :: rest.take k)
          (A ++ HighlightType.VARIABLE :: List.replicate k HighlightType.VARIABLE)
          false false false
          (by simp only [List.length_append, List.length_cons, List.length_take,
                List.length_replicate]; omega)
          (by simp at hf; simp only [List.length_drop]; omega),
          hlex]
        dsimp only
        rw [lexRun_var false false false rest, hk]
        simp
      · rw [if_neg h8, hstep, lexStep_plain _ _ (not_var_false c) h3 h4 h5b h7 h8]

/-- The first pass of a line computes the tags of the machine. -/
theorem firstPassLine_eq_lexRun (l : List Char) : firstPassLine l = lexRun lexInit l := by
  have h := firstPass_eq l.length l [] [] false false false rfl (le_refl _)
  simpa [firstPassLine, lexInit] using h

/-! ## Tags and flags of the machine at an index -/

theorem lexRun_length : ∀ (l : List Char) (σ : LexState), (lexRun σ l).length = l.length := by
  intro l
  induction l with
  | nil => intro σ; rfl
  | cons c rest ih =>
    intro σ
    rw [lexRun, List.length_cons, List.length_cons, ih]

theorem lexRun_append : ∀ (a b : List Char) (σ : LexState),
    lexRun σ (a ++ b) = lexRun σ a ++ lexRun (lexState σ a) b := by
  intro a
  induction a with
  | nil => intro b σ; rfl
  | cons c rest ih =>
    intro b σ
    rw [List.cons_append, lexRun, lexRun, lexState, ih, List.cons_append]

theorem lexState_append : ∀ (a b : List Char) (σ : LexState),
    lexState σ (a ++ b) = lexState (lexState σ a) b := by
  intro a
  induction a with
  | nil => intro b σ; rfl
  | cons c rest ih =>
    intro b σ
    rw [List.cons_append, lexState, lexState, ih]

/-- A line splits at an index into the characters before it, the character
at it and the characters after it. -/
theorem split_at_index (l : List Char) (i : Nat) (h : i < l.length) :
    l = l.take i ++ charAt l i :: l.drop (i + 1) ∧ (l.take i).length = i := by
  have hc : charAt l i = l[i] := by
    have := getElem?_eq_charAt l i h
    rw [List.getElem?_eq_getElem h] at this
    exact (Option.some.inj this).symm
  refine ⟨?_, by rw [List.length_take]; omega⟩
  rw [hc, ← List.drop_eq_getElem_cons h, List.take_append_drop]

theorem infoAt_append_cons (A : List HighlightType) (x : HighlightType)
    (B : List HighlightType) (i : Nat) (h : A.length = i) : infoAt (A ++ x :: B) i = x := by
  subst h
  unfold infoAt
  rw [List.getD_eq_getElem?_getD, List.getElem?_append_right (le_refl _), Nat.sub_self]
  simp

/-- The tag that the machine gives to the character at an index is the tag of
the step from the flags after the characters before it. -/
theorem infoAt_lexRun (σ : LexState) (l : List Char) (i : Nat) (h : i < l.length) :
    infoAt (lexRun σ l) i = (lexStep (lexState σ (l.take i)) (charAt l i)).2 := by
  obtain ⟨hs, hlen⟩ := split_at_index l i h
  conv_lhs => rw [hs]
  rw [lexRun_append, lexRun]
  exact infoAt_append_cons _ _ _ _ (by rw [lexRun_length, hlen])

/-- The flags after the character at an index. -/
theorem lexState_take_succ (σ : LexState) (l : List Char) (i : Nat) (h : i < l.length) :
    lexState σ (l.take (i + 1)) = (lexStep (lexState σ (l.take i)) (charAt l i)).1 := by
  obtain ⟨hs, hlen⟩ := split_at_index l i h
  have ht : l.take (i + 1) = l.take i ++ [charAt l i] := by
    conv_lhs => rw [hs]
    rw [List.take_append_eq_append_take, hlen]
    have : i + 1 - i = 1 := by omega
    rw [this, List.take_of_length_le (by rw [hlen]; omega)]
    rfl
  rw [ht, lexState_append]
  rfl

/-- The branches of a step of the machine. -/
theorem lexStep_cases (σ : LexState) (c : Char) :
    (σ.inVariable = true ∧ isVarChar c = true ∧
      lexStep σ c = (σ, HighlightType.VARIABLE)) ∨
    (¬ (σ.inVariable = true ∧ isVarChar c = true) ∧ σ.inComment = true ∧
      lexStep σ c = (⟨σ.inString, true, σ.escapeChar, false⟩, HighlightType.COMMENT)) ∨
    (¬ (σ.inVariable = true ∧ isVarChar c = true) ∧ σ.inComment = false ∧
      σ.escapeChar = true ∧
      lexStep σ c = (⟨σ.inString, false, false, false⟩, HighlightType.NORMAL)) ∨
    (σ.inComment = false ∧ σ.escapeChar = false ∧ c = backslash ∧
      lexStep σ c = (⟨σ.inString, false, true, false⟩, HighlightType.NORMAL)) ∨
    (σ.inComment = false ∧ σ.escapeChar = false ∧ c ≠ backslash ∧ isQuote c = true ∧
      lexStep σ c = (⟨!σ.inString, false, false, false⟩, HighlightType.STRING)) ∨
    (σ.inComment = false ∧ σ.escapeChar = false ∧ c ≠ backslash ∧ isQuote c = false ∧
      σ.inString = false ∧ c = '#' ∧
      lexStep σ c = (⟨false, true, false, false⟩, HighlightType.COMMENT)) ∨
    (¬ (σ.inVariable = true ∧ isVarChar c = true) ∧
      σ.inComment = false ∧ σ.escapeChar = false ∧ c ≠ backslash ∧ isQuote c = false ∧
      σ.inString = true ∧
      lexStep σ c = (⟨true, false, false, false⟩, HighlightType.STRING)) ∨
    (¬ (σ.inVariable = true ∧ isVarChar c = true) ∧
      σ.inComment = false ∧ σ.escapeChar = false ∧ c ≠ backslash ∧ isQuote c = false ∧
      σ.inString = false ∧ c ≠ '#' ∧ isdigit c = true ∧
      lexStep σ c = (⟨false, false, false, false⟩, HighlightType.NUMBER)) ∨
    (σ.inComment = false ∧ σ.escapeChar = false ∧ c ≠ backslash ∧ isQuote c = false ∧
      σ.inString = false ∧ c ≠ '#' ∧ isdigit c = false ∧ c = '$' ∧
      lexStep σ c = (⟨false, false, false, true⟩, HighlightType.VARIABLE)) ∨
    (¬ (σ.inVariable = true ∧ isVarChar c = true) ∧
      σ.inComment = false ∧ σ.escapeChar = false ∧ c ≠ backslash ∧ isQuote c = false ∧
      σ.inString = false ∧ c ≠ '#' ∧ isdigit c = false ∧ c ≠ '$' ∧
      lexStep σ c = (⟨false, false, false, false⟩, HighlightType.NORMAL)) := by
  obtain ⟨inS, inC, esc, v⟩ := σ
  dsimp only
  by_cases hv : v = true ∧ isVarChar c = true
  · obtain ⟨rfl, hvc⟩ := hv
    exact Or.inl ⟨rfl, hvc, lexStep_var _ _ _ _ hvc⟩
  right
  by_cases h1 : inC = true
  · subst h1
    exact Or.inl ⟨hv, rfl, lexStep_comment _ _ _ _ hv⟩
  have h1f : inC = false := by simpa using h1
  subst h1f
  right
  by_cases h2 : esc = true
  · subst h2
    exact Or.inl ⟨hv, rfl, rfl, lexStep_escaped _ _ _ hv⟩
  have h2f : esc = false := by simpa using h2
  subst h2f
  right
  by_cases h3 : c = backslash
  · exact Or.inl ⟨rfl, rfl, h3, lexStep_backslash _ _ _ hv h3⟩
  right
  by_cases h4 : c = dquote ∨ c = squote
  · exact Or.inl ⟨rfl, rfl, h3, by simpa [isQuote] using h4, lexStep_quote _ _ _ hv h3 h4⟩
  have h4q : isQuote c = false := by simpa [isQuote] using h4
  right
  by_cases h6 : inS = true
  · subst h6
    exact Or.inr (Or.inl ⟨hv, rfl, rfl, h3, h4q, rfl, lexStep_inString _ _ hv h3 h4⟩)
  have h6f : inS = false := by simpa using h6
  subst h6f
  by_cases h5 : c = '#'
  · exact Or.inl ⟨rfl, rfl, h3, h4q, rfl, h5, lexStep_hash _ _ hv h3 h4 h5⟩
  right; right
  by_cases h7 : isdigit c = true
  · exact Or.inl ⟨hv, rfl, rfl, h3, h4q, rfl, h5, h7, lexStep_digit _ _ hv h3 h4 h5 h7⟩
  have h7f : isdigit c = false := by simpa using h7
  right
  by_cases h8 : c = '$'
  · exact Or.inl ⟨rfl, rfl, h3, h4q, rfl, h5, h7f, h8, lexStep_dollar _ _ hv h3 h4 h5 h7 h8⟩
  · exact Or.inr ⟨hv, rfl, rfl, h3, h4q, rfl, h5, h7f, h8,
      lexStep_plain _ _ hv h3 h4 h5 h7 h8⟩

/-! ## What the keyword pass and the symbol pass change -/

/-- The keyword loop changes an entry only to mark a keyword: the entry lies
in a stretch `[a, b)` of characters that are no white space and are `NORMAL`,
that spells a shell keyword, and whose two neighbours are a line boundary,
white space or a character that is not `NORMAL`. -/
theorem keywordLoop_marked (line : List Char) :
    ∀ (fuel pos : Nat) (info : List HighlightType), info.length = line.length →
      (pos = 0 ∨ line.length ≤ pos ∨ isspace (charAt line pos) = true ∨
        infoAt info pos ≠ HighlightType.NORMAL) →
      ∀ i : Nat, i < line.length →
        infoAt (keywordLoop line fuel pos info) i = infoAt info i ∨
        (infoAt (keywordLoop line fuel pos info) i = HighlightType.KEYWORD ∧
          ∃ a b : Nat, pos ≤ a ∧ a ≤ i ∧ i < b ∧ b ≤ line.length ∧
            (line.drop a).take (b - a) ∈ SHELL_KEYWORDS ∧
            (∀ t : Nat, a ≤ t → t < b →
              isspace (charAt line t) = false ∧ infoAt info t = HighlightType.NORMAL) ∧
            (a = 0 ∨ isspace (charAt line (a - 1)) = true ∨
              infoAt info (a - 1) ≠ HighlightType.NORMAL) ∧
            (b = line.length ∨ isspace (charAt line b) = true ∨
              infoAt info b ≠ HighlightType.NORMAL) ∧
            (∀ t : Nat, a ≤ t → t < b →
              infoAt (keywordLoop line fuel pos info) t = HighlightType.KEYWORD)) := by
  intro fuel
  induction fuel with
  | zero => intro pos info _ _ i _; exact Or.inl rfl
  | succ fuel ih =>
    intro pos info hlen hinv i hi
    rw [keywordLoop]
    by_cases hp : pos < line.length
    swap
    · rw [if_neg hp]; exact Or.inl rfl
    rw [if_pos hp]
    dsimp only
    by_cases hb : line.length ≤ skipLoop line info line.length pos
    · rw [if_pos hb]; exact Or.inl rfl
    rw [if_neg hb]
    have hs := skipLoop_stop line info line.length pos (by omega)
    have hskip := skipLoop_skipped line info line.length pos
    have hge := wordLoop_ge line info line.length (skipLoop line info line.length pos)
    have hle := wordLoop_le line info line.length (skipLoop line info line.length pos)
      (by omega)
    have hstop := wordLoop_stop line info line.length (skipLoop line info line.length pos)
      (by omega)
    have hrun := wordLoop_run line info line.length (skipLoop line info line.length pos)
    have hprog := keywordLoop_progress line info pos (by omega)
    generalize skipLoop line info line.length pos = pos1 at *
    generalize wordLoop line info line.length pos1 = pos2 at *
    have hwl : ((line.drop pos1).take (pos2 - pos1)).length = pos2 - pos1 := by
      rw [List.length_take, List.length_drop]
      omega
    generalize hw : (line.drop pos1).take (pos2 - pos1) = word at *
    obtain ⟨hs1, hs2⟩ := hs
    obtain ⟨hns, hnn⟩ := hs2 (by omega)
    generalize hinfo2 : (if word ∈ SHELL_KEYWORDS then markKeyword info pos1 word.length
      else info) = info2
    have hlen2 : info2.length = line.length := by
      rw [← hinfo2]
      split
      · rw [markKeyword_length, hlen]
      · exact hlen
    have hval : ∀ t : Nat, t < line.length →
        infoAt info2 t = if word ∈ SHELL_KEYWORDS ∧ pos1 ≤ t ∧ t < pos2
          then HighlightType.KEYWORD else infoAt info t := by
      intro t ht
      rw [← hinfo2]
      by_cases hk : word ∈ SHELL_KEYWORDS
      · rw [if_pos hk, markKeyword_infoAt _ _ _ _ (by omega), hwl]
        by_cases hin : pos1 ≤ t ∧ t < pos2
        · rw [if_pos (by omega), if_pos ⟨hk, hin⟩]
        · rw [if_neg (by omega), if_neg (fun h => hin h.2)]
      · rw [if_neg hk, if_neg (fun h => hk h.1)]
    have hafter : ∀ t : Nat, pos2 ≤ t → t < line.length → infoAt info2 t = infoAt info t := by
      intro t h1 h2
      rw [hval t h2, if_neg (by omega)]
    have hinv2 : pos2 = 0 ∨ line.length ≤ pos2 ∨ isspace (charAt line pos2) = true ∨
        infoAt info2 pos2 ≠ HighlightType.NORMAL := by
      by_cases hl : pos2 < line.length
      · rcases hstop hl with h | h
        · exact Or.inr (Or.inr (Or.inl h))
        · exact Or.inr (Or.inr (Or.inr (by rw [hafter pos2 (le_refl _) hl]; exact h)))
      · exact Or.inr (Or.inl (by omega))
    rcases ih pos2 info2 hlen2 hinv2 i hi with h | ⟨hk, a, b, ha1, ha2, hb1, hb2, hmem, hall,
      hleft, hright, hmarked⟩
    · rw [h, hval i hi]
      by_cases hc : word ∈ SHELL_KEYWORDS ∧ pos1 ≤ i ∧ i < pos2
      · rw [if_pos hc]
        right
        refine ⟨rfl, pos1, pos2, hs1, hc.2.1, hc.2.2, hle, by rw [hw]; exact hc.1, ?_, ?_, ?_,
          ?_⟩
        · intro t h1 h2
          exact hrun t h1 h2
        · by_cases hpp : pos1 = pos
          · rw [hpp] at hns hnn
            rcases hinv with h0 | h0 | h0 | h0
            · left; omega
            · omega
            · rw [hns] at h0; cases h0
            · exact absurd hnn h0
          · right
            exact hskip (pos1 - 1) (by omega) (by omega)
        · by_cases hl : pos2 < line.length
          · exact Or.inr (hstop hl)
          · left; omega
        · intro t h1 h2
          rw [keywordLoop_frame line fuel pos2 info2 t h2 (by omega), hval t (by omega),
            if_pos ⟨hc.1, h1, h2⟩]
      · rw [if_neg hc]
        exact Or.inl rfl
    · right
      have hane : a ≠ pos2 := by
        intro e
        subst e
        obtain ⟨q1, q2⟩ := hall a (le_refl _) (by omega)
        rcases hinv2 with h0 | h0 | h0 | h0
        · omega
        · omega
        · rw [q1] at h0; cases h0
        · exact h0 q2
      refine ⟨hk, a, b, by omega, ha2, hb1, hb2, hmem, ?_, ?_, ?_, hmarked⟩
      · intro t h1 h2
        obtain ⟨q1, q2⟩ := hall t h1 h2
        exact ⟨q1, by rw [← hafter t (by omega) (by omega)]; exact q2⟩
      · rcases hleft with h0 | h0 | h0
        · exact Or.inl h0
        · exact Or.inr (Or.inl h0)
        · exact Or.inr (Or.inr (by rw [← hafter (a - 1) (by omega) (by omega)]; exact h0))
      · rcases hright with h0 | h0 | h0
        · exact Or.inl h0
        · exact Or.inr (Or.inl h0)
        · by_cases hbl : b < line.length
          · exact Or.inr (Or.inr (by rw [← hafter b (by omega) hbl]; exact h0))
          · left; omega

/-- The symbol pass changes an entry exactly when it is `NORMAL` and its
character is in the symbol set. -/
theorem symbolPass_infoAt (line : List Char) (info : List HighlightType)
    (hlen : info.length = line.length) (i : Nat) (hi : i < line.length) :
    infoAt (symbolPass line info) i =
      if infoAt info i = HighlightType.NORMAL ∧ isSymbolChar (charAt line i) = true then
        HighlightType.SYMBOL
      else infoAt info i := by
  unfold symbolPass
  have hgen : ∀ n : Nat,
      ((List.range n).foldl
        (fun acc i =>
          if infoAt acc i = HighlightType.NORMAL ∧ isSymbolChar (charAt line i) = true then
            acc.set i HighlightType.SYMBOL
          else acc) info).length = line.length ∧
      infoAt ((List.range n).foldl
        (fun acc i =>
          if infoAt acc i = HighlightType.NORMAL ∧ isSymbolChar (charAt line i) = true then
            acc.set i HighlightType.SYMBOL
          else acc) info) i =
        if i < n ∧ infoAt info i = HighlightType.NORMAL ∧ isSymbolChar (charAt line i) = true
        then HighlightType.SYMBOL else infoAt info i := by
    intro n
    induction n with
    | zero =>
      refine ⟨hlen, ?_⟩
      rw [if_neg (by omega)]
      rfl
    | succ n ih =>
      obtain ⟨ih1, ih2⟩ := ih
      rw [List.range_succ, List.foldl_append]
      simp only [List.foldl_cons, List.foldl_nil]
      generalize (List.range n).foldl
        (fun acc i =>
          if infoAt acc i = HighlightType.NORMAL ∧ isSymbolChar (charAt line i) = true then
            acc.set i HighlightType.SYMBOL
          else acc) info = acc at ih1 ih2
      by_cases hc : infoAt acc n = HighlightType.NORMAL ∧ isSymbolChar (charAt line n) = true
      · rw [if_pos hc]
        refine ⟨by rw [List.length_set]; exact ih1, ?_⟩
        rw [infoAt_set _ _ _ _ (by omega), ih2]
        by_cases hni : n = i
        · subst hni
          rw [ih2, if_neg (by omega)] at hc
          rw [if_pos rfl, if_pos ⟨by omega, hc⟩]
        · rw [if_neg hni]
          by_cases hd : i < n ∧ infoAt info i = HighlightType.NORMAL ∧
              isSymbolChar (charAt line i) = true
          · rw [if_pos hd, if_pos ⟨by omega, hd.2⟩]
          · rw [if_neg hd, if_neg (fun h => hd ⟨by omega, h.2⟩)]
      · rw [if_neg hc]
        refine ⟨ih1, ?_⟩
        rw [ih2]
        by_cases hni : n = i
        · subst hni
          rw [ih2, if_neg (by omega)] at hc
          rw [if_neg (by omega), if_neg (fun h => hc h.2)]
        · by_cases hd : i < n ∧ infoAt info i = HighlightType.NORMAL ∧
              isSymbolChar (charAt line i) = true
          · rw [if_pos hd, if_pos ⟨by omega, hd.2⟩]
          · rw [if_neg hd, if_neg (fun h => hd ⟨by omega, h.2⟩)]
  have := (hgen line.length).2
  rw [this]
  by_cases hd : infoAt info i = HighlightType.NORMAL ∧ isSymbolChar (charAt line i) = true
  · rw [if_pos hd, if_pos ⟨hi, hd⟩]
  · rw [if_neg hd, if_neg (fun h => hd h.2)]

/-! ## The final annotation at an index -/

/-- The first loop writes no `KEYWORD` and no `SYMBOL`. -/
theorem lexStep_tag (σ : LexState) (c : Char) :
    (lexStep σ c).2 ≠ HighlightType.KEYWORD ∧ (lexStep σ c).2 ≠ HighlightType.SYMBOL := by
  rcases lexStep_cases σ c with h | h | h | h | h | h | h | h | h | h
  · rw [h.2.2]; constructor <;> intro e <;> cases e
  · rw [h.2.2]; constructor <;> intro e <;> cases e
  · rw [h.2.2.2]; constructor <;> intro e <;> cases e
  · rw [h.2.2.2]; constructor <;> intro e <;> cases e
  · rw [h.2.2.2.2]; constructor <;> intro e <;> cases e
  · rw [h.2.2.2.2.2.2]; constructor <;> intro e <;> cases e
  · rw [h.2.2.2.2.2.2]; constructor <;> intro e <;> cases e
  · rw [h.2.2.2.2.2.2.2.2]; constructor <;> intro e <;> cases e
  · rw [h.2.2.2.2.2.2.2.2]; constructor <;> intro e <;> cases e
  · rw [h.2.2.2.2.2.2.2.2.2]; constructor <;> intro e <;> cases e

/-- The entry of the first pass at an index is the tag of the step of the
machine from the flags with which the character is read. -/
theorem firstPassLine_infoAt (l : List Char) (i : Nat) (h : i < l.length) :
    infoAt (firstPassLine l) i = (lexStep (lexState lexInit (l.take i)) (charAt l i)).2 := by
  rw [firstPassLine_eq_lexRun, infoAt_lexRun _ _ _ h]

/-- The entry of the final annotation at an index: the entry of the first
pass, or `SYMBOL` on a symbol character that the first pass left `NORMAL`, or
`KEYWORD` in a stretch of `NORMAL` characters that spells a keyword between
boundaries. -/
theorem annotateLine_cases (l : List Char) (i : Nat) (hi : i < l.length) :
    (infoAt (annotateLine l) i = infoAt (firstPassLine l) i ∧
      infoAt (keywordPass l (firstPassLine l)) i = infoAt (firstPassLine l) i ∧
      (infoAt (firstPassLine l) i ≠ HighlightType.NORMAL ∨
        isSymbolChar (charAt l i) = false)) ∨
    (infoAt (firstPassLine l) i = HighlightType.NORMAL ∧
      infoAt (keywordPass l (firstPassLine l)) i = HighlightType.NORMAL ∧
      isSymbolChar (charAt l i) = true ∧
      infoAt (annotateLine l) i = HighlightType.SYMBOL) ∨
    (infoAt (firstPassLine l) i = HighlightType.NORMAL ∧
      infoAt (keywordPass l (firstPassLine l)) i = HighlightType.KEYWORD ∧
      infoAt (annotateLine l) i = HighlightType.KEYWORD ∧
      ∃ a b : Nat, a ≤ i ∧ i < b ∧ b ≤ l.length ∧
        (l.drop a).take (b - a) ∈ SHELL_KEYWORDS ∧
        (∀ t : Nat, a ≤ t → t < b →
          isspace (charAt l t) = false ∧
            infoAt (firstPassLine l) t = HighlightType.NORMAL) ∧
        (a = 0 ∨ isspace (charAt l (a - 1)) = true ∨
          infoAt (firstPassLine l) (a - 1) ≠ HighlightType.NORMAL) ∧
        (b = l.length ∨ isspace (charAt l b) = true ∨
          infoAt (firstPassLine l) b ≠ HighlightType.NORMAL) ∧
        (∀ t : Nat, a ≤ t → t < b → infoAt (annotateLine l) t = HighlightType.KEYWORD)) := by
  have hfl := firstPassLine_length l
  have hkl : (keywordPass l (firstPassLine l)).length = l.length := by
    rw [keywordPass_length, hfl]
  have hsym := symbolPass_infoAt l (keywordPass l (firstPassLine l)) hkl i hi
  have hk := keywordLoop_marked l l.length 0 (firstPassLine l) hfl (Or.inl rfl) i hi
  change infoAt (keywordPass l (firstPassLine l)) i = _ ∨
    (infoAt (keywordPass l (firstPassLine l)) i = _ ∧ _) at hk
  change infoAt (annotateLine l) i = _ at hsym
  rcases hk with hk | ⟨hk, a, b, _, ha, hb, hbl, hmem, hall, hleft, hright, hmarked⟩
  · by_cases hc : infoAt (firstPassLine l) i = HighlightType.NORMAL ∧
        isSymbolChar (charAt l i) = true
    · right; left
      rw [hk, if_pos hc] at hsym
      exact ⟨hc.1, by rw [hk]; exact hc.1, hc.2, hsym⟩
    · left
      rw [hk, if_neg hc] at hsym
      refine ⟨hsym, hk, ?_⟩
      by_cases hn : infoAt (firstPassLine l) i = HighlightType.NORMAL
      · right
        by_cases hs : isSymbolChar (charAt l i) = true
        · exact absurd ⟨hn, hs⟩ hc
        · simpa using hs
      · exact Or.inl hn
  · right; right
    rw [hk, if_neg (fun h => by cases h.1)] at hsym
    refine ⟨(hall i ha hb).2, hk, hsym, a, b, ha, hb, hbl, hmem, hall, hleft, hright, ?_⟩
    intro t h1 h2
    have hkt := hmarked t h1 h2
    change infoAt (keywordPass l (firstPassLine l)) t = _ at hkt
    have hst := symbolPass_infoAt l (keywordPass l (firstPassLine l)) hkl t (by omega)
    rw [hkt, if_neg (fun h => by cases h.1)] at hst
    exact hst

/-- The keyword pass and the symbol pass keep every tag of the first pass that
is not `NORMAL`. -/
theorem annotateLine_kept (l : List Char) (i : Nat) (hi : i < l.length)
    (h : infoAt (firstPassLine l) i ≠ HighlightType.NORMAL) :
    infoAt (annotateLine l) i = infoAt (firstPassLine l) i := by
  rcases annotateLine_cases l i hi with h1 | h1 | h1
  · exact h1.1
  · exact absurd h1.1 h
  · exact absurd h1.1 h

/-- The entry of a line of the file after `analyzeSyntax`. -/
theorem analyzeSyntax_entry (s : FileDisplay) (n : Nat) (l : List Char)
    (hline : s.originalLines[n]? = some l) :
    (analyzeSyntax s).highlightInfo[n]? = some (annotateLine l) := by
  rw [analyzeSyntax_highlightInfo, List.getElem?_map, hline]
  rfl

theorem annotateLine_getElem? (l : List Char) (i : Nat) (hi : i < l.length) :
    (annotateLine l)[i]? = some (infoAt (annotateLine l) i) :=
  getElem?_eq_infoAt _ _ (by rw [annotateLine_length]; exact hi)

/-! ## Character classes and the flags of the machine -/

/-- The codes of the characters that continue a variable name. -/
theorem varChar_toNat (c : Char) (h : isVarChar c = true) :
    (48 ≤ c.toNat ∧ c.toNat ≤ 57) ∨ (65 ≤ c.toNat ∧ c.toNat ≤ 90) ∨
      (97 ≤ c.toNat ∧ c.toNat ≤ 122) ∨ c.toNat = 95 := by
  simp only [isVarChar, isalnum, isdigit, Bool.or_eq_true, decide_eq_true_eq,
    char_le_iff] at h
  have e1 : 'a'.toNat = 97 := by decide
  have e2 : 'z'.toNat = 122 := by decide
  have e3 : 'A'.toNat = 65 := by decide
  have e4 : 'Z'.toNat = 90 := by decide
  have e5 : '0'.toNat = 48 := by decide
  have e6 : '9'.toNat = 57 := by decide
  rcases h with ((h | h) | h) | h
  · omega
  · omega
  · omega
  · right; right; right
    rw [h]
    decide

/-- A character that continues a variable name is no escape, no quote, no
`#`, no `$`, no white space and no symbol. -/
theorem varChar_plain (c : Char) (h : isVarChar c = true) :
    c ≠ backslash ∧ isQuote c = false ∧ c ≠ '#' ∧ c ≠ '$' ∧ isspace c = false ∧
      isSymbolChar c = false := by
  have hn := varChar_toNat c h
  refine ⟨?_, ?_, ?_, ?_, ?_, ?_⟩
  · apply char_ne_of_toNat
    have : backslash.toNat = 92 := by decide
    omega
  · simp only [isQuote, decide_eq_false_iff_not]
    intro hq
    rcases hq with hq | hq
    · have : dquote.toNat = 34 := by decide
      rw [hq] at hn
      omega
    · have : squote.toNat = 39 := by decide
      rw [hq] at hn
      omega
  · apply char_ne_of_toNat
    have : '#'.toNat = 35 := by decide
    omega
  · apply char_ne_of_toNat
    have : '$'.toNat = 36 := by decide
    omega
  · simp only [isspace, Bool.or_eq_false_iff, decide_eq_false_iff_not]
    refine ⟨?_, by omega⟩
    apply char_ne_of_toNat
    have : ' '.toNat = 32 := by decide
    omega
  · simp only [isSymbolChar, decide_eq_false_iff_not]
    intro hs
    have e1 : '='.toNat = 61 := by decide
    have e2 : '+'.toNat = 43 := by decide
    have e3 : '-'.toNat = 45 := by decide
    have e4 : '*'.toNat = 42 := by decide
    have e5 : '/'.toNat = 47 := by decide
    have e6 : '|'.toNat = 124 := by decide
    have e7 : '&'.toNat = 38 := by decide
    have e8 : '<'.toNat = 60 := by decide
    have e9 : '>'.toNat = 62 := by decide
    have e10 : '('.toNat = 40 := by decide
    have e11 : ')'.toNat = 41 := by decide
    have e12 : '['.toNat = 91 := by decide
    have e13 : ']'.toNat = 93 := by decide
    have e14 : (Char.ofNat 123).toNat = 123 := by decide
    have e15 : (Char.ofNat 125).toNat = 125 := by decide
    have e16 : ';'.toNat = 59 := by decide
    have e17 : ':'.toNat = 58 := by decide
    rcases hs with hs | hs | hs | hs | hs | hs | hs | hs | hs | hs | hs | hs | hs | hs | hs |
      hs | hs <;> (rw [hs] at hn; omega)

/-- A letter or an underscore continues a variable name and is no digit. -/
theorem identChar_varChar (c : Char) (h : isIdentChar c = true) :
    isVarChar c = true ∧ isdigit c = false := by
  simp only [isIdentChar, isLetter, Bool.or_eq_true, decide_eq_true_eq, char_le_iff] at h
  have e1 : 'a'.toNat = 97 := by decide
  have e2 : 'z'.toNat = 122 := by decide
  have e3 : 'A'.toNat = 65 := by decide
  have e4 : 'Z'.toNat = 90 := by decide
  have e5 : '0'.toNat = 48 := by decide
  have e6 : '9'.toNat = 57 := by decide
  have e7 : '_'.toNat = 95 := by decide
  constructor
  · simp only [isVarChar, isalnum, isdigit, Bool.or_eq_true, decide_eq_true_eq, char_le_iff]
    rcases h with (h | h) | h
    · exact Or.inl (Or.inl (Or.inr h))
    · exact Or.inl (Or.inr h)
    · exact Or.inr h
  · simp only [isdigit, decide_eq_false_iff_not, char_le_iff]
    rcases h with (h | h) | h
    · omega
    · omega
    · rw [h]; omega

/-- The first loop keeps the flags in the reachable combinations. -/
theorem lexStep_reachable (σ : LexState) (c : Char) (h : flagsReachable σ = true) :
    flagsReachable (lexStep σ c).1 = true := by
  obtain ⟨inS, inC, esc, v⟩ := σ
  rcases lexStep_cases ⟨inS, inC, esc, v⟩ c with e | e | e | e | e | e | e | e | e | e
  · rw [e.2.2]; exact h
  · rw [e.2.2]
    obtain ⟨_, rfl, _⟩ := e
    revert h
    cases inS <;> cases esc <;> cases v <;> decide
  · rw [e.2.2.2]; cases inS <;> rfl
  · rw [e.2.2.2]; cases inS <;> rfl
  · rw [e.2.2.2.2]; cases inS <;> rfl
  · rw [e.2.2.2.2.2.2]; rfl
  · rw [e.2.2.2.2.2.2]; rfl
  · rw [e.2.2.2.2.2.2.2.2]; rfl
  · rw [e.2.2.2.2.2.2.2.2]; rfl
  · rw [e.2.2.2.2.2.2.2.2.2]; rfl

theorem lexState_reachable : ∀ (l : List Char) (σ : LexState), flagsReachable σ = true →
    flagsReachable (lexState σ l) = true := by
  intro l
  induction l with
  | nil => intro σ h; exact h
  | cons c rest ih =>
    intro σ h
    rw [lexState]
    exact ih _ (lexStep_reachable σ c h)

/-- The flags with which the first loop reads the character at an index are
in the reachable combinations. -/
theorem lexState_take_reachable (l : List Char) (i : Nat) :
    flagsReachable (lexState lexInit (l.take i)) = true :=
  lexState_reachable _ _ rfl

/-! ## The flags of the machine are the flags of the loop -/

theorem lexRun_cons (σ : LexState) (c : Char) (rest : List Char) :
    lexRun σ (c :: rest) = (lexStep σ c).2 :: lexRun (lexStep σ c).1 rest := rfl

/-- The first loop resumed at an index, with the flags that the machine has
there and the entries written so far, ends with the vector of the whole line:
the flags of the machine are the flags with which the loop reads the
character at the index.  The index is one that the outer loop visits: no
variable name runs there, or the character does not continue it. -/
theorem firstPassLine_resume (pre suf : List Char)
    (h : (lexState lexInit pre).inVariable = false ∨
      ∀ c : Char, suf.head? = some c → isVarChar c = false) :
    firstPassLine (pre ++ suf) =
      firstPass (pre ++ suf) suf.length pre.length (lexState lexInit pre).inString
        (lexState lexInit pre).inComment (lexState lexInit pre).escapeChar
        (lexRun lexInit pre ++ List.replicate suf.length HighlightType.NORMAL) := by
  rw [firstPassLine_eq_lexRun,
    firstPass_eq suf.length suf pre (lexRun lexInit pre) _ _ _ (lexRun_length _ _) (le_refl _),
    lexRun_append]
  congr 1
  generalize lexState lexInit pre = σ at h
  obtain ⟨inS, inC, esc, v⟩ := σ
  dsimp only at h ⊢
  cases v with
  | false => rfl
  | true =>
    rcases h with h | h
    · cases h
    · cases suf with
      | nil => rfl
      | cons c rest =>
        rw [lexRun_cons, lexRun_cons, lexStep_inVariable _ _ _ _ (h c rfl)]

/-! ## Claims on comments and strings -/

/-- Before the first `#`, quote or backslash of a line the three flags of the
first loop are off. -/
theorem lexState_plain_prefix : ∀ (pre : List Char) (σ : LexState),
    σ.inString = false → σ.inComment = false → σ.escapeChar = false →
    (∀ c ∈ pre, c ≠ '#' ∧ c ≠ dquote ∧ c ≠ squote ∧ c ≠ backslash) →
    (lexState σ pre).inString = false ∧ (lexState σ pre).inComment = false ∧
      (lexState σ pre).escapeChar = false := by
  intro pre
  induction pre with
  | nil => intro σ h1 h2 h3 _; exact ⟨h1, h2, h3⟩
  | cons c rest ih =>
    intro σ h1 h2 h3 hpre
    obtain ⟨p1, p2, p3, p4⟩ := hpre c (List.mem_cons_self _ _)
    have hq : isQuote c = false := by simp [isQuote, p2, p3]
    rw [lexState]
    have hrest : ∀ d ∈ rest, d ≠ '#' ∧ d ≠ dquote ∧ d ≠ squote ∧ d ≠ backslash :=
      fun d hd => hpre d (List.mem_cons_of_mem _ hd)
    rcases lexStep_cases σ c with e | e | e | e | e | e | e | e | e | e
    · rw [e.2.2]; exact ih σ h1 h2 h3 hrest
    · rw [h2] at e; exact absurd e.2.1 (by decide)
    · rw [h3] at e; exact absurd e.2.2.1 (by decide)
    · exact absurd e.2.2.1 p4
    · rw [hq] at e; exact absurd e.2.2.2.1 (by decide)
    · exact absurd e.2.2.2.2.2.1 p1
    · rw [h1] at e; exact absurd e.2.2.2.2.2.1 (by decide)
    · rw [e.2.2.2.2.2.2.2.2]; exact ih _ rfl rfl rfl hrest
    · rw [e.2.2.2.2.2.2.2.2]; exact ih _ rfl rfl rfl hrest
    · rw [e.2.2.2.2.2.2.2.2.2]; exact ih _ rfl rfl rfl hrest

/-- In a comment the first loop tags every character `COMMENT`. -/
theorem lexRun_comment (inS esc : Bool) : ∀ l : List Char,
    lexRun ⟨inS, true, esc, false⟩ l = List.replicate l.length HighlightType.COMMENT := by
  intro l
  induction l with
  | nil => rfl
  | cons c rest ih =>
    rw [lexRun, lexStep_comment _ _ _ _ (not_var_false c)]
    dsimp only
    rw [ih]
    rfl

theorem infoAt_append_right (A B : List HighlightType) (i : Nat) (h : A.length ≤ i) :
    infoAt (A ++ B) i = infoAt B (i - A.length) := by
  unfold infoAt
  rw [List.getD_eq_getElem?_getD, List.getD_eq_getElem?_getD, List.getElem?_append_right h]

theorem infoAt_replicate_of_lt (n i : Nat) (a : HighlightType) (h : i < n) :
    infoAt (List.replicate n a) i = a := by
  unfold infoAt
  rw [List.getD_eq_getElem?_getD, List.getElem?_replicate, if_pos h]
  rfl

/-- C21 (comment to end of line): in a line in which no quote character and
no backslash occurs before the first `#`, every character from that `#` to the
end of the line is `COMMENT` in the final annotation, whatever it is. -/
theorem comment_to_end_of_line (s : FileDisplay) (n : Nat) (pre post : List Char)
    (hline : s.originalLines[n]? = some (pre ++ '#' :: post))
    (hpre : ∀ c ∈ pre, c ≠ '#' ∧ c ≠ dquote ∧ c ≠ squote ∧ c ≠ backslash) :
    ∃ info : List HighlightType, (analyzeSyntax s).highlightInfo[n]? = some info ∧
      info.length = (pre ++ '#' :: post).length ∧
      ∀ i : Nat, pre.length ≤ i → i < (pre ++ '#' :: post).length →
        info[i]? = some HighlightType.COMMENT := by
  refine ⟨annotateLine (pre ++ '#' :: post), analyzeSyntax_entry s n _ hline,
    annotateLine_length _, ?_⟩
  intro i h1 h2
  have hfp : infoAt (firstPassLine (pre ++ '#' :: post)) i = HighlightType.COMMENT := by
    obtain ⟨q1, q2, q3⟩ := lexState_plain_prefix pre lexInit rfl rfl rfl hpre
    have hstep : lexStep (lexState lexInit pre) '#' =
        (⟨false, true, false, false⟩, HighlightType.COMMENT) := by
      generalize lexState lexInit pre = σ at q1 q2 q3
      obtain ⟨inS, inC, esc, v⟩ := σ
      dsimp only at q1 q2 q3
      subst q1 q2 q3
      exact lexStep_hash v '#' (fun h => absurd h.2 (by decide)) (by decide) (by decide) rfl
    rw [firstPassLine_eq_lexRun, lexRun_append, lexRun, hstep]
    dsimp only
    rw [lexRun_comment, infoAt_append_right _ _ _ (by rw [lexRun_length]; exact h1),
      lexRun_length]
    have : HighlightType.COMMENT :: List.replicate post.length HighlightType.COMMENT =
        List.replicate (post.length + 1) HighlightType.COMMENT := rfl
    rw [this]
    apply infoAt_replicate_of_lt
    simp only [List.length_append, List.length_cons] at h2
    omega
  rw [annotateLine_getElem? _ i h2, annotateLine_kept _ i h2 (by rw [hfp]; decide), hfp]

/-- Witness of C21: in `echo hi # done` the six characters from the `#` on are
comment. -/
theorem comment_to_end_of_line_witness :
    (∀ c ∈ ['e', 'c', 'h', 'o', ' ', 'h', 'i', ' '],
      c ≠ '#' ∧ c ≠ dquote ∧ c ≠ squote ∧ c ≠ backslash) ∧
    ∃ info : List HighlightType,
      (analyzeSyntax (viewerOf [commentLine])).highlightInfo[0]? = some info ∧
      info.length = 14 ∧
      ∀ i : Nat, 8 ≤ i → i < 14 → info[i]? = some HighlightType.COMMENT :=
  ⟨by decide,
    comment_to_end_of_line (viewerOf [commentLine]) 0
      ['e', 'c', 'h', 'o', ' ', 'h', 'i', ' '] [' ', 'd', 'o', 'n', 'e'] rfl (by decide)⟩

/-- A character tagged `COMMENT` leaves the flag `inComment` set, and outside
a comment only a `#` is tagged `COMMENT`. -/
theorem lexStep_comment_flag (σ : LexState) (c : Char) :
    ((lexStep σ c).2 = HighlightType.COMMENT → (lexStep σ c).1.inComment = true) ∧
    (σ.inComment = true → (lexStep σ c).1.inComment = true) ∧
    (σ.inComment = false → c ≠ '#' →
      (lexStep σ c).2 ≠ HighlightType.COMMENT ∧ (lexStep σ c).1.inComment = false) := by
  rcases lexStep_cases σ c with e | e | e | e | e | e | e | e | e | e
  · rw [e.2.2]
    exact ⟨(fun h => by cases h), fun h => h, fun h _ => ⟨(fun h2 => by cases h2), h⟩⟩
  · rw [e.2.2]
    exact ⟨fun _ => rfl, fun _ => rfl, fun h _ => by rw [h] at e; exact absurd e.2.1 (by decide)⟩
  · rw [e.2.2.2]
    exact ⟨(fun h => by cases h), (fun h => by rw [h] at e; exact absurd e.2.1 (by decide)),
      fun _ _ => ⟨(fun h2 => by cases h2), rfl⟩⟩
  · rw [e.2.2.2]
    exact ⟨(fun h => by cases h), (fun h => by rw [h] at e; exact absurd e.1 (by decide)),
      fun _ _ => ⟨(fun h2 => by cases h2), rfl⟩⟩
  · rw [e.2.2.2.2]
    exact ⟨(fun h => by cases h), (fun h => by rw [h] at e; exact absurd e.1 (by decide)),
      fun _ _ => ⟨(fun h2 => by cases h2), rfl⟩⟩
  · rw [e.2.2.2.2.2.2]
    exact ⟨fun _ => rfl, fun _ => rfl, fun _ h => absurd e.2.2.2.2.2.1 h⟩
  · rw [e.2.2.2.2.2.2]
    exact ⟨(fun h => by cases h), (fun h => by rw [h] at e; exact absurd e.2.1 (by decide)),
      fun _ _ => ⟨(fun h2 => by cases h2), rfl⟩⟩
  · rw [e.2.2.2.2.2.2.2.2]
    exact ⟨(fun h => by cases h), (fun h => by rw [h] at e; exact absurd e.2.1 (by decide)),
      fun _ _ => ⟨(fun h2 => by cases h2), rfl⟩⟩
  · rw [e.2.2.2.2.2.2.2.2]
    exact ⟨(fun h => by cases h), (fun h => by rw [h] at e; exact absurd e.1 (by decide)),
      fun _ _ => ⟨(fun h2 => by cases h2), rfl⟩⟩
  · rw [e.2.2.2.2.2.2.2.2.2]
    exact ⟨(fun h => by cases h), (fun h => by rw [h] at e; exact absurd e.2.1 (by decide)),
      fun _ _ => ⟨(fun h2 => by cases h2), rfl⟩⟩

theorem lexState_inComment : ∀ (l : List Char) (σ : LexState), σ.inComment = true →
    (lexState σ l).inComment = true := by
  intro l
  induction l with
  | nil => intro σ h; exact h
  | cons c rest ih =>
    intro σ h
    rw [lexState]
    exact ih _ ((lexStep_comment_flag σ c).2.1 h)

/-- After a stretch in which a character is tagged `COMMENT` the flag
`inComment` is set. -/
theorem lexRun_comment_flag : ∀ (l : List Char) (σ : LexState),
    HighlightType.COMMENT ∈ lexRun σ l → (lexState σ l).inComment = true := by
  intro l
  induction l with
  | nil => intro σ h; simp [lexRun] at h
  | cons c rest ih =>
    intro σ h
    rw [lexRun, List.mem_cons] at h
    rw [lexState]
    rcases h with h | h
    · exact lexState_inComment _ _ ((lexStep_comment_flag σ c).1 h.symm)
    · exact ih _ h

/-- Outside a comment a stretch without `#` gets no `COMMENT`. -/
theorem lexRun_no_hash : ∀ (l : List Char) (σ : LexState), σ.inComment = false →
    (∀ c ∈ l, c ≠ '#') → HighlightType.COMMENT ∉ lexRun σ l := by
  intro l
  induction l with
  | nil => intro σ _ _ h; simp [lexRun] at h
  | cons c rest ih =>
    intro σ hc hl h
    rw [lexRun, List.mem_cons] at h
    obtain ⟨q1, q2⟩ := (lexStep_comment_flag σ c).2.2 hc (hl c (List.mem_cons_self _ _))
    rcases h with h | h
    · exact q1 h.symm
    · exact ih _ q2 (fun d hd => hl d (List.mem_cons_of_mem _ hd)) h

/-- An entry that is not the default is an element of the vector. -/
theorem infoAt_mem (L : List HighlightType) (j : Nat)
    (h : infoAt L j ≠ HighlightType.NORMAL) : infoAt L j ∈ L := by
  by_cases hj : j < L.length
  · have := getElem?_eq_infoAt L j hj
    rw [List.getElem?_eq_getElem hj] at this
    rw [← Option.some.inj this]
    exact List.getElem_mem hj
  · exfalso
    apply h
    unfold infoAt
    rw [List.getD_eq_getElem?_getD, List.getElem?_eq_none (by omega)]
    rfl

/-- The final annotation has `COMMENT`, `STRING`, `NUMBER` and `VARIABLE` only
where the first pass wrote them. -/
theorem annotateLine_first_pass_tag (l : List Char) (i : Nat) (hi : i < l.length)
    (h : infoAt (annotateLine l) i ≠ HighlightType.NORMAL ∧
      infoAt (annotateLine l) i ≠ HighlightType.KEYWORD ∧
      infoAt (annotateLine l) i ≠ HighlightType.SYMBOL) :
    infoAt (firstPassLine l) i = infoAt (annotateLine l) i := by
  rcases annotateLine_cases l i hi with h1 | h1 | h1
  · exact h1.1.symm
  · exact absurd h1.2.2.2 h.2.2
  · exact absurd h1.2.2.1 h.2.1

/-- C22 (string state suppresses comment detection): a `#` that the first
loop reads with `inString` set and `escapeChar` clear is `STRING` in the
final annotation and leaves `inComment` clear; when no `#` follows it, no
character of the line is `COMMENT`. -/
theorem string_suppresses_comment (s : FileDisplay) (n : Nat) (pre post : List Char)
    (hline : s.originalLines[n]? = some (pre ++ '#' :: post))
    (hstr : (lexState lexInit pre).inString = true)
    (hesc : (lexState lexInit pre).escapeChar = false) :
    ∃ info : List HighlightType, (analyzeSyntax s).highlightInfo[n]? = some info ∧
      info[pre.length]? = some HighlightType.STRING ∧
      (lexState lexInit pre).inComment = false ∧
      (lexState lexInit (pre ++ ['#'])).inComment = false ∧
      (lexState lexInit (pre ++ ['#'])).inString = true ∧
      ((∀ c ∈ post, c ≠ '#') → ∀ j : Nat, info[j]? ≠ some HighlightType.COMMENT) := by
  have hreach := lexState_reachable pre lexInit rfl
  have hstep : (lexState lexInit pre).inComment = false ∧
      lexStep (lexState lexInit pre) '#' =
        (⟨true, false, false, false⟩, HighlightType.STRING) := by
    generalize lexState lexInit pre = σ at hstr hesc hreach
    obtain ⟨inS, inC, esc, v⟩ := σ
    dsimp only at hstr hesc
    subst hstr hesc
    have hc : inC = false := by
      revert hreach
      cases inC <;> cases v <;> decide
    subst hc
    exact ⟨rfl, lexStep_inString v '#' (fun h => absurd h.2 (by decide)) (by decide)
      (by decide)⟩
  have hlen : pre.length < (pre ++ '#' :: post).length := by simp
  have hrun : lexRun lexInit (pre ++ '#' :: post) =
      lexRun lexInit pre ++ HighlightType.STRING ::
        lexRun ⟨true, false, false, false⟩ post := by
    rw [lexRun_append, lexRun, hstep.2]
  have hafter : lexState lexInit (pre ++ ['#']) = ⟨true, false, false, false⟩ := by
    rw [lexState_append, lexState, lexState, hstep.2]
  refine ⟨annotateLine (pre ++ '#' :: post), analyzeSyntax_entry s n _ hline, ?_, hstep.1,
    by rw [hafter], by rw [hafter], ?_⟩
  · have hfp : infoAt (firstPassLine (pre ++ '#' :: post)) pre.length =
        HighlightType.STRING := by
      rw [firstPassLine_eq_lexRun, hrun]
      exact infoAt_append_cons _ _ _ _ (lexRun_length _ _)
    rw [annotateLine_getElem? _ _ hlen, annotateLine_kept _ _ hlen (by rw [hfp]; decide), hfp]
  · intro hpost j hj
    have hjl : j < (pre ++ '#' :: post).length := by
      by_contra hn
      rw [List.getElem?_eq_none (by rw [annotateLine_length]; omega)] at hj
      cases hj
    rw [annotateLine_getElem? _ _ hjl] at hj
    have hj2 := Option.some.inj hj
    have hfp := annotateLine_first_pass_tag _ j hjl
      (by rw [hj2]; exact ⟨by decide, by decide, by decide⟩)
    rw [hj2, firstPassLine_eq_lexRun] at hfp
    have hmem := infoAt_mem _ j (by rw [hfp]; decide)
    rw [hfp, hrun, List.mem_append, List.mem_cons] at hmem
    rcases hmem with h | h | h
    · have := lexRun_comment_flag pre lexInit h
      rw [hstep.1] at this
      cases this
    · cases h
    · exact lexRun_no_hash post _ rfl hpost h

/-- Witness of C22: in `echo "a#b"` the `#` is string and nothing is comment. -/
theorem string_suppresses_comment_witness :
    (lexState lexInit ['e', 'c', 'h', 'o', ' ', dquote, 'a']).inString = true ∧
    (lexState lexInit ['e', 'c', 'h', 'o', ' ', dquote, 'a']).escapeChar = false ∧
    ∃ info : List HighlightType,
      (analyzeSyntax (viewerOf [quotedHashLine])).highlightInfo[0]? = some info ∧
      info[7]? = some HighlightType.STRING ∧
      ∀ j : Nat, info[j]? ≠ some HighlightType.COMMENT := by
  obtain ⟨info, h1, h2, _, _, _, h3⟩ :=
    string_suppresses_comment (viewerOf [quotedHashLine]) 0
      ['e', 'c', 'h', 'o', ' ', dquote, 'a'] ['b', dquote] rfl (by decide) (by decide)
  exact ⟨by decide, by decide, info, h1, h2, h3 (by decide)⟩

/-! ## Claims on variable names -/

theorem infoAt_mid (X Y : List HighlightType) (m i : Nat) (a : HighlightType)
    (h1 : X.length ≤ i) (h2 : i < X.length + m) :
    infoAt (X ++ List.replicate m a ++ Y) i = a := by
  unfold infoAt
  rw [List.getD_eq_getElem?_getD, List.append_assoc, List.getElem?_append_right h1,
    List.getElem?_append_left (by rw [List.length_replicate]; omega),
    List.getElem?_replicate, if_pos (by omega)]
  rfl

/-- The characters that continue a name, up to the first that does not. -/
theorem takeWhile_run (run post : List Char) (hrun : ∀ c ∈ run, isVarChar c = true)
    (hpost : ∀ c : Char, post.head? = some c → isVarChar c = false) :
    (run ++ post).takeWhile isVarChar = run := by
  induction run with
  | nil =>
    cases post with
    | nil => rfl
    | cons d r =>
      have := hpost d rfl
      rw [List.nil_append, List.takeWhile_cons_of_neg (by rw [this]; decide)]
  | cons c rest ih =>
    rw [List.cons_append, List.takeWhile_cons_of_pos (hrun c (List.mem_cons_self _ _)),
      ih (fun d hd => hrun d (List.mem_cons_of_mem _ hd))]

/-- C23 (variable run): a `$` that the first loop reads outside a string and
a comment and not escaped is `VARIABLE` in the final annotation together with
the maximal run of letters, digits and underscores after it; the first loop
goes on behind the run with all flags clear. -/
theorem variable_run (s : FileDisplay) (n : Nat) (pre run post : List Char)
    (hline : s.originalLines[n]? = some (pre ++ '$' :: (run ++ post)))
    (hstr : (lexState lexInit pre).inString = false)
    (hcom : (lexState lexInit pre).inComment = false)
    (hesc : (lexState lexInit pre).escapeChar = false)
    (hrun : ∀ c ∈ run, isVarChar c = true)
    (hpost : ∀ c : Char, post.head? = some c → isVarChar c = false) :
    ∃ info : List HighlightType, (analyzeSyntax s).highlightInfo[n]? = some info ∧
      (∀ i : Nat, pre.length ≤ i → i ≤ pre.length + run.length →
        info[i]? = some HighlightType.VARIABLE) ∧
      firstPassLine (pre ++ '$' :: (run ++ post)) =
        lexRun lexInit pre ++ List.replicate (run.length + 1) HighlightType.VARIABLE ++
          lexRun ⟨false, false, false, false⟩ post ∧
      ∀ i : Nat, pre.length + run.length < i → i < (pre ++ '$' :: (run ++ post)).length →
        infoAt (firstPassLine (pre ++ '$' :: (run ++ post))) i ≠ HighlightType.NORMAL →
        info[i]? = some (infoAt (lexRun ⟨false, false, false, false⟩ post)
          (i - (pre.length + run.length + 1))) := by
  have hstep : lexStep (lexState lexInit pre) '$' =
      (⟨false, false, false, true⟩, HighlightType.VARIABLE) := by
    generalize lexState lexInit pre = σ at hstr hcom hesc
    obtain ⟨inS, inC, esc, v⟩ := σ
    dsimp only at hstr hcom hesc
    subst hstr hcom hesc
    exact lexStep_dollar v '$' (fun h => absurd h.2 (by decide)) (by decide) (by decide)
      (by decide) (by decide) rfl
  have hfp : firstPassLine (pre ++ '$' :: (run ++ post)) =
      lexRun lexInit pre ++ List.replicate (run.length + 1) HighlightType.VARIABLE ++
        lexRun ⟨false, false, false, false⟩ post := by
    rw [firstPassLine_eq_lexRun, lexRun_append, lexRun_cons, hstep]
    dsimp only
    rw [lexRun_var, takeWhile_run run post hrun hpost, List.drop_left,
      List.replicate_succ, List.append_assoc]
    rfl
  refine ⟨annotateLine (pre ++ '$' :: (run ++ post)), analyzeSyntax_entry s n _ hline, ?_, hfp,
    ?_⟩
  · intro i h1 h2
    have hi : i < (pre ++ '$' :: (run ++ post)).length := by
      simp only [List.length_append, List.length_cons]
      omega
    have hv : infoAt (firstPassLine (pre ++ '$' :: (run ++ post))) i =
        HighlightType.VARIABLE := by
      rw [hfp]
      exact infoAt_mid _ _ _ _ _ (by rw [lexRun_length]; exact h1)
        (by rw [lexRun_length]; omega)
    rw [annotateLine_getElem? _ _ hi, annotateLine_kept _ _ hi (by rw [hv]; decide), hv]
  · intro i h1 hi hne
    rw [annotateLine_getElem? _ _ hi, annotateLine_kept _ _ hi hne, hfp,
      infoAt_append_right _ _ _
        (by rw [List.length_append, lexRun_length, List.length_replicate]; omega),
      List.length_append, lexRun_length, List.length_replicate]
    rfl

/-- Witness of C23: in `$FOO_1 bar` the six characters of `$FOO_1` are
variable and the first loop tags nothing behind them. -/
theorem variable_run_witness :
    (lexState lexInit []).inString = false ∧
    (∀ c ∈ ['F', 'O', 'O', '_', '1'], isVarChar c = true) ∧
    ∃ info : List HighlightType,
      (analyzeSyntax (viewerOf [variableLine])).highlightInfo[0]? = some info ∧
      (∀ i : Nat, 0 ≤ i → i ≤ 5 → info[i]? = some HighlightType.VARIABLE) ∧
      firstPassLine variableLine =
        List.replicate 6 HighlightType.VARIABLE ++ List.replicate 4 HighlightType.NORMAL := by
  obtain ⟨info, h1, h2, h3, _⟩ :=
    variable_run (viewerOf [variableLine]) 0 [] ['F', 'O', 'O', '_', '1'] [' ', 'b', 'a', 'r']
      rfl rfl rfl rfl (by decide) (by decide)
  exact ⟨rfl, by decide, info, h1, h2, h3⟩

/-! ## Claims on strings -/

/-- With `inString` set the reachable flags have `inComment` and `inVariable`
clear. -/
theorem reachable_inString (σ : LexState) (h : flagsReachable σ = true)
    (hs : σ.inString = true) : σ.inComment = false ∧ σ.inVariable = false := by
  obtain ⟨inS, inC, esc, v⟩ := σ
  dsimp only at hs ⊢
  subst hs
  revert h
  cases inC <;> cases esc <;> cases v <;> decide

/-- In a string the first loop tags every character `STRING` that is no
backslash and does not follow one. -/
theorem lexStep_in_string (σ : LexState) (c : Char) (h : flagsReachable σ = true)
    (hs : σ.inString = true) (he : σ.escapeChar = false) (hc : c ≠ backslash) :
    (lexStep σ c).2 = HighlightType.STRING := by
  obtain ⟨hcom, hvar⟩ := reachable_inString σ h hs
  rcases lexStep_cases σ c with e | e | e | e | e | e | e | e | e | e
  · rw [hvar] at e; exact absurd e.1 (by decide)
  · rw [hcom] at e; exact absurd e.2.1 (by decide)
  · rw [he] at e; exact absurd e.2.2.1 (by decide)
  · exact absurd e.2.2.1 hc
  · rw [e.2.2.2.2]
  · rw [hs] at e; exact absurd e.2.2.2.2.1 (by decide)
  · rw [e.2.2.2.2.2.2]
  · rw [hs] at e; exact absurd e.2.2.2.2.2.1 (by decide)
  · rw [hs] at e; exact absurd e.2.2.2.2.1 (by decide)
  · rw [hs] at e; exact absurd e.2.2.2.2.2.1 (by decide)

/-- On a character that is no backslash and no `#`, read outside a comment
and not escaped, the first loop toggles `inString` exactly on a quote and tags
the character `STRING` exactly when it is a quote or `inString` is set. -/
theorem lexStep_parity (σ : LexState) (c : Char) (h : flagsReachable σ = true)
    (hcom : σ.inComment = false) (hesc : σ.escapeChar = false)
    (hb : c ≠ backslash) (hh : c ≠ '#') :
    (lexStep σ c).1.inComment = false ∧ (lexStep σ c).1.escapeChar = false ∧
      (lexStep σ c).1.inString = (σ.inString ^^ isQuote c) ∧
      ((lexStep σ c).2 = HighlightType.STRING ↔ (isQuote c = true ∨ σ.inString = true)) := by
  rcases lexStep_cases σ c with e | e | e | e | e | e | e | e | e | e
  · rw [e.2.2]
    have hq := (varChar_plain c e.2.1).2.1
    have hs : σ.inString = false := by
      obtain ⟨inS, inC, esc, v⟩ := σ
      have hv : v = true := e.1
      subst hv
      revert h
      cases inS <;> cases inC <;> cases esc <;> decide
    refine ⟨hcom, hesc, by rw [hq, Bool.xor_false], ?_⟩
    rw [hq, hs]
    constructor
    · intro h2; cases h2
    · intro h2; rcases h2 with h2 | h2 <;> cases h2
  · rw [hcom] at e; exact absurd e.2.1 (by decide)
  · rw [hesc] at e; exact absurd e.2.2.1 (by decide)
  · exact absurd e.2.2.1 hb
  · rw [e.2.2.2.2, e.2.2.2.1]
    exact ⟨rfl, rfl, by rw [Bool.xor_true], ⟨fun _ => Or.inl rfl, fun _ => rfl⟩⟩
  · exact absurd e.2.2.2.2.2.1 hh
  · rw [e.2.2.2.2.2.2, e.2.2.2.2.1, e.2.2.2.2.2.1]
    exact ⟨rfl, rfl, rfl, ⟨fun _ => Or.inr rfl, fun _ => rfl⟩⟩
  · rw [e.2.2.2.2.2.2.2.2, e.2.2.2.2.1, e.2.2.2.2.2.1]
    refine ⟨rfl, rfl, rfl, ?_⟩
    constructor
    · intro h2; cases h2
    · intro h2; rcases h2 with h2 | h2 <;> cases h2
  · rw [e.2.2.2.2.2.2.2.2, e.2.2.2.1, e.2.2.2.2.1]
    refine ⟨rfl, rfl, rfl, ?_⟩
    constructor
    · intro h2; cases h2
    · intro h2; rcases h2 with h2 | h2 <;> cases h2
  · rw [e.2.2.2.2.2.2.2.2.2, e.2.2.2.2.1, e.2.2.2.2.2.1]
    refine ⟨rfl, rfl, rfl, ?_⟩
    constructor
    · intro h2; cases h2
    · intro h2; rcases h2 with h2 | h2 <;> cases h2

/-- In a stretch without backslash and `#` the flag `inString` follows the
parity of the number of quote characters. -/
theorem lexState_parity : ∀ (pre : List Char) (σ : LexState), flagsReachable σ = true →
    σ.inComment = false → σ.escapeChar = false →
    (∀ c ∈ pre, c ≠ backslash ∧ c ≠ '#') →
    (lexState σ pre).inComment = false ∧ (lexState σ pre).escapeChar = false ∧
      (lexState σ pre).inString = (σ.inString ^^ decide (pre.countP isQuote % 2 = 1)) := by
  intro pre
  induction pre with
  | nil =>
    intro σ _ h2 h3 _
    refine ⟨h2, h3, ?_⟩
    simp [lexState]
  | cons c rest ih =>
    intro σ h1 h2 h3 hpre
    obtain ⟨p1, p2⟩ := hpre c (List.mem_cons_self _ _)
    obtain ⟨q1, q2, q3, _⟩ := lexStep_parity σ c h1 h2 h3 p1 p2
    obtain ⟨r1, r2, r3⟩ := ih _ (lexStep_reachable σ c h1) q1 q2
      (fun d hd => hpre d (List.mem_cons_of_mem _ hd))
    rw [lexState]
    refine ⟨r1, r2, ?_⟩
    rw [r3, q3, List.countP_cons]
    cases σ.inString <;> cases isQuote c <;>
      by_cases hp : List.countP isQuote rest % 2 = 1 <;> simp [hp] <;> omega

/-- C25 (quotes toggle by parity): in a line without backslash and without
`#` a character is `STRING` in the final annotation exactly when it is a
quote character, single or double, or the number of quote characters before
it is odd. -/
theorem quotes_toggle_by_parity (s : FileDisplay) (n : Nat) (l : List Char)
    (hline : s.originalLines[n]? = some l)
    (hplain : ∀ c ∈ l, c ≠ backslash ∧ c ≠ '#') :
    ∃ info : List HighlightType, (analyzeSyntax s).highlightInfo[n]? = some info ∧
      ∀ i : Nat, i < l.length →
        (info[i]? = some HighlightType.STRING ↔
          (isQuote (charAt l i) = true ∨ quotesBefore l i % 2 = 1)) := by
  refine ⟨annotateLine l, analyzeSyntax_entry s n l hline, ?_⟩
  intro i hi
  obtain ⟨p1, p2⟩ := hplain _ (charAt_mem l i hi)
  obtain ⟨r1, r2, r3⟩ := lexState_parity (l.take i) lexInit rfl rfl rfl
    (fun c hc => hplain c (List.mem_of_mem_take hc))
  obtain ⟨_, _, _, q4⟩ := lexStep_parity (lexState lexInit (l.take i)) (charAt l i)
    (lexState_take_reachable l i) r1 r2 p1 p2
  rw [← firstPassLine_infoAt l i hi] at q4
  have hstr : (lexState lexInit (l.take i)).inString = true ↔ quotesBefore l i % 2 = 1 := by
    rw [r3]
    unfold quotesBefore
    simp [lexInit]
  rw [annotateLine_getElem? _ _ hi, ← hstr, ← q4]
  constructor
  · intro h
    have h2 := Option.some.inj h
    rw [annotateLine_first_pass_tag l i hi
      (by rw [h2]; exact ⟨by decide, by decide, by decide⟩), h2]
  · intro h
    rw [annotateLine_kept l i hi (by rw [h]; decide), h]

/-- Witness of C25: in `"a'b 'c` the single quote closes the string that the
double quote opens, and the string that the second single quote opens runs to
the end of the line. -/
theorem quotes_toggle_by_parity_witness :
    (∀ c ∈ mixedQuoteLine, c ≠ backslash ∧ c ≠ '#') ∧
    ∃ info : List HighlightType,
      (analyzeSyntax (viewerOf [mixedQuoteLine])).highlightInfo[0]? = some info ∧
      info[1]? = some HighlightType.STRING ∧ info[2]? = some HighlightType.STRING ∧
      info[3]? ≠ some HighlightType.STRING ∧ info[6]? = some HighlightType.STRING := by
  obtain ⟨info, h1, h2⟩ :=
    quotes_toggle_by_parity (viewerOf [mixedQuoteLine]) 0 mixedQuoteLine rfl (by decide)
  exact ⟨by decide, info, h1, (h2 1 (by decide)).mpr (by decide),
    (h2 2 (by decide)).mpr (by decide), fun h => absurd ((h2 3 (by decide)).mp h) (by decide),
    (h2 6 (by decide)).mpr (by decide)⟩

/-! ## Claims on escapes and on keywords -/

/-- The characters of the shell keywords are letters. -/
theorem keyword_letters : ∀ k ∈ SHELL_KEYWORDS, ∀ c ∈ k, isLetter c = true := by
  decide

/-- The character at an index of a stretch of the line is a character of the
stretch. -/
theorem charAt_mem_slice (l : List Char) (a b t : Nat) (h1 : a ≤ t) (h2 : t < b)
    (h3 : b ≤ l.length) : charAt l t ∈ (l.drop a).take (b - a) := by
  have hc : charAt l t = l[t] := by
    have := getElem?_eq_charAt l t (by omega)
    rw [List.getElem?_eq_getElem (by omega)] at this
    exact (Option.some.inj this).symm
  have hlen : t - a < ((l.drop a).take (b - a)).length := by
    rw [List.length_take, List.length_drop]
    omega
  have hget : ((l.drop a).take (b - a))[t - a] = l[t] := by
    rw [List.getElem_take, List.getElem_drop]
    congr 1
    omega
  rw [hc, ← hget]
  exact List.getElem_mem hlen

/-- A backslash read outside a comment and not escaped: the flags after it
and after the character that follows it, and the two tags of the first pass. -/
theorem escape_steps (l : List Char) (i : Nat) (hi : i + 1 < l.length)
    (hb : charAt l i = backslash)
    (hcom : (lexState lexInit (l.take i)).inComment = false)
    (hesc : (lexState lexInit (l.take i)).escapeChar = false) :
    infoAt (firstPassLine l) i = HighlightType.NORMAL ∧
    lexState lexInit (l.take (i + 1)) =
      ⟨(lexState lexInit (l.take i)).inString, false, true, false⟩ ∧
    infoAt (firstPassLine l) (i + 1) = HighlightType.NORMAL ∧
    lexState lexInit (l.take (i + 2)) =
      ⟨(lexState lexInit (l.take i)).inString, false, false, false⟩ := by
  have h1 : lexStep (lexState lexInit (l.take i)) (charAt l i) =
      (⟨(lexState lexInit (l.take i)).inString, false, true, false⟩,
        HighlightType.NORMAL) := by
    generalize lexState lexInit (l.take i) = σ at hcom hesc
    obtain ⟨inS, inC, esc, v⟩ := σ
    dsimp only at hcom hesc ⊢
    subst hcom hesc
    exact lexStep_backslash inS v _
      (fun h => absurd hb (varChar_plain _ h.2).1) hb
  have hs1 : lexState lexInit (l.take (i + 1)) =
      ⟨(lexState lexInit (l.take i)).inString, false, true, false⟩ := by
    rw [lexState_take_succ _ _ _ (by omega), h1]
  have h2 : lexStep (lexState lexInit (l.take (i + 1))) (charAt l (i + 1)) =
      (⟨(lexState lexInit (l.take i)).inString, false, false, false⟩,
        HighlightType.NORMAL) := by
    rw [hs1]
    exact lexStep_escaped _ _ _ (not_var_false _)
  refine ⟨?_, hs1, ?_, ?_⟩
  · rw [firstPassLine_infoAt l i (by omega), h1]
  · rw [firstPassLine_infoAt l (i + 1) hi, h2]
  · rw [lexState_take_succ _ _ _ hi, h2]

/-- C26 (an escaped character gets no lexical classification): the character
after a backslash that the first loop reads outside a comment and not escaped
changes none of the flags `inString`, `inComment` and `inVariable`, and in
the final annotation it is `SYMBOL` when it is in the symbol set and `NORMAL`
when it is not. -/
theorem escaped_character (s : FileDisplay) (n : Nat) (l : List Char)
    (hline : s.originalLines[n]? = some l) (i : Nat) (hi : i + 1 < l.length)
    (hb : charAt l i = backslash)
    (hcom : (lexState lexInit (l.take i)).inComment = false)
    (hesc : (lexState lexInit (l.take i)).escapeChar = false) :
    ∃ info : List HighlightType, (analyzeSyntax s).highlightInfo[n]? = some info ∧
      lexState lexInit (l.take (i + 2)) =
        ⟨(lexState lexInit (l.take i)).inString, false, false, false⟩ ∧
      info[i + 1]? =
        some (if isSymbolChar (charAt l (i + 1)) = true then HighlightType.SYMBOL
          else HighlightType.NORMAL) := by
  obtain ⟨f1, _, f2, f3⟩ := escape_steps l i hi hb hcom hesc
  refine ⟨annotateLine l, analyzeSyntax_entry s n l hline, f3, ?_⟩
  rw [annotateLine_getElem? _ _ hi]
  rcases annotateLine_cases l (i + 1) hi with h | h | h
  · obtain ⟨h1, _, h3⟩ := h
    rcases h3 with h3 | h3
    · exact absurd f2 h3
    · rw [h1, f2, if_neg (by rw [h3]; decide)]
  · obtain ⟨_, _, h3, h4⟩ := h
    rw [h4, if_pos h3]
  · exfalso
    obtain ⟨_, _, _, a, b, ha, hb2, hbl, hmem, _, hleft, _, _⟩ := h
    by_cases hai : a ≤ i
    · have hin := charAt_mem_slice l a b i hai (by omega) hbl
      have hlet := keyword_letters _ hmem _ hin
      rw [hb] at hlet
      revert hlet
      decide
    · have hae : a = i + 1 := by omega
      subst hae
      rcases hleft with h0 | h0 | h0
      · omega
      · rw [Nat.add_sub_cancel, hb] at h0
        revert h0
        decide
      · rw [Nat.add_sub_cancel] at h0
        exact h0 f1

/-- Witness of C26: in `echo \"hi` the escaped quote is plain and opens no
string. -/
theorem escaped_character_witness :
    charAt escapedQuoteLine 5 = backslash ∧
    ∃ info : List HighlightType,
      (analyzeSyntax (viewerOf [escapedQuoteLine])).highlightInfo[0]? = some info ∧
      lexState lexInit (escapedQuoteLine.take 7) = ⟨false, false, false, false⟩ ∧
      info[6]? = some HighlightType.NORMAL :=
  ⟨by decide,
    escaped_character (viewerOf [escapedQuoteLine]) 0 escapedQuoteLine rfl 5 (by decide)
      (by decide) (by decide) (by decide)⟩

/-- A letter or an underscore is no escape, no quote, no `#`, no digit, no
`$` and no white space, and it continues a variable name. -/
theorem identChar_plain (c : Char) (h : isIdentChar c = true) :
    isVarChar c = true ∧ c ≠ backslash ∧ ¬ (c = dquote ∨ c = squote) ∧ c ≠ '#' ∧
      ¬ isdigit c = true ∧ c ≠ '$' ∧ isspace c = false := by
  obtain ⟨h1, h2⟩ := identChar_varChar c h
  obtain ⟨p1, p2, p3, p4, p5, _⟩ := varChar_plain c h1
  refine ⟨h1, p1, ?_, p3, by rw [h2]; decide, p4, p5⟩
  simpa [isQuote] using p2

/-- Two letters or underscores in a row: when the first loop tags the first,
it tags the second. -/
theorem lexStep_ident_tagged (σ : LexState) (c1 c2 : Char)
    (h1 : isIdentChar c1 = true) (h2 : isIdentChar c2 = true)
    (ht : (lexStep σ c1).2 ≠ HighlightType.NORMAL) :
    (lexStep (lexStep σ c1).1 c2).2 ≠ HighlightType.NORMAL := by
  obtain ⟨a1, a2, a3, a4, a5, a6, _⟩ := identChar_plain c1 h1
  obtain ⟨b1, b2, b3, b4, b5, b6, _⟩ := identChar_plain c2 h2
  rcases lexStep_cases σ c1 with e | e | e | e | e | e | e | e | e | e
  · rw [e.2.2]
    dsimp only
    obtain ⟨inS, inC, esc, v⟩ := σ
    have hv : v = true := e.1
    subst hv
    rw [lexStep_var _ _ _ _ b1]
    intro h0; cases h0
  · rw [e.2.2]
    dsimp only
    rw [lexStep_comment _ _ _ _ (not_var_false c2)]
    intro h0; cases h0
  · rw [e.2.2.2] at ht; exact absurd rfl ht
  · exact absurd e.2.2.1 a2
  · have := e.2.2.2.1
    simp only [isQuote, decide_eq_true_eq] at this
    exact absurd this a3
  · exact absurd e.2.2.2.2.2.1 a4
  · rw [e.2.2.2.2.2.2]
    dsimp only
    rw [lexStep_inString _ _ (not_var_false c2) b2 b3]
    intro h0; cases h0
  · exact absurd e.2.2.2.2.2.2.2.1 a5
  · exact absurd e.2.2.2.2.2.2.2.1 a6
  · rw [e.2.2.2.2.2.2.2.2.2] at ht; exact absurd rfl ht

/-- Two letters or underscores in a row: when the first loop leaves the first
`NORMAL` and tags the second, the first is escaped. -/
theorem lexStep_ident_untagged (σ : LexState) (c1 c2 : Char)
    (h1 : isIdentChar c1 = true) (h2 : isIdentChar c2 = true)
    (ht : (lexStep σ c1).2 = HighlightType.NORMAL)
    (ht2 : (lexStep (lexStep σ c1).1 c2).2 ≠ HighlightType.NORMAL) :
    σ.escapeChar = true := by
  obtain ⟨a1, a2, a3, a4, a5, a6, _⟩ := identChar_plain c1 h1
  obtain ⟨b1, b2, b3, b4, b5, b6, _⟩ := identChar_plain c2 h2
  rcases lexStep_cases σ c1 with e | e | e | e | e | e | e | e | e | e
  · rw [e.2.2] at ht; cases ht
  · rw [e.2.2] at ht; cases ht
  · exact e.2.2.1
  · exact absurd e.2.2.1 a2
  · rw [e.2.2.2.2] at ht; cases ht
  · exact absurd e.2.2.2.2.2.1 a4
  · rw [e.2.2.2.2.2.2] at ht; cases ht
  · exact absurd e.2.2.2.2.2.2.2.1 a5
  · exact absurd e.2.2.2.2.2.2.2.1 a6
  · rw [e.2.2.2.2.2.2.2.2.2] at ht2
    dsimp only at ht2
    rw [lexStep_plain _ _ (not_var_false c2) b2 b3 b4 b5 b6] at ht2
    exact absurd rfl ht2

/-- The flag `escapeChar` is set only by a backslash, which the first loop
leaves `NORMAL`. -/
theorem lexStep_sets_escape (σ : LexState) (c : Char) (h : flagsReachable σ = true)
    (he : (lexStep σ c).1.escapeChar = true) :
    c = backslash ∧ (lexStep σ c).2 = HighlightType.NORMAL := by
  rcases lexStep_cases σ c with e | e | e | e | e | e | e | e | e | e
  · rw [e.2.2] at he
    dsimp only at he
    exfalso
    obtain ⟨inS, inC, esc, v⟩ := σ
    have hv : v = true := e.1
    have hesc : esc = true := he
    subst hv hesc
    revert h
    cases inS <;> cases inC <;> decide
  · rw [e.2.2] at he
    dsimp only at he
    exfalso
    obtain ⟨inS, inC, esc, v⟩ := σ
    have hc : inC = true := e.2.1
    have hesc : esc = true := he
    subst hc hesc
    revert h
    cases inS <;> cases v <;> decide
  · rw [e.2.2.2] at he; cases he
  · rw [e.2.2.2]; exact ⟨e.2.2.1, rfl⟩
  · rw [e.2.2.2.2] at he; cases he
  · rw [e.2.2.2.2.2.2] at he; cases he
  · rw [e.2.2.2.2.2.2] at he; cases he
  · rw [e.2.2.2.2.2.2.2.2] at he; cases he
  · rw [e.2.2.2.2.2.2.2.2] at he; cases he
  · rw [e.2.2.2.2.2.2.2.2.2] at he; cases he

/-- Counterexample to C27: the line `done2` is one identifier, longer than
the keyword `done` that it starts with, and its first four characters are
`KEYWORD` in the final annotation. -/
theorem keyword_in_longer_identifier :
    (analyzeSyntax (viewerOf [digitWordLine])).highlightInfo[0]? =
      some [HighlightType.KEYWORD, HighlightType.KEYWORD, HighlightType.KEYWORD,
        HighlightType.KEYWORD, HighlightType.NUMBER] ∧
    (∀ c ∈ digitWordLine, isVarChar c = true) ∧
    digitWordLine ∉ SHELL_KEYWORDS ∧ digitWordLine.take 4 ∈ SHELL_KEYWORDS := by
  decide

/-- C27, amended: an identifier without digit (a maximal run of letters,
digits and underscores, all of them letters or underscores) that is not
itself a shell keyword has no character that is `KEYWORD` in the final
annotation. -/
theorem keyword_whole_identifier (s : FileDisplay) (n : Nat) (l : List Char)
    (hline : s.originalLines[n]? = some l) (a b : Nat) (hb : b ≤ l.length)
    (hident : ∀ t : Nat, t < b → a ≤ t → isIdentChar (charAt l t) = true)
    (hleft : a = 0 ∨ isVarChar (charAt l (a - 1)) = false)
    (hright : b = l.length ∨ isVarChar (charAt l b) = false)
    (hnot : (l.drop a).take (b - a) ∉ SHELL_KEYWORDS) :
    ∃ info : List HighlightType, (analyzeSyntax s).highlightInfo[n]? = some info ∧
      ∀ t : Nat, a ≤ t → t < b → info[t]? ≠ some HighlightType.KEYWORD := by
  refine ⟨annotateLine l, analyzeSyntax_entry s n l hline, ?_⟩
  intro t ht1 ht2 hk
  have htl : t < l.length := by omega
  rw [annotateLine_getElem? _ _ htl] at hk
  have hk2 := Option.some.inj hk
  have hfp : ∀ i : Nat, i < l.length → infoAt (firstPassLine l) i =
      (lexStep (lexState lexInit (l.take i)) (charAt l i)).2 := firstPassLine_infoAt l
  have hvar : ∀ a2 b2 i : Nat, a2 ≤ i → i < b2 → b2 ≤ l.length →
      (l.drop a2).take (b2 - a2) ∈ SHELL_KEYWORDS → isIdentChar (charAt l i) = true := by
    intro a2 b2 i h1 h2 h3 hm
    have := keyword_letters _ hm _ (charAt_mem_slice l a2 b2 i h1 h2 h3)
    simp [isIdentChar, this]
  rcases annotateLine_cases l t htl with h | h | h
  · rw [h.1, hfp t htl] at hk2
    exact (lexStep_tag _ _).1 hk2
  · rw [h.2.2.2] at hk2
    cases hk2
  · obtain ⟨_, _, _, a2, b2, ha2, hb2, hbl, hmem, hall, hl2, hr2, _⟩ := h
    have hword := hvar a2 b2
    -- the stretch lies in the identifier
    have h1 : a ≤ a2 := by
      by_contra hc
      rcases hleft with h0 | h0
      · omega
      · have := (identChar_plain _ (hword (a - 1) (by omega) (by omega) hbl hmem)).1
        rw [h0] at this
        cases this
    have h2 : b2 ≤ b := by
      by_contra hc
      rcases hright with h0 | h0
      · omega
      · have := (identChar_plain _ (hword b (by omega) (by omega) hbl hmem)).1
        rw [h0] at this
        cases this
    -- it starts where the identifier starts
    have h3 : a2 = a := by
      by_contra hc
      have hp : a2 - 1 + 1 = a2 := by omega
      have hi1 := hident (a2 - 1) (by omega) (by omega)
      have hi2 := hident a2 (by omega) (by omega)
      rcases hl2 with h0 | h0 | h0
      · omega
      · rw [(identChar_plain _ hi1).2.2.2.2.2.2] at h0
        cases h0
      · rw [hfp _ (by omega)] at h0
        have := lexStep_ident_tagged _ _ _ hi1 hi2 h0
        rw [← lexState_take_succ _ _ _ (by omega), hp, ← hfp _ (by omega)] at this
        exact this (hall a2 (le_refl _) (by omega)).2
    -- and ends where the identifier ends
    have h4 : b2 = b := by
      by_contra hc
      have hp : b2 - 1 + 1 = b2 := by omega
      have hi1 := hident (b2 - 1) (by omega) (by omega)
      have hi2 := hident b2 (by omega) (by omega)
      rcases hr2 with h0 | h0 | h0
      · omega
      · rw [(identChar_plain _ hi2).2.2.2.2.2.2] at h0
        cases h0
      · have hn := (hall (b2 - 1) (by omega) (by omega)).2
        rw [hfp _ (by omega)] at hn
        have ht2 : (lexStep (lexStep (lexState lexInit (l.take (b2 - 1)))
            (charAt l (b2 - 1))).1 (charAt l b2)).2 ≠ HighlightType.NORMAL := by
          rw [← lexState_take_succ _ _ _ (by omega), hp, ← hfp _ (by omega)]
          exact h0
        have hesc := lexStep_ident_untagged _ _ _ hi1 hi2 hn ht2
        have hpos : 1 ≤ b2 - 1 := by
          by_contra hz
          have hz2 : b2 - 1 = 0 := by omega
          rw [hz2] at hesc
          cases hesc
        have hq : b2 - 2 + 1 = b2 - 1 := by omega
        rw [← hq, lexState_take_succ _ _ _ (by omega)] at hesc
        obtain ⟨e1, e2⟩ := lexStep_sets_escape _ _ (lexState_take_reachable l (b2 - 2)) hesc
        rw [← hfp _ (by omega)] at e2
        by_cases hin : a2 ≤ b2 - 2
        · have := (identChar_plain _ (hword (b2 - 2) hin (by omega) hbl hmem)).2.1
          exact this e1
        · have ha3 : a2 - 1 = b2 - 2 := by omega
          rcases hl2 with h5 | h5 | h5
          · omega
          · rw [ha3, e1] at h5
            revert h5
            decide
          · rw [ha3] at h5
            exact h5 e2
    rw [h3, h4] at hmem
    exact hnot hmem

/-- Witness of C27, amended: no character of the identifier `done_x` is
keyword. -/
theorem keyword_whole_identifier_witness :
    (∀ t : Nat, t < 6 → 0 ≤ t → isIdentChar (charAt longWordLine t) = true) ∧
    (longWordLine.drop 0).take (6 - 0) ∉ SHELL_KEYWORDS ∧
    ∃ info : List HighlightType,
      (analyzeSyntax (viewerOf [longWordLine])).highlightInfo[0]? = some info ∧
      ∀ t : Nat, 0 ≤ t → t < 6 → info[t]? ≠ some HighlightType.KEYWORD :=
  ⟨by decide, by decide,
    keyword_whole_identifier (viewerOf [longWordLine]) 0 longWordLine rfl 0 6 (by decide)
      (by decide) (Or.inl rfl) (Or.inl rfl) (by decide)⟩

/-! ## Claims on the symbol pass -/

/-- The symbol test holds exactly on the seventeen symbol characters. -/
theorem isSymbolChar_iff (c : Char) : isSymbolChar c = true ↔ c ∈ symbolChars := by
  simp only [isSymbolChar, symbolChars, decide_eq_true_eq, List.mem_cons, List.mem_singleton,
    List.not_mem_nil, or_false]

/-- A symbol character starts no string, comment, number or variable, is no
escape and is no white space. -/
theorem symbolChar_plain : ∀ c ∈ symbolChars,
    (c ≠ backslash ∧ ¬ (c = dquote ∨ c = squote) ∧ c ≠ '#' ∧ isdigit c = false ∧ c ≠ '$') ∧
      isspace c = false ∧ isLetter c = false := by
  decide

/-- The first loop leaves a symbol character `NORMAL` or tags it `COMMENT` or
`STRING`. -/
theorem lexStep_symbol_tag (σ : LexState) (c : Char) (hc : c ∈ symbolChars) :
    (lexStep σ c).2 = HighlightType.NORMAL ∨ (lexStep σ c).2 = HighlightType.COMMENT ∨
      (lexStep σ c).2 = HighlightType.STRING := by
  obtain ⟨⟨p1, p2, p3, p4, p5⟩, _, _⟩ := symbolChar_plain c hc
  have hs : isSymbolChar c = true := (isSymbolChar_iff c).mpr hc
  rcases lexStep_cases σ c with e | e | e | e | e | e | e | e | e | e
  · have := (varChar_plain c e.2.1).2.2.2.2.2
    rw [hs] at this
    cases this
  · rw [e.2.2]; exact Or.inr (Or.inl rfl)
  · rw [e.2.2.2]; exact Or.inl rfl
  · rw [e.2.2.2]; exact Or.inl rfl
  · rw [e.2.2.2.2]; exact Or.inr (Or.inr rfl)
  · rw [e.2.2.2.2.2.2]; exact Or.inr (Or.inl rfl)
  · rw [e.2.2.2.2.2.2]; exact Or.inr (Or.inr rfl)
  · have := e.2.2.2.2.2.2.2.1
    rw [p4] at this
    cases this
  · exact absurd e.2.2.2.2.2.2.2.1 p5
  · rw [e.2.2.2.2.2.2.2.2.2]; exact Or.inl rfl

/-- C28 (symbol pass): a character is `SYMBOL` in the final annotation exactly
when it is one of the seventeen symbol characters and the first pass and the
keyword pass left it `NORMAL`; no character of the symbol set stays `NORMAL`,
a character that the first pass tagged keeps its tag, and a symbol character
ends as `SYMBOL`, `STRING` or `COMMENT`. -/
theorem symbol_pass (s : FileDisplay) (n : Nat) (l : List Char)
    (hline : s.originalLines[n]? = some l) :
    ∃ info : List HighlightType, (analyzeSyntax s).highlightInfo[n]? = some info ∧
      ∀ i : Nat, i < l.length →
        (info[i]? = some HighlightType.SYMBOL ↔
          (charAt l i ∈ symbolChars ∧
            infoAt (keywordPass l (firstPassLine l)) i = HighlightType.NORMAL)) ∧
        ¬ (info[i]? = some HighlightType.NORMAL ∧ charAt l i ∈ symbolChars) ∧
        (infoAt (firstPassLine l) i ≠ HighlightType.NORMAL →
          info[i]? = some (infoAt (firstPassLine l) i)) ∧
        (charAt l i ∈ symbolChars →
          info[i]? = some HighlightType.SYMBOL ∨ info[i]? = some HighlightType.STRING ∨
            info[i]? = some HighlightType.COMMENT) := by
  refine ⟨annotateLine l, analyzeSyntax_entry s n l hline, ?_⟩
  intro i hi
  have hlast : charAt l i ∈ symbolChars →
      infoAt (annotateLine l) i = HighlightType.SYMBOL ∨
        infoAt (annotateLine l) i = HighlightType.STRING ∨
        infoAt (annotateLine l) i = HighlightType.COMMENT := by
    intro hc
    have hs : isSymbolChar (charAt l i) = true := (isSymbolChar_iff _).mpr hc
    rcases annotateLine_cases l i hi with h | h | h
    · obtain ⟨h1, _, h3⟩ := h
      rw [h1]
      rcases h3 with h3 | h3
      · rw [firstPassLine_infoAt l i hi] at h3 ⊢
        rcases lexStep_symbol_tag _ _ hc with h0 | h0 | h0
        · exact absurd h0 h3
        · exact Or.inr (Or.inr h0)
        · exact Or.inr (Or.inl h0)
      · rw [hs] at h3
        cases h3
    · exact Or.inl h.2.2.2
    · exfalso
      obtain ⟨_, _, _, a, b, ha, hb, hbl, hmem, _⟩ := h
      have := keyword_letters _ hmem _ (charAt_mem_slice l a b i ha hb hbl)
      rw [(symbolChar_plain _ hc).2.2] at this
      cases this
  have hkl : (keywordPass l (firstPassLine l)).length = l.length := by
    rw [keywordPass_length, firstPassLine_length]
  have hsym := symbolPass_infoAt l (keywordPass l (firstPassLine l)) hkl i hi
  change infoAt (annotateLine l) i = _ at hsym
  have hkp : infoAt (keywordPass l (firstPassLine l)) i ≠ HighlightType.SYMBOL := by
    rcases annotateLine_cases l i hi with h | h | h
    · rw [h.2.1, firstPassLine_infoAt l i hi]
      exact (lexStep_tag _ _).2
    · rw [h.2.1]
      intro h0; cases h0
    · rw [h.2.1]
      intro h0; cases h0
  rw [annotateLine_getElem? _ _ hi]
  refine ⟨?_, ?_, ?_, ?_⟩
  rotate_right
  · intro hc
    rcases hlast hc with h0 | h0 | h0
    · exact Or.inl (congrArg some h0)
    · exact Or.inr (Or.inl (congrArg some h0))
    · exact Or.inr (Or.inr (congrArg some h0))
  all_goals try rw [← isSymbolChar_iff]
  · constructor
    · intro h
      have h2 := Option.some.inj h
      by_cases hc : infoAt (keywordPass l (firstPassLine l)) i = HighlightType.NORMAL ∧
          isSymbolChar (charAt l i) = true
      · exact ⟨hc.2, hc.1⟩
      · rw [if_neg hc] at hsym
        rw [hsym] at h2
        exact absurd h2 hkp
    · intro h
      rw [hsym, if_pos ⟨h.2, h.1⟩]
  · intro h
    have h2 := Option.some.inj h.1
    by_cases hc : infoAt (keywordPass l (firstPassLine l)) i = HighlightType.NORMAL ∧
        isSymbolChar (charAt l i) = true
    · rw [if_pos hc] at hsym
      rw [hsym] at h2
      cases h2
    · rw [if_neg hc] at hsym
      rw [hsym] at h2
      exact hc ⟨h2, h.2⟩
  · intro h
    rw [annotateLine_kept l i hi h]

/-- Witness of C28: in `x=1; "="` the `=` and the `;` outside the string are
symbol and the `=` inside the string keeps its string tag. -/
theorem symbol_pass_witness :
    ∃ info : List HighlightType,
      (analyzeSyntax (viewerOf [symbolLine])).highlightInfo[0]? = some info ∧
      info[1]? = some HighlightType.SYMBOL ∧ info[3]? = some HighlightType.SYMBOL ∧
      info[6]? = some HighlightType.STRING := by
  obtain ⟨info, h1, h2⟩ := symbol_pass (viewerOf [symbolLine]) 0 symbolLine rfl
  exact ⟨info, h1, (h2 1 (by decide)).1.mpr (by decide), (h2 3 (by decide)).1.mpr (by decide),
    (h2 6 (by decide)).2.2.1 (by decide)⟩

/-! ## Claims on the quit keys of the commit input -/

theorem strInsert_mem (msg : List Char) (pos : Int) (c : Char) (m : List Char)
    (h : strInsert msg pos c = some m) : ∀ x ∈ m, x ∈ msg ∨ x = c := by
  unfold strInsert at h
  by_cases hp : pos < 0 ∨ (msg.length : Int) < pos
  · rw [if_pos hp] at h; cases h
  · rw [if_neg hp] at h
    cases h
    intro x hx
    rw [List.mem_append, List.mem_cons] at hx
    rcases hx with hx | hx | hx
    · exact Or.inl (List.mem_of_mem_take hx)
    · exact Or.inr hx
    · exact Or.inl (List.mem_of_mem_drop hx)

theorem strErase_mem (msg : List Char) (pos : Int) (m : List Char)
    (h : strErase msg pos = some m) : ∀ x ∈ m, x ∈ msg := by
  unfold strErase at h
  by_cases hp : pos < 0 ∨ (msg.length : Int) < pos
  · rw [if_pos hp] at h; cases h
  · rw [if_neg hp] at h
    cases h
    intro x hx
    rw [List.mem_append] at hx
    rcases hx with hx | hx
    · exact List.mem_of_mem_take hx
    · exact List.mem_of_mem_drop hx

theorem keyUp_message (s s2 : gitInterface) (h : keyUp s = some s2) :
    s2.commitMessage = s.commitMessage := by
  unfold keyUp at h
  dsimp only at h
  split at h
  · cases h
  · split at h
    · split at h
      · cases h
      · cases h; rfl
    · cases h; rfl

theorem keyDown_message (s s2 : gitInterface) (h : keyDown s = some s2) :
    s2.commitMessage = s.commitMessage := by
  unfold keyDown at h
  dsimp only at h
  split at h
  · cases h
  · split at h
    · cases h; rfl
    · cases h; rfl

/-- A key of the focused commit input adds to the buffer at most a hard break
or the printable character of the key. -/
theorem editKey_message (s s2 : gitInterface) (ch : Int) (h : editKey s ch = some s2) :
    ∀ x ∈ s2.commitMessage,
      x ∈ s.commitMessage ∨ x = newline ∨ (isprint ch = true ∧ x = Char.ofNat ch.toNat) := by
  unfold editKey at h
  by_cases c1 : ch = KEY_ENTER ∨ ch = 10
  · rw [if_pos c1] at h
    cases hm : strInsert s.commitMessage s.cursorPos newline with
    | none => rw [hm] at h; cases h
    | some m =>
      rw [hm] at h
      cases h
      intro x hx
      rcases strInsert_mem _ _ _ _ hm x hx with h0 | h0
      · exact Or.inl h0
      · exact Or.inr (Or.inl h0)
  rw [if_neg c1] at h
  by_cases c2 : ch = KEY_LEFT
  · rw [if_pos c2] at h
    cases h
    intro x hx
    left
    split at hx <;> exact hx
  rw [if_neg c2] at h
  by_cases c3 : ch = KEY_RIGHT
  · rw [if_pos c3] at h
    cases h
    intro x hx
    left
    split at hx <;> exact hx
  rw [if_neg c3] at h
  by_cases c4 : ch = KEY_UP
  · rw [if_pos c4] at h
    intro x hx
    rw [keyUp_message s s2 h] at hx
    exact Or.inl hx
  rw [if_neg c4] at h
  by_cases c5 : ch = KEY_DOWN
  · rw [if_pos c5] at h
    intro x hx
    rw [keyDown_message s s2 h] at hx
    exact Or.inl hx
  rw [if_neg c5] at h
  by_cases c6 : ch = KEY_HOME
  · rw [if_pos c6] at h
    cases hm : lineStartScan s.commitMessage s.cursorPos.toNat s.cursorPos with
    | none => rw [hm] at h; cases h
    | some m =>
      rw [hm] at h
      cases h
      intro x hx
      exact Or.inl hx
  rw [if_neg c6] at h
  by_cases c7 : ch = KEY_END
  · rw [if_pos c7] at h
    cases h
    intro x hx
    exact Or.inl hx
  rw [if_neg c7] at h
  by_cases c8 : ch = 9
  · rw [if_pos c8] at h
    cases h
    intro x hx
    exact Or.inl hx
  rw [if_neg c8] at h
  by_cases c9 : ch = KEY_BACKSPACE ∨ ch = 127
  · rw [if_pos c9] at h
    by_cases hpos : s.cursorPos > 0
    · rw [if_pos hpos] at h
      cases hm : strErase s.commitMessage (s.cursorPos - 1) with
      | none => rw [hm] at h; cases h
      | some m =>
        rw [hm] at h
        cases h
        intro x hx
        exact Or.inl (strErase_mem _ _ _ hm x hx)
    · rw [if_neg hpos] at h
      cases h
      intro x hx
      exact Or.inl hx
  rw [if_neg c9] at h
  by_cases c10 : ch = KEY_DC
  · rw [if_pos c10] at h
    by_cases hlt : s.cursorPos < (s.commitMessage.length : Int)
    · rw [if_pos hlt] at h
      cases hm : strErase s.commitMessage s.cursorPos with
      | none => rw [hm] at h; cases h
      | some m =>
        rw [hm] at h
        cases h
        intro x hx
        exact Or.inl (strErase_mem _ _ _ hm x hx)
    · rw [if_neg hlt] at h
      cases h
      intro x hx
      exact Or.inl hx
  rw [if_neg c10] at h
  by_cases c11 : isprint ch = true
  · rw [if_pos c11] at h
    cases hm : strInsert s.commitMessage s.cursorPos (Char.ofNat ch.toNat) with
    | none => rw [hm] at h; cases h
    | some m =>
      rw [hm] at h
      cases h
      intro x hx
      rcases strInsert_mem _ _ _ _ hm x hx with h0 | h0
      · exact Or.inl h0
      · exact Or.inr (Or.inr ⟨c11, h0⟩)
  · rw [if_neg c11] at h
    cases h
    intro x hx
    exact Or.inl hx

/-- The printable characters other than `q` and `Q`. -/
theorem printable_char (k : Nat) (h1 : 32 ≤ k) (h2 : k ≤ 126) (h3 : k ≠ 113) (h4 : k ≠ 81) :
    isMessageChar (Char.ofNat k) = true := by
  revert h3 h4
  interval_cases k <;> decide

theorem messageChar_not_q (c : Char) (h : isMessageChar c = true) : c ≠ 'q' ∧ c ≠ 'Q' := by
  simp only [isMessageChar, Bool.or_eq_true, Bool.and_eq_true, decide_eq_true_eq] at h
  rcases h with h | h
  · rw [h]
    decide
  · exact h.2

theorem drawWindowState_message (s : gitInterface) :
    (drawWindowState s).commitMessage = s.commitMessage := by
  unfold drawWindowState
  split <;> rfl

theorem selectKey_message (s : gitInterface) (ch : Int) :
    (selectKey s ch).commitMessage = s.commitMessage := by
  unfold selectKey
  repeat' split
  all_goals rfl

/-- One iteration of the loop of `run` keeps the buffer free of `q` and `Q`,
and so is the message that it returns. -/
theorem runStep_message (s : gitInterface) (ch : Int) (r : RunResult)
    (hinv : ∀ x ∈ s.commitMessage, isMessageChar x = true) (h : runStep s ch = some r) :
    (∀ s2 : gitInterface, r = RunResult.continues s2 →
      ∀ x ∈ s2.commitMessage, isMessageChar x = true) ∧
    (∀ msg : List Char, r = RunResult.returns msg → ∀ x ∈ msg, isMessageChar x = true) := by
  have hd := drawWindowState_message s
  unfold runStep at h
  dsimp only at h
  by_cases hq : ch = 113 ∨ ch = 81
  · rw [if_pos hq] at h
    cases h
    refine ⟨fun s2 e => (by cases e), fun msg e => ?_⟩
    cases e
    intro x hx
    cases hx
  rw [if_neg hq] at h
  by_cases hshow : (drawWindowState s).showCommitInput = true
  · rw [if_pos hshow] at h
    by_cases hfocus : (drawWindowState s).hasInputFocus = true
    · rw [if_pos hfocus] at h
      cases he : editKey (drawWindowState s) ch with
      | none => rw [he] at h; cases h
      | some s1 =>
        rw [he] at h
        cases h
        refine ⟨fun s2 e => ?_, fun msg e => by cases e⟩
        cases e
        intro x hx
        rcases editKey_message _ _ _ he x hx with h0 | h0 | h0
        · rw [hd] at h0
          exact hinv x h0
        · rw [h0]
          decide
        · obtain ⟨hp, hx2⟩ := h0
          rw [hx2]
          simp only [isprint, decide_eq_true_eq] at hp
          exact printable_char _ (by omega) (by omega) (by omega) (by omega)
    · rw [if_neg hfocus] at h
      by_cases htab : ch = 9
      · rw [if_pos htab] at h
        cases h
        refine ⟨fun s2 e => ?_, fun msg e => by cases e⟩
        cases e
        intro x hx
        exact hinv x (by rw [← hd]; exact hx)
      rw [if_neg htab] at h
      by_cases hent : ch = KEY_ENTER ∨ ch = 10
      · rw [if_pos hent] at h
        by_cases hem : (drawWindowState s).commitMessage.isEmpty = true
        · rw [if_pos hem] at h
          cases h
          refine ⟨fun s2 e => ?_, fun msg e => by cases e⟩
          cases e
          intro x hx
          exact hinv x (by rw [← hd]; exact hx)
        · rw [if_neg hem] at h
          cases h
          refine ⟨fun s2 e => (by cases e), fun msg e => ?_⟩
          cases e
          intro x hx
          exact hinv x (by rw [← hd]; exact hx)
      · rw [if_neg hent] at h
        cases h
        refine ⟨fun s2 e => ?_, fun msg e => by cases e⟩
        cases e
        intro x hx
        exact hinv x (by rw [← hd]; exact hx)
  · rw [if_neg hshow] at h
    cases h
    refine ⟨fun s2 e => ?_, fun msg e => by cases e⟩
    cases e
    intro x hx
    rw [selectKey_message, hd] at hx
    exact hinv x hx

theorem runKeys_message : ∀ (keys : List Int) (s : gitInterface) (r : RunResult),
    (∀ x ∈ s.commitMessage, isMessageChar x = true) → runKeys s keys = some r →
    (∀ s2 : gitInterface, r = RunResult.continues s2 →
      ∀ x ∈ s2.commitMessage, isMessageChar x = true) ∧
    (∀ msg : List Char, r = RunResult.returns msg → ∀ x ∈ msg, isMessageChar x = true) := by
  intro keys
  induction keys with
  | nil =>
    intro s r hinv h
    cases h
    exact ⟨fun s2 e => (by cases e; exact hinv), fun msg e => (by cases e)⟩
  | cons ch rest ih =>
    intro s r hinv h
    rw [runKeys] at h
    cases hs : runStep s ch with
    | none => rw [hs] at h; cases h
    | some r1 =>
      rw [hs] at h
      obtain ⟨q1, q2⟩ := runStep_message s ch r1 hinv hs
      cases r1 with
      | returns msg =>
        cases h
        exact ⟨fun s2 e => (by cases e), q2⟩
      | continues s1 =>
        exact ih s1 r (q1 s1 rfl) h

/-- C29 (the commit message never holds a `q`): in every state that the loop
of `run` reaches from the empty buffer, every character of the buffer is a
hard break or a printable character other than `q` and `Q`, and the keys `q`
and `Q` end the run with the empty result; a message that the run returns
holds no `q` and no `Q` either. -/
theorem commit_message_never_holds_q (maxy maxx : Int) (items : List String)
    (keys : List Int) (r : RunResult)
    (hrun : runKeys (gitInterface.initial maxy maxx items) keys = some r) :
    (∀ s : gitInterface, r = RunResult.continues s →
      (∀ c ∈ s.commitMessage, isMessageChar c = true ∧ c ≠ 'q' ∧ c ≠ 'Q') ∧
      runStep s (keyOf 'q') = some (RunResult.returns []) ∧
      runStep s (keyOf 'Q') = some (RunResult.returns [])) ∧
    (∀ msg : List Char, r = RunResult.returns msg →
      ∀ c ∈ msg, isMessageChar c = true ∧ c ≠ 'q' ∧ c ≠ 'Q') := by
  obtain ⟨h1, h2⟩ := runKeys_message keys (gitInterface.initial maxy maxx items) r
    (fun x hx => by cases hx) hrun
  refine ⟨fun s e => ⟨fun c hc => ?_, rfl, rfl⟩, fun msg e c hc => ?_⟩
  · exact ⟨h1 s e c hc, messageChar_not_q c (h1 s e c hc)⟩
  · exact ⟨h2 msg e c hc, messageChar_not_q c (h2 msg e c hc)⟩

/-- Witness of C29: Tab, Enter, `h`, `i` from the empty buffer of the 60
column window leave the buffer `hi`. -/
theorem commit_message_never_holds_q_witness :
    ∃ s : gitInterface,
      runKeys (gitInterface.initial 20 60 []) [9, 10, 104, 105] =
        some (RunResult.continues s) ∧
      s.commitMessage = ['h', 'i'] ∧
      (∀ c ∈ s.commitMessage, isMessageChar c = true ∧ c ≠ 'q' ∧ c ≠ 'Q') ∧
      runStep s (keyOf 'q') = some (RunResult.returns []) :=
  ⟨_, rfl, rfl,
    ((commit_message_never_holds_q 20 60 [] [9, 10, 104, 105] _ rfl).1 _ rfl).1,
    ((commit_message_never_holds_q 20 60 [] [9, 10, 104, 105] _ rfl).1 _ rfl).2.1⟩

/-! ## Claims on keywords next to symbols -/

/-- A line of letters and symbol characters that is no keyword as a whole:
the first pass and the keyword pass tag nothing, and the symbol pass tags the
symbol characters. -/
theorem glued_line (l : List Char)
    (hchars : ∀ c ∈ l, isLetter c = true ∨ c ∈ symbolChars)
    (hnot : l ∉ SHELL_KEYWORDS) (i : Nat) (hi : i < l.length) :
    infoAt (annotateLine l) i =
      if isSymbolChar (charAt l i) = true then HighlightType.SYMBOL
      else HighlightType.NORMAL := by
  have hplain : ∀ c ∈ l, c ≠ backslash ∧ ¬ (c = dquote ∨ c = squote) ∧ c ≠ '#' ∧
      isdigit c = false ∧ c ≠ '$' := by
    intro c hc
    rcases hchars c hc with h | h
    · obtain ⟨p1, p2, p3, p4, p5, _⟩ := letter_or_space_plain c (Or.inl h)
      exact ⟨p1, p2, p3, p4, p5⟩
    · exact (symbolChar_plain c h).1
  have hspace : ∀ t : Nat, t < l.length → isspace (charAt l t) = false := by
    intro t ht
    rcases hchars _ (charAt_mem l t ht) with h | h
    · exact (varChar_plain _ (by simp [isVarChar, isalnum, isLetter] at h ⊢; tauto)).2.2.2.2.1
    · exact (symbolChar_plain _ h).2.1
  have hfp : firstPassLine l = List.replicate l.length HighlightType.NORMAL :=
    firstPass_plain l hplain _ _ _
  have hnorm : ∀ t : Nat, infoAt (firstPassLine l) t = HighlightType.NORMAL := by
    intro t
    rw [hfp]
    exact infoAt_replicate _ _
  rcases annotateLine_cases l i hi with h | h | h
  · obtain ⟨h1, _, h3⟩ := h
    rcases h3 with h3 | h3
    · exact absurd (hnorm i) h3
    · rw [h1, hnorm i, if_neg (by rw [h3]; decide)]
  · obtain ⟨_, _, h3, h4⟩ := h
    rw [h4, if_pos h3]
  · exfalso
    obtain ⟨_, _, _, a, b, ha, hb, hbl, hmem, _, hleft, hright, _⟩ := h
    have ha0 : a = 0 := by
      rcases hleft with h0 | h0 | h0
      · exact h0
      · by_contra hne
        rw [hspace (a - 1) (by omega)] at h0
        cases h0
      · exact absurd (hnorm _) h0
    have hbn : b = l.length := by
      rcases hright with h0 | h0 | h0
      · exact h0
      · by_contra hne
        rw [hspace b (by omega)] at h0
        cases h0
      · exact absurd (hnorm _) h0
    rw [ha0, hbn, List.drop_zero, Nat.sub_zero, List.take_length] at hmem
    exact hnot hmem

/-- C30 (a keyword glued to a symbol is not highlighted): in the lines `k s`
and `s k` without a blank, for a keyword `k` and a symbol character `s`, the
characters of `k` are `NORMAL` and `s` is `SYMBOL` in the final annotation;
in every line a character is `KEYWORD` only in a stretch that spells a keyword
and whose two neighbours are a line boundary, white space or a character that
the first pass tagged. -/
theorem keyword_glued_to_symbol (s : FileDisplay) (n : Nat) (l : List Char)
    (hline : s.originalLines[n]? = some l) :
    ∃ info : List HighlightType, (analyzeSyntax s).highlightInfo[n]? = some info ∧
      (∀ k ∈ SHELL_KEYWORDS, ∀ c ∈ symbolChars,
        (l = k ++ [c] →
          (∀ i : Nat, i < k.length → info[i]? = some HighlightType.NORMAL) ∧
            info[k.length]? = some HighlightType.SYMBOL) ∧
        (l = c :: k →
          info[0]? = some HighlightType.SYMBOL ∧
            ∀ i : Nat, i < k.length → info[i + 1]? = some HighlightType.NORMAL)) ∧
      (∀ i : Nat, info[i]? = some HighlightType.KEYWORD →
        ∃ a b : Nat, a ≤ i ∧ i < b ∧ b ≤ l.length ∧
          (l.drop a).take (b - a) ∈ SHELL_KEYWORDS ∧
          (∀ t : Nat, a ≤ t → t < b → info[t]? = some HighlightType.KEYWORD) ∧
          (a = 0 ∨ isspace (charAt l (a - 1)) = true ∨
            infoAt (firstPassLine l) (a - 1) ≠ HighlightType.NORMAL) ∧
          (b = l.length ∨ isspace (charAt l b) = true ∨
            infoAt (firstPassLine l) b ≠ HighlightType.NORMAL)) := by
  refine ⟨annotateLine l, analyzeSyntax_entry s n l hline, ?_, ?_⟩
  · intro k hk c hc
    have hcl : isLetter c = false := (symbolChar_plain c hc).2.2
    have hcs : isSymbolChar c = true := (isSymbolChar_iff c).mpr hc
    have hkl : ∀ d ∈ k, isLetter d = true := keyword_letters k hk
    have hks : ∀ d ∈ k, isSymbolChar d = false :=
      fun d hd => (letter_or_space_plain d (Or.inl (hkl d hd))).2.2.2.2.2
    constructor
    · intro hl
      subst hl
      have hchars : ∀ d ∈ k ++ [c], isLetter d = true ∨ d ∈ symbolChars := by
        intro d hd
        rw [List.mem_append, List.mem_singleton] at hd
        rcases hd with hd | hd
        · exact Or.inl (hkl d hd)
        · rw [hd]; exact Or.inr hc
      have hnot : k ++ [c] ∉ SHELL_KEYWORDS := by
        intro hm
        have := keyword_letters _ hm c (by simp)
        rw [hcl] at this
        cases this
      constructor
      · intro i hi
        have hil : i < (k ++ [c]).length := by
          rw [List.length_append]
          omega
        rw [annotateLine_getElem? _ _ hil, glued_line _ hchars hnot i hil,
          charAt_append_left _ _ _ hi, if_neg (by rw [hks _ (charAt_mem k i hi)]; decide)]
      · have hil : k.length < (k ++ [c]).length := by simp
        rw [annotateLine_getElem? _ _ hil, glued_line _ hchars hnot _ hil,
          charAt_append_cons, if_pos hcs]
    · intro hl
      subst hl
      have hchars : ∀ d ∈ c :: k, isLetter d = true ∨ d ∈ symbolChars := by
        intro d hd
        rw [List.mem_cons] at hd
        rcases hd with hd | hd
        · rw [hd]; exact Or.inr hc
        · exact Or.inl (hkl d hd)
      have hnot : c :: k ∉ SHELL_KEYWORDS := by
        intro hm
        have := keyword_letters _ hm c (by simp)
        rw [hcl] at this
        cases this
      constructor
      · have hil : 0 < (c :: k).length := by simp
        rw [annotateLine_getElem? _ _ hil, glued_line _ hchars hnot _ hil]
        exact congrArg some (if_pos hcs)
      · intro i hi
        have hil : i + 1 < (c :: k).length := by
          rw [List.length_cons]
          omega
        rw [annotateLine_getElem? _ _ hil, glued_line _ hchars hnot _ hil]
        have hch : charAt (c :: k) (i + 1) = charAt k i := rfl
        rw [hch, if_neg (by rw [hks _ (charAt_mem k i hi)]; decide)]
  · intro i hk
    have hil : i < l.length := by
      by_contra hn
      rw [List.getElem?_eq_none (by rw [annotateLine_length]; omega)] at hk
      cases hk
    rw [annotateLine_getElem? _ _ hil] at hk
    have hk2 := Option.some.inj hk
    rcases annotateLine_cases l i hil with h | h | h
    · rw [h.1, firstPassLine_infoAt l i hil] at hk2
      exact absurd hk2 (lexStep_tag _ _).1
    · rw [h.2.2.2] at hk2
      cases hk2
    · obtain ⟨_, _, _, a, b, ha, hb, hbl, hmem, _, hleft, hright, hmarked⟩ := h
      refine ⟨a, b, ha, hb, hbl, hmem, ?_, hleft, hright⟩
      intro t h1 h2
      rw [annotateLine_getElem? _ _ (by omega), hmarked t h1 h2]

/-- Witness of C30: in `done;` the four letters are plain and the `;` is
symbol. -/
theorem keyword_glued_to_symbol_witness :
    ∃ info : List HighlightType,
      (analyzeSyntax (viewerOf [['d', 'o', 'n', 'e', ';']])).highlightInfo[0]? = some info ∧
      (∀ i : Nat, i < 4 → info[i]? = some HighlightType.NORMAL) ∧
      info[4]? = some HighlightType.SYMBOL := by
  obtain ⟨info, h1, h2, _⟩ :=
    keyword_glued_to_symbol (viewerOf [['d', 'o', 'n', 'e', ';']]) 0
      ['d', 'o', 'n', 'e', ';'] rfl
  exact ⟨info, h1, (h2 ['d', 'o', 'n', 'e'] (by decide) ';' (by decide)).1 rfl⟩

/-! ## Claims on the characters inside a string -/

/-- A backslash is tagged by neither the keyword pass nor the symbol pass. -/
theorem backslash_final (l : List Char) (i : Nat) (hi : i < l.length)
    (hb : charAt l i = backslash)
    (hfp : infoAt (firstPassLine l) i = HighlightType.NORMAL) :
    infoAt (annotateLine l) i = HighlightType.NORMAL := by
  rcases annotateLine_cases l i hi with h | h | h
  · rw [h.1, hfp]
  · exfalso
    have := h.2.2.1
    rw [hb] at this
    revert this
    decide
  · exfalso
    obtain ⟨_, _, _, a, b, ha, hb2, hbl, hmem, _⟩ := h
    have := keyword_letters _ hmem _ (charAt_mem_slice l a b i ha hb2 hbl)
    rw [hb] at this
    revert this
    decide

/-- The character after a backslash that the first pass left `NORMAL`, itself
left `NORMAL` by the first pass, ends `SYMBOL` when it is in the symbol set
and `NORMAL` when it is not. -/
theorem escaped_final (l : List Char) (i : Nat) (hi : i + 1 < l.length)
    (hb : charAt l i = backslash)
    (f1 : infoAt (firstPassLine l) i = HighlightType.NORMAL)
    (f2 : infoAt (firstPassLine l) (i + 1) = HighlightType.NORMAL) :
    infoAt (annotateLine l) (i + 1) =
      if isSymbolChar (charAt l (i + 1)) = true then HighlightType.SYMBOL
      else HighlightType.NORMAL := by
  rcases annotateLine_cases l (i + 1) hi with h | h | h
  · obtain ⟨h1, _, h3⟩ := h
    rcases h3 with h3 | h3
    · exact absurd f2 h3
    · rw [h1, f2, if_neg (by rw [h3]; decide)]
  · obtain ⟨_, _, h3, h4⟩ := h
    rw [h4, if_pos h3]
  · exfalso
    obtain ⟨_, _, _, a, b, ha, hb2, hbl, hmem, _, hleft, _, _⟩ := h
    by_cases hai : a ≤ i
    · have hlet := keyword_letters _ hmem _ (charAt_mem_slice l a b i hai (by omega) hbl)
      rw [hb] at hlet
      revert hlet
      decide
    · have hae : a = i + 1 := by omega
      subst hae
      rcases hleft with h0 | h0 | h0
      · omega
      · rw [Nat.add_sub_cancel, hb] at h0
        revert h0
        decide
      · rw [Nat.add_sub_cancel] at h0
        exact h0 f1

/-- Counterexample to C24: in the line `"a\b"` the backslash and the `b` are
read with `inString` set, between the opening quote at offset 0 and the
closing quote at offset 4, and both are `NORMAL` in the final annotation. -/
theorem escape_inside_string_plain :
    (analyzeSyntax (viewerOf [escapeInStringLine])).highlightInfo[0]? =
      some [HighlightType.STRING, HighlightType.STRING, HighlightType.NORMAL,
        HighlightType.NORMAL, HighlightType.STRING] ∧
    (lexState lexInit (escapeInStringLine.take 1)).inString = true ∧
    (lexState lexInit (escapeInStringLine.take 2)).inString = true ∧
    (lexState lexInit (escapeInStringLine.take 3)).inString = true ∧
    (lexState lexInit (escapeInStringLine.take 4)).inString = true ∧
    (lexState lexInit (escapeInStringLine.take 5)).inString = false := by
  decide

/-- C24, amended: a character that the first loop reads with `inString` set
is, in the final annotation, `STRING` when `escapeChar` is clear and it is no
backslash; `NORMAL` when `escapeChar` is clear and it is a backslash, which
sets `escapeChar` and leaves `inString` set; and `SYMBOL` or `NORMAL`,
according to the symbol set, when `escapeChar` is set, which is the case only
directly after a backslash, and the character then clears `escapeChar` and
leaves `inString` set. -/
theorem string_interior (s : FileDisplay) (n : Nat) (l : List Char)
    (hline : s.originalLines[n]? = some l) (i : Nat) (hi : i < l.length)
    (hstr : (lexState lexInit (l.take i)).inString = true) :
    ∃ info : List HighlightType, (analyzeSyntax s).highlightInfo[n]? = some info ∧
      ((lexState lexInit (l.take i)).escapeChar = false → charAt l i ≠ backslash →
        info[i]? = some HighlightType.STRING) ∧
      ((lexState lexInit (l.take i)).escapeChar = false → charAt l i = backslash →
        info[i]? = some HighlightType.NORMAL ∧
        lexState lexInit (l.take (i + 1)) = ⟨true, false, true, false⟩) ∧
      ((lexState lexInit (l.take i)).escapeChar = true →
        0 < i ∧ charAt l (i - 1) = backslash ∧
        info[i]? =
          some (if isSymbolChar (charAt l i) = true then HighlightType.SYMBOL
            else HighlightType.NORMAL) ∧
        lexState lexInit (l.take (i + 1)) = ⟨true, false, false, false⟩) := by
  have hreach := lexState_take_reachable l i
  obtain ⟨hcom, hvar⟩ := reachable_inString _ hreach hstr
  refine ⟨annotateLine l, analyzeSyntax_entry s n l hline, ?_, ?_, ?_⟩
  · intro hesc hc
    have hfp : infoAt (firstPassLine l) i = HighlightType.STRING := by
      rw [firstPassLine_infoAt l i hi]
      exact lexStep_in_string _ _ hreach hstr hesc hc
    rw [annotateLine_getElem? _ _ hi, annotateLine_kept _ _ hi (by rw [hfp]; decide), hfp]
  · intro hesc hc
    have hstep : lexStep (lexState lexInit (l.take i)) (charAt l i) =
        (⟨true, false, true, false⟩, HighlightType.NORMAL) := by
      generalize lexState lexInit (l.take i) = σ at hstr hcom hvar hesc
      obtain ⟨inS, inC, esc, v⟩ := σ
      dsimp only at hstr hcom hvar hesc
      subst hstr hcom hvar hesc
      exact lexStep_backslash true false _ (not_var_false _) hc
    have hfp : infoAt (firstPassLine l) i = HighlightType.NORMAL := by
      rw [firstPassLine_infoAt l i hi, hstep]
    refine ⟨?_, by rw [lexState_take_succ _ _ _ hi, hstep]⟩
    rw [annotateLine_getElem? _ _ hi, backslash_final l i hi hc hfp]
  · intro hesc
    have hpos : 0 < i := by
      by_contra hz
      have hz2 : i = 0 := by omega
      rw [hz2] at hesc
      cases hesc
    have hj : i - 1 + 1 = i := by omega
    have hprev := hesc
    rw [← hj, lexState_take_succ _ _ _ (by omega)] at hprev
    obtain ⟨e1, e2⟩ := lexStep_sets_escape _ _ (lexState_take_reachable l (i - 1)) hprev
    rw [← firstPassLine_infoAt l (i - 1) (by omega)] at e2
    have hstep : lexStep (lexState lexInit (l.take i)) (charAt l i) =
        (⟨true, false, false, false⟩, HighlightType.NORMAL) := by
      generalize lexState lexInit (l.take i) = σ at hstr hcom hvar hesc
      obtain ⟨inS, inC, esc, v⟩ := σ
      dsimp only at hstr hcom hvar hesc
      subst hstr hcom hvar hesc
      exact lexStep_escaped true false _ (not_var_false _)
    have hfp : infoAt (firstPassLine l) i = HighlightType.NORMAL := by
      rw [firstPassLine_infoAt l i hi, hstep]
    refine ⟨hpos, e1, ?_, by rw [lexState_take_succ _ _ _ hi, hstep]⟩
    have hfin := escaped_final l (i - 1) (by omega) e1 e2 (by rw [hj]; exact hfp)
    rw [hj] at hfin
    rw [annotateLine_getElem? _ _ hi, hfin]

/-- Witness of C24, amended: in `"a\b"` the three characters between the
quotes are read with `inString` set; the `a` is string, the backslash is
plain and the escaped `b` is plain. -/
theorem string_interior_witness :
    (∀ i : Nat, i < 4 → 1 ≤ i →
      (lexState lexInit (escapeInStringLine.take i)).inString = true) ∧
    (∃ info : List HighlightType,
      (analyzeSyntax (viewerOf [escapeInStringLine])).highlightInfo[0]? = some info ∧
      info[1]? = some HighlightType.STRING) ∧
    (∃ info : List HighlightType,
      (analyzeSyntax (viewerOf [escapeInStringLine])).highlightInfo[0]? = some info ∧
      info[2]? = some HighlightType.NORMAL) ∧
    (∃ info : List HighlightType,
      (analyzeSyntax (viewerOf [escapeInStringLine])).highlightInfo[0]? = some info ∧
      info[3]? = some HighlightType.NORMAL) := by
  obtain ⟨info1, a1, b1, _, _⟩ :=
    string_interior (viewerOf [escapeInStringLine]) 0 escapeInStringLine rfl 1 (by decide)
      (by decide)
  obtain ⟨info2, a2, _, b2, _⟩ :=
    string_interior (viewerOf [escapeInStringLine]) 0 escapeInStringLine rfl 2 (by decide)
      (by decide)
  obtain ⟨info3, a3, _, _, b3⟩ :=
    string_interior (viewerOf [escapeInStringLine]) 0 escapeInStringLine rfl 3 (by decide)
      (by decide)
  exact ⟨by decide, ⟨info1, a1, b1 (by decide) (by decide)⟩, ⟨info2, a2, (b2 (by decide) (by decide)).1⟩,
    ⟨info3, a3, (b3 (by decide)).2.2.1⟩⟩

end LabTui
